import Mathlib

/-!
# Verification of `noob::hash_table`

A shallow embedding of `src/HashTable.hpp` and `src/HashTable.cpp`: an open-addressing
hash table with linear probing and backward-shift deletion, mapping `size_t` keys to
`size_t` values.

Conventions of the embedding:

* `size_t` is a 64-bit unsigned integer (so that `integer_hash` and `upper_power_of_two`
  resolve to their `uint64_t` overloads), embedded as `Nat`; every arithmetic operation
  of the source that can wrap is written with an explicit `% 2 ^ 64`.
* A `cell*` is a `cell_ptr`: `NULL`, the address of `cell_zero`, or the address of the
  regular cell with a given index in `cells`.
* The backing array `cells` is a `List cell`; reading outside of it has no defined result.
* Every loop of the source without a bound (`for (;;)`) is embedded with a fuel argument.
  A circular walk gets the number of cells of the array as fuel: after that many steps
  it is back where it started. The outer loop of `insert` gets 65: every turn that does
  not return doubles `array_size`, which wraps to `0` after at most 64 doublings.
  `none` stands for "no defined result": a failed `assert`, a read outside of the array,
  or a loop that does not finish.
* The allocation `new cell[n]` always succeeds in the operations; the reachable states
  (`Reachable`) are those in which every array that was allocated has a size in bytes
  that is a `size_t`. The operations with the suffix `_alloc` are the same code with an
  allocation that can fail: they take the sizes for which `new` succeeds as an argument,
  and a failed `new` ends the run with the state of the table at that moment.
-/

namespace noob

/-! ## Header: `HashTable.hpp` -/

/-- The 64-bit overload `upper_power_of_two(uint64_t)`. -/
def upper_power_of_two (v : Nat) : Nat :=
  let v := (v + 2 ^ 64 - 1) % 2 ^ 64
  let v := v ||| (v >>> 1)
  let v := v ||| (v >>> 2)
  let v := v ||| (v >>> 4)
  let v := v ||| (v >>> 8)
  let v := v ||| (v >>> 16)
  let v := v ||| (v >>> 32)
  (v + 1) % 2 ^ 64

/-- The 64-bit overload `integer_hash(uint64_t)` (the MurmurHash3 finalizer). -/
def integer_hash (k : Nat) : Nat :=
  let k := k ^^^ (k >>> 33)
  let k := (k * 0xff51afd7ed558ccd) % 2 ^ 64
  let k := k ^^^ (k >>> 33)
  let k := (k * 0xc4ceb9fe1a85ec53) % 2 ^ 64
  let k := k ^^^ (k >>> 33)
  k

/-- The struct `hash_table::cell`. -/
structure cell where
  key : Nat
  value : Nat
  deriving DecidableEq

/-- A value of type `cell*` as the table hands it out: `NULL`, `&cell_zero`, or
`cells + i`. -/
inductive cell_ptr where
  | null : cell_ptr
  | zero : cell_ptr
  | reg (i : Nat) : cell_ptr
  deriving DecidableEq

/-- The data members of `class hash_table`. -/
structure hash_table where
  cells : List cell
  array_size : Nat
  population : Nat
  zero_used : Bool
  cell_zero : cell
  deriving DecidableEq

/-! ## Macros of `HashTable.cpp` -/

/-- The macro `FIRST_CELL(hash)`, as an index into `cells`:
`hash & (array_size - 1)`, the subtraction wrapping as `size_t` does. -/
def FIRST_CELL (array_size hash : Nat) : Nat :=
  hash &&& ((array_size + 2 ^ 64 - 1) % 2 ^ 64)

/-- The macro `CIRCULAR_NEXT(c)`, on indices. -/
def CIRCULAR_NEXT (array_size c : Nat) : Nat :=
  if c + 1 ≠ array_size then c + 1 else 0

/-- The macro `CIRCULAR_OFFSET(a, b)`, on indices. -/
def CIRCULAR_OFFSET (array_size a b : Nat) : Nat :=
  if b ≥ a then b - a else array_size + b - a

/-- The test `(n & (n - 1)) == 0` of the two "Must be a power of 2" assertions. -/
def power_of_2_assert (n : Nat) : Bool :=
  (n &&& ((n + 2 ^ 64 - 1) % 2 ^ 64)) == 0

/-- The value of `sizeof(cell)`: two 64-bit words. -/
def sizeof_cell : Nat := 16

/-! ## Operations of `HashTable.cpp` -/

/-- The constructor `hash_table::hash_table(initialSize)`. -/
def hash_table.construct (initialSize : Nat) : Option hash_table :=
  if power_of_2_assert initialSize then
    some { cells := List.replicate initialSize ⟨0, 0⟩
           array_size := initialSize
           population := 0
           zero_used := false
           cell_zero := ⟨0, 0⟩ }
  else none

/-- The probe loop of `lookup`, started at cell `c`:
`for (cell = c;; cell = CIRCULAR_NEXT(cell))`. -/
def lookup_loop (cells : List cell) (array_size key : Nat) : Nat → Nat → Option cell_ptr
  | 0, _ => none
  | fuel + 1, c =>
    match cells[c]? with
    | none => none
    | some x =>
      if x.key = key then some (cell_ptr.reg c)
      else if x.key = 0 then some cell_ptr.null
      else lookup_loop cells array_size key fuel (CIRCULAR_NEXT array_size c)

/-- The method `hash_table::lookup(key)`. -/
def hash_table.lookup (t : hash_table) (key : Nat) : Option cell_ptr :=
  if key ≠ 0 then
    lookup_loop t.cells t.array_size key t.array_size
      (FIRST_CELL t.array_size (integer_hash key))
  else if t.zero_used then some cell_ptr.zero
  else some cell_ptr.null

/-- The inner loop of `repopulate`: the first cell without a key, from `c` on. -/
def repopulate_probe (cells : List cell) (array_size : Nat) : Nat → Nat → Option Nat
  | 0, _ => none
  | fuel + 1, c =>
    match cells[c]? with
    | none => none
    | some x =>
      if x.key = 0 then some c
      else repopulate_probe cells array_size fuel (CIRCULAR_NEXT array_size c)

/-- The outer loop of `repopulate`, `for (c = oldcells; c != end; c++)`, over the list of
the cells of the old array, `fresh` being the new array. -/
def repopulate_loop (array_size : Nat) : List cell → List cell → Option (List cell)
  | [], fresh => some fresh
  | c :: rest, fresh =>
    if c.key ≠ 0 then
      match repopulate_probe fresh array_size array_size
          (FIRST_CELL array_size (integer_hash c.key)) with
      | none => none
      | some i => repopulate_loop array_size rest (fresh.set i c)
    else repopulate_loop array_size rest fresh

/-- The two assertions at the head of `repopulate(desiredSize)`. -/
def repopulate_assert (t : hash_table) (desiredSize : Nat) : Bool :=
  power_of_2_assert desiredSize &&
    decide ((t.population * 4) % 2 ^ 64 ≤ (desiredSize * 3) % 2 ^ 64)

/-- The method `hash_table::repopulate(desiredSize)`. -/
def hash_table.repopulate (t : hash_table) (desiredSize : Nat) : Option hash_table :=
  if repopulate_assert t desiredSize then
    match repopulate_loop desiredSize t.cells (List.replicate desiredSize ⟨0, 0⟩) with
    | none => none
    | some fresh => some { t with cells := fresh, array_size := desiredSize }
  else none

/-- What the probe loop of `insert` stops at: a cell holding the key, or an empty cell. -/
inductive probe_result where
  | found (c : Nat) : probe_result
  | empty (c : Nat) : probe_result
  deriving DecidableEq

/-- The inner probe loop of `insert`, up to the point where it leaves the loop. -/
def insert_probe (cells : List cell) (array_size key : Nat) : Nat → Nat → Option probe_result
  | 0, _ => none
  | fuel + 1, c =>
    match cells[c]? with
    | none => none
    | some x =>
      if x.key = key then some (probe_result.found c)
      else if x.key = 0 then some (probe_result.empty c)
      else insert_probe cells array_size key fuel (CIRCULAR_NEXT array_size c)

/-- The outer `for (;;)` of `insert` for a nonzero key; each turn that does not return
doubles `array_size`. -/
def insert_loop (key : Nat) : Nat → hash_table → Option (hash_table × cell_ptr)
  | 0, _ => none
  | fuel + 1, t =>
    match insert_probe t.cells t.array_size key t.array_size
        (FIRST_CELL t.array_size (integer_hash key)) with
    | none => none
    | some (probe_result.found c) => some (t, cell_ptr.reg c)
    | some (probe_result.empty c) =>
      if ((t.population + 1) * 4) % 2 ^ 64 ≥ (t.array_size * 3) % 2 ^ 64 then
        match t.repopulate ((t.array_size * 2) % 2 ^ 64) with
        | none => none
        | some t1 => insert_loop key fuel t1
      else
        match t.cells[c]? with
        | none => none
        | some x =>
          some ({ t with population := (t.population + 1) % 2 ^ 64
                         cells := t.cells.set c { x with key := key } },
                cell_ptr.reg c)

/-- The method `hash_table::insert(key)`. After 64 doublings `array_size` is `0`, so 65
turns of the outer loop are all that a run can make. -/
def hash_table.insert (t : hash_table) (key : Nat) : Option (hash_table × cell_ptr) :=
  if key ≠ 0 then insert_loop key 65 t
  else if ¬ t.zero_used then
    let t1 := { t with zero_used := true, population := (t.population + 1) % 2 ^ 64 }
    if (t1.population * 4) % 2 ^ 64 ≥ (t1.array_size * 3) % 2 ^ 64 then
      match t1.repopulate ((t1.array_size * 2) % 2 ^ 64) with
      | none => none
      | some t2 => some (t2, cell_ptr.zero)
    else some (t1, cell_ptr.zero)
  else some (t, cell_ptr.zero)

/-- The backward-shift loop of `delete(cell*)` on a regular cell `c`, `neighbor` walking
forward from it. -/
def delete_loop (array_size : Nat) : Nat → List cell → Nat → Nat → Option (List cell)
  | 0, _, _, _ => none
  | fuel + 1, cells, c, neighbor =>
    match cells[neighbor]? with
    | none => none
    | some x =>
      if x.key = 0 then some (cells.set c ⟨0, 0⟩)
      else
        let ideal := FIRST_CELL array_size (integer_hash x.key)
        if CIRCULAR_OFFSET array_size ideal c < CIRCULAR_OFFSET array_size ideal neighbor then
          delete_loop array_size fuel (cells.set c x) neighbor
            (CIRCULAR_NEXT array_size neighbor)
        else
          delete_loop array_size fuel cells c (CIRCULAR_NEXT array_size neighbor)

/-- The method `hash_table::delete(cell*)`. -/
def hash_table.delete (t : hash_table) : cell_ptr → Option hash_table
  | cell_ptr.null => none
  | cell_ptr.reg c =>
    match t.cells[c]? with
    | none => none
    | some x =>
      if c < t.array_size ∧ x.key ≠ 0 then
        match delete_loop t.array_size t.array_size t.cells c
            (CIRCULAR_NEXT t.array_size c) with
        | none => none
        | some cells1 =>
          some { t with cells := cells1
                        population := (t.population + 2 ^ 64 - 1) % 2 ^ 64 }
      else none
  | cell_ptr.zero =>
    if t.zero_used then
      some { t with zero_used := false
                    cell_zero := { t.cell_zero with value := 0 }
                    population := (t.population + 2 ^ 64 - 1) % 2 ^ 64 }
    else none

/-- The inline method `hash_table::delete(size_t key)` of the header. -/
def hash_table.delete_key (t : hash_table) (key : Nat) : Option hash_table :=
  match t.lookup key with
  | none => none
  | some cell_ptr.null => some t
  | some value => t.delete value

/-- The method `hash_table::clear()`. -/
def hash_table.clear (t : hash_table) : hash_table :=
  { t with cells := List.replicate t.array_size ⟨0, 0⟩
           population := 0
           zero_used := false
           cell_zero := { t.cell_zero with value := 0 } }

/-- The method `hash_table::compact()`. -/
def hash_table.compact (t : hash_table) : Option hash_table :=
  t.repopulate (upper_power_of_two (((t.population * 4 + 3) % 2 ^ 64) / 3))

/-! ## The iterator -/

/-- The data member `current` of `hash_table::iterator` (the table itself is passed to
every operation). -/
structure iterator where
  current : cell_ptr
  deriving DecidableEq

/-- The loop `while (++current != end)` of `iterator::next`; `i` is the index of
`current` after the increment. -/
def iterator.next_loop (t : hash_table) : Nat → Nat → Option cell_ptr
  | 0, _ => none
  | fuel + 1, i =>
    if i = t.array_size then some cell_ptr.null
    else
      match t.cells[i]? with
      | none => none
      | some x =>
        if x.key ≠ 0 then some (cell_ptr.reg i)
        else iterator.next_loop t fuel (i + 1)

/-- The method `iterator::next()`: the iterator afterwards, whose `current` is also the
value returned. -/
def iterator.next (t : hash_table) (it : iterator) : Option iterator :=
  match it.current with
  | cell_ptr.null => some it
  | cell_ptr.zero => (iterator.next_loop t (t.array_size + 1) 0).map iterator.mk
  | cell_ptr.reg i => (iterator.next_loop t (t.array_size + 1) (i + 1)).map iterator.mk

/-- The constructor `iterator::iterator(table)`. -/
def iterator.construct (t : hash_table) : Option iterator :=
  if ¬ t.zero_used then iterator.next t ⟨cell_ptr.zero⟩
  else some ⟨cell_ptr.zero⟩

/-! ## Clients of the table: reading and writing through a handle, a full iteration -/

/-- Reading `*p` for a handle `p`. -/
def hash_table.deref (t : hash_table) : cell_ptr → Option cell
  | cell_ptr.null => none
  | cell_ptr.zero => some t.cell_zero
  | cell_ptr.reg i => t.cells[i]?

/-- The assignment `p->value = v` for a handle `p`. -/
def hash_table.set_value (t : hash_table) (p : cell_ptr) (v : Nat) : Option hash_table :=
  match p with
  | cell_ptr.null => none
  | cell_ptr.zero => some { t with cell_zero := { t.cell_zero with value := v } }
  | cell_ptr.reg i =>
    match t.cells[i]? with
    | none => none
    | some x => some { t with cells := t.cells.set i { x with value := v } }

/-- The client loop `for (; *it; it.next())`, collecting the cells it visits. -/
def iterate_loop (t : hash_table) : Nat → iterator → Option (List cell)
  | 0, _ => none
  | fuel + 1, it =>
    match it.current with
    | cell_ptr.null => some []
    | p =>
      match t.deref p, iterator.next t it with
      | some x, some it1 => (iterate_loop t fuel it1).map (List.cons x)
      | _, _ => none

/-- The cells a fresh iterator visits, in order. -/
def hash_table.iterate (t : hash_table) : Option (List cell) :=
  match iterator.construct t with
  | none => none
  | some it => iterate_loop t (t.array_size + 2) it

/-! ## Vocabulary of the specification -/

/-- The regular cell with index `i`. -/
def cellAt (cells : List cell) (i : Nat) : cell := cells.getD i ⟨0, 0⟩

/-- The key of the regular cell with index `i`. -/
def keyAt (cells : List cell) (i : Nat) : Nat := (cellAt cells i).key

/-- The index at which the probe for `key` starts in an array of `n` cells. -/
def ideal (n key : Nat) : Nat := FIRST_CELL n (integer_hash key)

/-- No empty cell interrupts the walk from the ideal cell of a key to the cell that
holds it. -/
def NoGaps (cells : List cell) : Prop :=
  ∀ i, i < cells.length → keyAt cells i ≠ 0 →
    ∀ j, j < cells.length →
      CIRCULAR_OFFSET cells.length (ideal cells.length (keyAt cells i)) j <
        CIRCULAR_OFFSET cells.length (ideal cells.length (keyAt cells i)) i →
      keyAt cells j ≠ 0

/-- No two regular cells hold the same nonzero key. -/
def NoDupKeys (cells : List cell) : Prop :=
  ∀ i, i < cells.length → ∀ j, j < cells.length →
    keyAt cells i ≠ 0 → keyAt cells i = keyAt cells j → i = j

/-- The array holds the cell `x` at some index. -/
def Holds (cells : List cell) (x : cell) : Prop :=
  ∃ i, i < cells.length ∧ cellAt cells i = x

/-- An array of `n` cells in which every probe ends: it has no gaps, no duplicate keys,
and at least one empty cell. -/
structure WFCells (cells : List cell) (n : Nat) : Prop where
  len : cells.length = n
  small : n ≤ 2 ^ 64
  nogaps : NoGaps cells
  nodup : NoDupKeys cells
  has_empty : ∃ e, e < n ∧ keyAt cells e = 0

/-- The number of regular cells that hold a key. -/
def occupied (cells : List cell) : Nat := cells.countP (fun c => decide (c.key ≠ 0))

/-- A power of two, `1` included. -/
def IsPow2 (n : Nat) : Prop := ∃ e, n = 2 ^ e

/-- The invariant of the table. The field `fits` says that no product the code computes
from `array_size` wraps; it holds for every array that can be allocated, and for the array
one doubling later. -/
structure Inv (t : hash_table) : Prop where
  len : t.cells.length = t.array_size
  pow2 : IsPow2 t.array_size
  fits : t.array_size * 2 * 3 < 2 ^ 64
  zero_key : t.cell_zero.key = 0
  pop : t.population = occupied t.cells + (if t.zero_used then 1 else 0)
  load : t.population * 4 < t.array_size * 3
  nogaps : NoGaps t.cells
  nodup : NoDupKeys t.cells

/-- What `insert(k)` establishes when it takes the table `t` to `t1` and returns `p`. -/
structure InsertPost (t : hash_table) (k : Nat) (t1 : hash_table) (p : cell_ptr) : Prop where
  wf : WFCells t1.cells t1.array_size
  pow2 : IsPow2 t1.array_size
  pop : t1.population = occupied t1.cells + (if t1.zero_used then 1 else 0)
  load : t1.population * 4 < t1.array_size * 3
  found : t1.lookup k = some p
  ptr : (k ≠ 0 ∧ ∃ i, p = cell_ptr.reg i ∧ i < t1.array_size ∧ keyAt t1.cells i = k) ∨
    (k = 0 ∧ p = cell_ptr.zero ∧ t1.zero_used = true)
  same : t.lookup k ≠ some cell_ptr.null → t1 = t
  grow : t.lookup k = some cell_ptr.null →
    t1.population = t.population + 1 ∧
      t1.array_size =
        if (t.population + 1) * 4 ≥ t.array_size * 3 then 2 * t.array_size
        else t.array_size
  frame : ∀ x : cell, x.key ≠ 0 → x.key ≠ k → (Holds t1.cells x ↔ Holds t.cells x)
  zero_frame : t1.cell_zero = t.cell_zero ∧ (k ≠ 0 → t1.zero_used = t.zero_used)
  bound : t1.array_size ≤ t.array_size * 2

/-- What `delete(k)` (by key) establishes when it takes the table `t` to `t1`. -/
structure DeletePost (t : hash_table) (k : Nat) (t1 : hash_table) : Prop where
  inv : Inv t1
  gone : t1.lookup k = some cell_ptr.null
  size : t1.array_size = t.array_size
  same : t.lookup k = some cell_ptr.null → t1 = t
  shrink : t.lookup k ≠ some cell_ptr.null → t1.population + 1 = t.population
  frame : ∀ x : cell, x.key ≠ 0 → (Holds t1.cells x ↔ Holds t.cells x ∧ x.key ≠ k)
  zero_frame : k ≠ 0 → t1.zero_used = t.zero_used ∧ t1.cell_zero = t.cell_zero
  cells_frame : k = 0 → t1.cells = t.cells ∧ t1.zero_used = false

/-- The states of a table that a client can reach: it constructs the table with a
power-of-two size, and then calls `insert`, `delete` (by key, or by a handle that
`lookup` has just returned), `clear` and `compact`, and writes values through handles
that `lookup` has just returned (the handle `insert` returns is the one `lookup` returns
next). An array is only ever allocated when its size in bytes is a `size_t`. -/
inductive Reachable : hash_table → Prop
  | construct {n e : Nat} {t : hash_table} :
      n = 2 ^ e → sizeof_cell * n < 2 ^ 64 → hash_table.construct n = some t → Reachable t
  | insert {t t1 : hash_table} {k : Nat} {p : cell_ptr} :
      Reachable t → t.insert k = some (t1, p) → sizeof_cell * t1.array_size < 2 ^ 64 →
      Reachable t1
  | delete_key {t t1 : hash_table} {k : Nat} :
      Reachable t → t.delete_key k = some t1 → Reachable t1
  | delete {t t1 : hash_table} {k : Nat} {p : cell_ptr} :
      Reachable t → t.lookup k = some p → t.delete p = some t1 → Reachable t1
  | clear {t : hash_table} : Reachable t → Reachable t.clear
  | compact {t t1 : hash_table} : Reachable t → t.compact = some t1 → Reachable t1
  | set_value {t t1 : hash_table} {k v : Nat} {p : cell_ptr} :
      Reachable t → t.lookup k = some p → t.set_value p v = some t1 → Reachable t1

/-- The regular cells that hold a key, in the order of the array. -/
def occupied_cells (cells : List cell) : List cell :=
  cells.filter (fun c => decide (c.key ≠ 0))

/-- The cells of the table in the order of the specification of the iterator: the zero
cell if it is in use, then the occupied regular cells in the order of the array. -/
def hash_table.contents (t : hash_table) : List cell :=
  (if t.zero_used then [t.cell_zero] else []) ++ occupied_cells t.cells

/-- The key is present: `lookup(key)` returns a cell. -/
def hash_table.found (t : hash_table) (key : Nat) : Prop :=
  ∃ p, t.lookup key = some p ∧ p ≠ cell_ptr.null

/-- The value that `lookup(key)` finds: the value of the cell returned, if any. -/
def hash_table.value_of (t : hash_table) (key : Nat) : Option (Option Nat) :=
  match t.lookup key with
  | none => none
  | some cell_ptr.null => some none
  | some p => (t.deref p).map (fun x => some x.value)

/-- The client loop that inserts the keys of a list one after the other. -/
def insert_all (t : hash_table) : List Nat → Option hash_table
  | [] => some t
  | k :: ks =>
    match t.insert k with
    | none => none
    | some (t1, _) => insert_all t1 ks

/-- The size of the array after `m` inserts of absent keys into a table of population `p`
and size `c`, by the growth rule of `insert`. -/
def grow_from (p c : Nat) : Nat → Nat
  | 0 => c
  | m + 1 => grow_from (p + 1) (if (p + 1) * 4 ≥ c * 3 then 2 * c else c) m

/-! ## A small table for the examples

The keys 4, 5 and 7 all have the cell 5 as their ideal cell in an array of 8 cells. -/

/-- The table `hash_table(8)`. -/
def demo_0 : hash_table :=
  { cells := List.replicate 8 ⟨0, 0⟩, array_size := 8, population := 0, zero_used := false
    cell_zero := ⟨0, 0⟩ }

/-- The table after `insert(4)`. -/
def demo_1 : hash_table :=
  { cells := [⟨0, 0⟩, ⟨0, 0⟩, ⟨0, 0⟩, ⟨0, 0⟩, ⟨0, 0⟩, ⟨4, 0⟩, ⟨0, 0⟩, ⟨0, 0⟩]
    array_size := 8, population := 1, zero_used := false, cell_zero := ⟨0, 0⟩ }

/-- The table after `insert(5)`. -/
def demo_2 : hash_table :=
  { cells := [⟨0, 0⟩, ⟨0, 0⟩, ⟨0, 0⟩, ⟨0, 0⟩, ⟨0, 0⟩, ⟨4, 0⟩, ⟨5, 0⟩, ⟨0, 0⟩]
    array_size := 8, population := 2, zero_used := false, cell_zero := ⟨0, 0⟩ }

/-- The table after `insert(7)`. -/
def demo_3 : hash_table :=
  { cells := [⟨0, 0⟩, ⟨0, 0⟩, ⟨0, 0⟩, ⟨0, 0⟩, ⟨0, 0⟩, ⟨4, 0⟩, ⟨5, 0⟩, ⟨7, 0⟩]
    array_size := 8, population := 3, zero_used := false, cell_zero := ⟨0, 0⟩ }

/-- The table after `lookup(5)->value = 50`. -/
def demo_4 : hash_table :=
  { cells := [⟨0, 0⟩, ⟨0, 0⟩, ⟨0, 0⟩, ⟨0, 0⟩, ⟨0, 0⟩, ⟨4, 0⟩, ⟨5, 50⟩, ⟨7, 0⟩]
    array_size := 8, population := 3, zero_used := false, cell_zero := ⟨0, 0⟩ }

/-! ## Allocation that can fail -/

/-- How a run that allocates an array ends: it returns, or `new` throws `std::bad_alloc`
and the run is abandoned, leaving the table in the state it has at that moment. -/
inductive alloc_result (α : Type) where
  | returned (a : α) : alloc_result α
  | bad_alloc (t : hash_table) : alloc_result α

/-- The method `hash_table::repopulate(desiredSize)` when `new cell[n]` succeeds only if
`alloc n`. The assignment `array_size = desiredSize` comes before the allocation. -/
def hash_table.repopulate_alloc (alloc : Nat → Bool) (t : hash_table) (desiredSize : Nat) :
    Option (alloc_result hash_table) :=
  if repopulate_assert t desiredSize then
    if alloc desiredSize then
      match repopulate_loop desiredSize t.cells (List.replicate desiredSize ⟨0, 0⟩) with
      | none => none
      | some fresh =>
        some (alloc_result.returned { t with cells := fresh, array_size := desiredSize })
    else some (alloc_result.bad_alloc { t with array_size := desiredSize })
  else none

/-- The outer loop of `insert` for a nonzero key when `new cell[n]` succeeds only if
`alloc n`. -/
def insert_loop_alloc (alloc : Nat → Bool) (key : Nat) :
    Nat → hash_table → Option (alloc_result (hash_table × cell_ptr))
  | 0, _ => none
  | fuel + 1, t =>
    match insert_probe t.cells t.array_size key t.array_size
        (FIRST_CELL t.array_size (integer_hash key)) with
    | none => none
    | some (probe_result.found c) => some (alloc_result.returned (t, cell_ptr.reg c))
    | some (probe_result.empty c) =>
      if ((t.population + 1) * 4) % 2 ^ 64 ≥ (t.array_size * 3) % 2 ^ 64 then
        match t.repopulate_alloc alloc ((t.array_size * 2) % 2 ^ 64) with
        | none => none
        | some (alloc_result.bad_alloc t1) => some (alloc_result.bad_alloc t1)
        | some (alloc_result.returned t1) => insert_loop_alloc alloc key fuel t1
      else
        match t.cells[c]? with
        | none => none
        | some x =>
          some (alloc_result.returned
            ({ t with population := (t.population + 1) % 2 ^ 64
                      cells := t.cells.set c { x with key := key } },
             cell_ptr.reg c))

/-- The method `hash_table::insert(key)` when `new cell[n]` succeeds only if `alloc n`. -/
def hash_table.insert_alloc (alloc : Nat → Bool) (t : hash_table) (key : Nat) :
    Option (alloc_result (hash_table × cell_ptr)) :=
  if key ≠ 0 then insert_loop_alloc alloc key 65 t
  else if ¬ t.zero_used then
    let t1 := { t with zero_used := true, population := (t.population + 1) % 2 ^ 64 }
    if (t1.population * 4) % 2 ^ 64 ≥ (t1.array_size * 3) % 2 ^ 64 then
      match t1.repopulate_alloc alloc ((t1.array_size * 2) % 2 ^ 64) with
      | none => none
      | some (alloc_result.bad_alloc t2) => some (alloc_result.bad_alloc t2)
      | some (alloc_result.returned t2) => some (alloc_result.returned (t2, cell_ptr.zero))
    else some (alloc_result.returned (t1, cell_ptr.zero))
  else some (alloc_result.returned (t, cell_ptr.zero))

/-- The method `hash_table::compact()` when `new cell[n]` succeeds only if `alloc n`. -/
def hash_table.compact_alloc (alloc : Nat → Bool) (t : hash_table) :
    Option (alloc_result hash_table) :=
  t.repopulate_alloc alloc (upper_power_of_two (((t.population * 4 + 3) % 2 ^ 64) / 3))

/-! ## More vocabulary of the specification -/

/-- Every empty regular cell has the value `0`, and so has the zero cell while it is not
in use. -/
def EmptyValues (t : hash_table) : Prop :=
  (∀ i, i < t.cells.length → keyAt t.cells i = 0 → (cellAt t.cells i).value = 0) ∧
    (t.zero_used = false → t.cell_zero.value = 0)

/-- The invariant of the probe chains in the words of the specification: for every
occupied regular cell, with index `i` and key `k`, every cell on the forward circular run
from the index `integer_hash(k) mod array_size` up to and including `i` holds a key. -/
def hash_table.chains_without_gaps (t : hash_table) : Prop :=
  ∀ i, i < t.array_size → keyAt t.cells i ≠ 0 →
    ∀ d, d ≤ (i + t.array_size - integer_hash (keyAt t.cells i) % t.array_size) % t.array_size →
      keyAt t.cells ((integer_hash (keyAt t.cells i) % t.array_size + d) % t.array_size) ≠ 0

/-- The handles of the occupied regular cells with an index from `i` on, `m` being the
number of cells from `i` on, in the order of the array. -/
def occupied_ptrs (cells : List cell) (i m : Nat) : List cell_ptr :=
  ((List.range' i m).filter (fun j => decide (keyAt cells j ≠ 0))).map cell_ptr.reg

/-- The handles of the table in the order of the specification of the iterator: the zero
cell if it is in use, then the occupied regular cells by increasing index. -/
def hash_table.handles (t : hash_table) : List cell_ptr :=
  (if t.zero_used then [cell_ptr.zero] else []) ++ occupied_ptrs t.cells 0 t.cells.length

/-- The handles that an iterator at `p` has still to visit. -/
def hash_table.remaining (t : hash_table) : cell_ptr → List cell_ptr
  | cell_ptr.null => []
  | cell_ptr.zero => occupied_ptrs t.cells 0 t.cells.length
  | cell_ptr.reg j => occupied_ptrs t.cells (j + 1) (t.cells.length - (j + 1))

/-- What a client sees of an iterator: its current element, and then the result of each
of `m` calls of `next()`. -/
def iterator.trace (t : hash_table) : Nat → iterator → Option (List cell_ptr)
  | 0, it => some [it.current]
  | m + 1, it =>
    match iterator.next t it with
    | none => none
    | some it1 => (iterator.trace t m it1).map (List.cons it.current)

/-- What a client sees of a fresh iterator and `m` calls of `next()`. -/
def hash_table.iterator_trace (t : hash_table) (m : Nat) : Option (List cell_ptr) :=
  match iterator.construct t with
  | none => none
  | some it => iterator.trace t m it

/-- The table `hash_table(1)`. -/
def demo_one : hash_table :=
  { cells := [⟨0, 0⟩], array_size := 1, population := 0, zero_used := false
    cell_zero := ⟨0, 0⟩ }

/-- The table `hash_table(8)` after `insert(1)`, `insert(2)`, `insert(3)`, `insert(0)`. -/
def demo_5 : hash_table :=
  { cells := [⟨0, 0⟩, ⟨0, 0⟩, ⟨0, 0⟩, ⟨0, 0⟩, ⟨1, 0⟩, ⟨0, 0⟩, ⟨3, 0⟩, ⟨2, 0⟩]
    array_size := 8, population := 4, zero_used := true, cell_zero := ⟨0, 0⟩ }

/-! ## Circular index arithmetic -/

theorem offset_cases (n a b : Nat) :
    (a ≤ b ∧ CIRCULAR_OFFSET n a b = b - a) ∨ (b < a ∧ CIRCULAR_OFFSET n a b = n + b - a) := by
  unfold CIRCULAR_OFFSET
  split_ifs <;> omega

theorem next_cases (n c : Nat) :
    (c + 1 ≠ n ∧ CIRCULAR_NEXT n c = c + 1) ∨ (c + 1 = n ∧ CIRCULAR_NEXT n c = 0) := by
  unfold CIRCULAR_NEXT
  split_ifs <;> omega

theorem next_lt {n c : Nat} (hc : c < n) : CIRCULAR_NEXT n c < n := by
  have := next_cases n c
  omega

theorem size_sub_one {n : Nat} (h0 : 0 < n) (hn : n ≤ 2 ^ 64) :
    (n + 2 ^ 64 - 1) % 2 ^ 64 = n - 1 := by
  omega

theorem FIRST_CELL_lt {n : Nat} (h0 : 0 < n) (hn : n ≤ 2 ^ 64) (hash : Nat) :
    FIRST_CELL n hash < n := by
  unfold FIRST_CELL
  rw [size_sub_one h0 hn]
  have : hash &&& (n - 1) ≤ n - 1 := Nat.and_le_right
  omega

theorem ideal_lt {n : Nat} (h0 : 0 < n) (hn : n ≤ 2 ^ 64) (key : Nat) : ideal n key < n :=
  FIRST_CELL_lt h0 hn _

/-! ## Reading and writing cells -/

theorem getElem?_eq_cellAt {cells : List cell} {i : Nat} (h : i < cells.length) :
    cells[i]? = some (cellAt cells i) := by
  simp [cellAt, List.getD_eq_getElem?_getD, List.getElem?_eq_getElem h]

theorem cellAt_set (cells : List cell) (i j : Nat) (x : cell) :
    cellAt (cells.set i x) j = if i = j ∧ i < cells.length then x else cellAt cells j := by
  unfold cellAt
  rw [List.getD_eq_getElem?_getD, List.getD_eq_getElem?_getD, List.getElem?_set]
  by_cases hij : i = j
  · by_cases hl : i < cells.length
    · subst hij
      simp [hl]
    · subst hij
      have : cells[i]? = none := List.getElem?_eq_none (by omega)
      simp [hl, this]
  · simp [hij]

theorem cellAt_set_self {cells : List cell} {i : Nat} (h : i < cells.length) (x : cell) :
    cellAt (cells.set i x) i = x := by
  rw [cellAt_set]; simp [h]

theorem cellAt_set_ne {cells : List cell} {i j : Nat} (h : i ≠ j) (x : cell) :
    cellAt (cells.set i x) j = cellAt cells j := by
  rw [cellAt_set]; simp [h]

theorem keyAt_set_self {cells : List cell} {i : Nat} (h : i < cells.length) (x : cell) :
    keyAt (cells.set i x) i = x.key := by
  unfold keyAt; rw [cellAt_set_self h]

theorem keyAt_set_ne {cells : List cell} {i j : Nat} (h : i ≠ j) (x : cell) :
    keyAt (cells.set i x) j = keyAt cells j := by
  unfold keyAt; rw [cellAt_set_ne h]

theorem cellAt_replicate (n i : Nat) : cellAt (List.replicate n ⟨0, 0⟩) i = ⟨0, 0⟩ := by
  unfold cellAt
  rw [List.getD_eq_getElem?_getD, List.getElem?_replicate]
  split_ifs <;> rfl

theorem keyAt_replicate (n i : Nat) : keyAt (List.replicate n ⟨0, 0⟩) i = 0 := by
  unfold keyAt; rw [cellAt_replicate]

/-! ## The probe loops -/

theorem lookup_loop_eq_insert_probe (cells : List cell) (n key : Nat) :
    ∀ fuel c, lookup_loop cells n key fuel c =
      (insert_probe cells n key fuel c).map
        (fun r => match r with
          | probe_result.found q => cell_ptr.reg q
          | probe_result.empty _ => cell_ptr.null) := by
  intro fuel
  induction fuel with
  | zero => intro c; rfl
  | succ fuel ih =>
    intro c
    unfold lookup_loop insert_probe
    cases hx : cells[c]? with
    | none => rfl
    | some x =>
      simp only []
      split_ifs
      · rfl
      · rfl
      · exact ih _

theorem insert_probe_post (cells : List cell) (n key : Nat) (hn : cells.length = n) :
    ∀ fuel c e, c < n → e < n → keyAt cells e = 0 → CIRCULAR_OFFSET n c e < fuel →
      ∃ q, q < n ∧ CIRCULAR_OFFSET n c q ≤ CIRCULAR_OFFSET n c e ∧
        (∀ j, j < n → CIRCULAR_OFFSET n c j < CIRCULAR_OFFSET n c q →
          keyAt cells j ≠ 0 ∧ keyAt cells j ≠ key) ∧
        ((keyAt cells q = key ∧
            insert_probe cells n key fuel c = some (probe_result.found q)) ∨
         (keyAt cells q ≠ key ∧ keyAt cells q = 0 ∧
            insert_probe cells n key fuel c = some (probe_result.empty q))) := by
  intro fuel
  induction fuel with
  | zero => intro c e _ _ _ h; omega
  | succ fuel ih =>
    intro c e hc he hke hfuel
    have hget : cells[c]? = some (cellAt cells c) := getElem?_eq_cellAt (by omega)
    unfold insert_probe
    rw [hget]
    simp only []
    by_cases h1 : (cellAt cells c).key = key
    · refine ⟨c, hc, ?_, ?_, Or.inl ⟨h1, by simp [h1]⟩⟩
      · have := offset_cases n c c; have := offset_cases n c e; omega
      · intro j hj hlt
        have := offset_cases n c c; omega
    · by_cases h2 : (cellAt cells c).key = 0
      · refine ⟨c, hc, ?_, ?_, Or.inr ⟨h1, h2, by rw [if_neg h1, if_pos h2]⟩⟩
        · have := offset_cases n c c; have := offset_cases n c e; omega
        · intro j hj hlt
          have := offset_cases n c c; omega
      · have hce : c ≠ e := by
          intro h; subst h; exact h2 hke
        have hnext := next_cases n c
        have hoe := offset_cases n c e
        have hoe1 := offset_cases n (CIRCULAR_NEXT n c) e
        obtain ⟨q, hq, hqe, hbefore, hres⟩ :=
          ih (CIRCULAR_NEXT n c) e (next_lt hc) he hke (by omega)
        have hoq := offset_cases n c q
        have hoq1 := offset_cases n (CIRCULAR_NEXT n c) q
        refine ⟨q, hq, by omega, ?_, ?_⟩
        · intro j hj hlt
          by_cases hjc : j = c
          · subst hjc; exact ⟨h2, h1⟩
          · apply hbefore j hj
            have := offset_cases n c j
            have := offset_cases n (CIRCULAR_NEXT n c) j
            omega
        · simpa [h1, h2] using hres

theorem offset_inj {n a i j : Nat} (ha : a < n) (hi : i < n) (hj : j < n)
    (h : CIRCULAR_OFFSET n a i = CIRCULAR_OFFSET n a j) : i = j := by
  have := offset_cases n a i
  have := offset_cases n a j
  omega

theorem occupied_set (cells : List cell) (x : cell) :
    ∀ q, q < cells.length →
      occupied (cells.set q x) + (if keyAt cells q ≠ 0 then 1 else 0) =
        occupied cells + (if x.key ≠ 0 then 1 else 0) := by
  induction cells with
  | nil => intro q hq; simp at hq
  | cons y ys ih =>
    intro q hq
    cases q with
    | zero =>
      simp only [List.set_cons_zero, occupied, List.countP_cons, keyAt, cellAt, List.getD_cons_zero]
      simp only [decide_eq_true_eq]
      omega
    | succ q =>
      have hq1 : q < ys.length := by simpa using hq
      have := ih q hq1
      simp only [List.set_cons_succ, occupied, List.countP_cons, keyAt, cellAt,
        List.getD_cons_succ] at this ⊢
      omega

theorem exists_empty {cells : List cell} (h : occupied cells < cells.length) :
    ∃ e, e < cells.length ∧ keyAt cells e = 0 := by
  by_contra hne
  push_neg at hne
  have hall : ∀ a ∈ cells, (fun c : cell => decide (c.key ≠ 0)) a = true := by
    intro a ha
    obtain ⟨i, hi, rfl⟩ := List.getElem_of_mem ha
    have := hne i hi
    simp only [keyAt, cellAt, List.getD_eq_getElem?_getD, List.getElem?_eq_getElem hi,
      Option.getD_some] at this
    simpa using this
  have := (List.countP_eq_length (p := fun c : cell => decide (c.key ≠ 0))).2 hall
  unfold occupied at h
  omega

theorem occupied_le_length (cells : List cell) : occupied cells ≤ cells.length :=
  List.countP_le_length _

theorem occupied_replicate (n : Nat) : occupied (List.replicate n ⟨0, 0⟩) = 0 := by
  unfold occupied
  rw [List.countP_eq_zero]
  intro a ha
  rw [List.mem_replicate] at ha
  simp [ha.2]

/-! ## Lookup in an array without gaps and duplicates -/

theorem probe_found {cells : List cell} {n key i : Nat} (hn : cells.length = n)
    (hn64 : n ≤ 2 ^ 64) (hg : NoGaps cells) (hd : NoDupKeys cells)
    (he : ∃ e, e < n ∧ keyAt cells e = 0) (hkey : key ≠ 0) (hi : i < n)
    (hki : keyAt cells i = key) :
    insert_probe cells n key n (ideal n key) = some (probe_result.found i) := by
  obtain ⟨e, he, hke⟩ := he
  have h0 : 0 < n := by omega
  have ha := ideal_lt h0 hn64 key
  have hoe := offset_cases n (ideal n key) e
  obtain ⟨q, hq, -, hbefore, hres⟩ :=
    insert_probe_post cells n key hn n (ideal n key) e ha he hke (by omega)
  subst hn
  rcases hres with ⟨hkq, hres⟩ | ⟨-, hkq, -⟩
  · have : i = q := hd i hi q hq (by rw [hki]; exact hkey) (by rw [hki, hkq])
    rw [this]; exact hres
  · exfalso
    have hiq : i ≠ q := by
      intro h; rw [h, hkq] at hki; exact hkey hki.symm
    have hnlt : ¬ CIRCULAR_OFFSET cells.length (ideal cells.length key) q <
        CIRCULAR_OFFSET cells.length (ideal cells.length key) i := by
      intro hlt
      have := hg i hi (by rw [hki]; exact hkey) q hq (by rw [hki]; exact hlt)
      exact this hkq
    have hne : CIRCULAR_OFFSET cells.length (ideal cells.length key) i ≠
        CIRCULAR_OFFSET cells.length (ideal cells.length key) q :=
      fun h => hiq (offset_inj ha hi hq h)
    exact (hbefore i hi (by omega)).2 hki

theorem probe_absent {cells : List cell} {n key : Nat} (hn : cells.length = n)
    (hn64 : n ≤ 2 ^ 64) (he : ∃ e, e < n ∧ keyAt cells e = 0)
    (habs : ∀ i, i < n → keyAt cells i ≠ key) :
    ∃ q, q < n ∧ keyAt cells q = 0 ∧
      (∀ j, j < n → CIRCULAR_OFFSET n (ideal n key) j < CIRCULAR_OFFSET n (ideal n key) q →
        keyAt cells j ≠ 0) ∧
      insert_probe cells n key n (ideal n key) = some (probe_result.empty q) := by
  obtain ⟨e, he, hke⟩ := he
  have h0 : 0 < n := by omega
  have ha := ideal_lt h0 hn64 key
  have hoe := offset_cases n (ideal n key) e
  obtain ⟨q, hq, -, hbefore, hres⟩ :=
    insert_probe_post cells n key hn n (ideal n key) e ha he hke (by omega)
  rcases hres with ⟨hkq, -⟩ | ⟨-, hkq, hres⟩
  · exact absurd hkq (habs q hq)
  · exact ⟨q, hq, hkq, fun j hj hlt => (hbefore j hj hlt).1, hres⟩

/-! ## Claiming an empty cell -/

theorem set_empty_nogaps {cells : List cell} {n q : Nat} {x : cell} (hn : cells.length = n)
    (hg : NoGaps cells) (hq : q < n) (hx : x.key ≠ 0)
    (hbefore : ∀ j, j < n →
      CIRCULAR_OFFSET n (ideal n x.key) j < CIRCULAR_OFFSET n (ideal n x.key) q →
      keyAt cells j ≠ 0) :
    NoGaps (cells.set q x) := by
  subst hn
  intro i hi hki j hj hlt
  rw [List.length_set] at hi hj hlt
  by_cases hjq : q = j
  · subst hjq; rw [keyAt_set_self hq]; exact hx
  · rw [keyAt_set_ne hjq]
    by_cases hiq : q = i
    · subst hiq
      rw [keyAt_set_self hq] at hlt
      exact hbefore j hj hlt
    · rw [keyAt_set_ne hiq] at hki hlt
      exact hg i hi hki j hj hlt

theorem set_empty_nodup {cells : List cell} {n q : Nat} {x : cell} (hn : cells.length = n)
    (hd : NoDupKeys cells) (hq : q < n)
    (habs : ∀ i, i < n → keyAt cells i ≠ x.key) :
    NoDupKeys (cells.set q x) := by
  subst hn
  intro i hi j hj hki hkij
  rw [List.length_set] at hi hj
  by_cases hiq : q = i
  · by_cases hjq : q = j
    · omega
    · subst hiq
      rw [keyAt_set_self hq, keyAt_set_ne hjq] at hkij
      exact absurd hkij.symm (habs j hj)
  · by_cases hjq : q = j
    · subst hjq
      rw [keyAt_set_self hq, keyAt_set_ne hiq] at hkij
      exact absurd hkij (habs i hi)
    · rw [keyAt_set_ne hiq] at hki hkij
      rw [keyAt_set_ne hjq] at hkij
      exact hd i hi j hj hki hkij


/-! ## Rebuilding the array -/

theorem repopulate_probe_post (cells : List cell) (n : Nat) (hn : cells.length = n) :
    ∀ fuel c e, c < n → e < n → keyAt cells e = 0 → CIRCULAR_OFFSET n c e < fuel →
      ∃ q, q < n ∧ keyAt cells q = 0 ∧
        (∀ j, j < n → CIRCULAR_OFFSET n c j < CIRCULAR_OFFSET n c q → keyAt cells j ≠ 0) ∧
        repopulate_probe cells n fuel c = some q := by
  intro fuel
  induction fuel with
  | zero => intro c e _ _ _ h; omega
  | succ fuel ih =>
    intro c e hc he hke hfuel
    have hget : cells[c]? = some (cellAt cells c) := getElem?_eq_cellAt (by omega)
    unfold repopulate_probe
    rw [hget]
    simp only []
    by_cases h2 : (cellAt cells c).key = 0
    · refine ⟨c, hc, h2, ?_, by rw [if_pos h2]⟩
      intro j hj hlt
      have := offset_cases n c c; omega
    · have hce : c ≠ e := by
        intro h; subst h; exact h2 hke
      have hnext := next_cases n c
      have hoe := offset_cases n c e
      have hoe1 := offset_cases n (CIRCULAR_NEXT n c) e
      obtain ⟨q, hq, hkq, hbefore, hres⟩ :=
        ih (CIRCULAR_NEXT n c) e (next_lt hc) he hke (by omega)
      have hcq : c ≠ q := by
        intro h; subst h; exact h2 hkq
      have hoq := offset_cases n c q
      have hoq1 := offset_cases n (CIRCULAR_NEXT n c) q
      refine ⟨q, hq, hkq, ?_, by rw [if_neg h2]; exact hres⟩
      intro j hj hlt
      by_cases hjc : j = c
      · subst hjc; exact h2
      · apply hbefore j hj
        have := offset_cases n c j
        have := offset_cases n (CIRCULAR_NEXT n c) j
        omega

theorem holds_set_empty {cells : List cell} {q : Nat} {c x : cell} (hq : q < cells.length)
    (hkq : keyAt cells q = 0) (hx : x.key ≠ 0) :
    Holds (cells.set q c) x ↔ Holds cells x ∨ x = c := by
  constructor
  · rintro ⟨i, hi, hxi⟩
    rw [List.length_set] at hi
    by_cases hiq : q = i
    · subst hiq; rw [cellAt_set_self hq] at hxi; exact Or.inr hxi.symm
    · rw [cellAt_set_ne hiq] at hxi; exact Or.inl ⟨i, hi, hxi⟩
  · rintro (⟨i, hi, hxi⟩ | rfl)
    · have hiq : q ≠ i := by
        intro h; subst h
        apply hx; rw [← hxi]; exact hkq
      exact ⟨i, by rw [List.length_set]; exact hi, by rw [cellAt_set_ne hiq]; exact hxi⟩
    · exact ⟨q, by rw [List.length_set]; exact hq, cellAt_set_self hq _⟩

theorem repopulate_loop_post (n : Nat) (hn64 : n ≤ 2 ^ 64) :
    ∀ (rest fresh : List cell), fresh.length = n → NoGaps fresh → NoDupKeys fresh →
      (∀ c, c ∈ rest → c.key ≠ 0 → ∀ i, i < n → keyAt fresh i ≠ c.key) →
      rest.Pairwise (fun a b => a.key ≠ 0 → a.key ≠ b.key) →
      occupied fresh + occupied rest < n →
      ∃ out, repopulate_loop n rest fresh = some out ∧ out.length = n ∧ NoGaps out ∧
        NoDupKeys out ∧ occupied out = occupied fresh + occupied rest ∧
        (∀ x : cell, x.key ≠ 0 → (Holds out x ↔ Holds fresh x ∨ x ∈ rest)) := by
  intro rest
  induction rest with
  | nil =>
    intro fresh hlen hg hd _ _ _
    exact ⟨fresh, rfl, hlen, hg, hd, by simp [occupied], by simp⟩
  | cons c rest ih =>
    intro fresh hlen hg hd hnew hpw hocc
    have hpw1 := List.pairwise_cons.1 hpw
    unfold repopulate_loop
    by_cases hck : c.key = 0
    · have hocc1 : occupied (c :: rest) = occupied rest := by
        simp [occupied, List.countP_cons, hck]
      rw [hocc1] at hocc
      obtain ⟨out, hrun, hol, hog, hod, hoo, hoh⟩ :=
        ih fresh hlen hg hd (fun c1 hc1 => hnew c1 (List.mem_cons_of_mem _ hc1)) hpw1.2 hocc
      refine ⟨out, by simpa [hck] using hrun, hol, hog, hod, by rw [hoo, hocc1], ?_⟩
      intro x hx
      rw [hoh x hx, List.mem_cons]
      have : x ≠ c := by
        intro h; subst h; exact hx hck
      tauto
    · have hocc1 : occupied (c :: rest) = occupied rest + 1 := by
        simp [occupied, List.countP_cons, hck]
      rw [hocc1] at hocc
      have hempty : ∃ e, e < fresh.length ∧ keyAt fresh e = 0 :=
        exists_empty (by omega)
      obtain ⟨e, he, hke⟩ := hempty
      rw [hlen] at he
      have h0 : 0 < n := by omega
      have ha := ideal_lt h0 hn64 c.key
      have hoe := offset_cases n (ideal n c.key) e
      obtain ⟨q, hq, hkq, hbefore, hres⟩ :=
        repopulate_probe_post fresh n hlen n (ideal n c.key) e ha he hke (by omega)
      have hq1 : q < fresh.length := by omega
      have hg1 : NoGaps (fresh.set q c) := set_empty_nogaps hlen hg hq hck hbefore
      have hd1 : NoDupKeys (fresh.set q c) :=
        set_empty_nodup hlen hd hq (hnew c (List.mem_cons_self _ _) hck)
      have ho1 : occupied (fresh.set q c) = occupied fresh + 1 := by
        have := occupied_set fresh c q hq1
        rw [if_neg (by simpa using hkq), if_pos hck] at this
        omega
      obtain ⟨out, hrun, hol, hog, hod, hoo, hoh⟩ :=
        ih (fresh.set q c) (by rw [List.length_set]; exact hlen) hg1 hd1
          (by
            intro c1 hc1 hc1k i hi
            by_cases hiq : q = i
            · subst hiq
              rw [keyAt_set_self hq1]
              exact hpw1.1 c1 hc1 hck
            · rw [keyAt_set_ne hiq]
              exact hnew c1 (List.mem_cons_of_mem _ hc1) hc1k i hi)
          hpw1.2 (by omega)
      refine ⟨out, ?_, hol, hog, hod, by rw [hoo, ho1, hocc1]; omega, ?_⟩
      · rw [if_pos hck]
        unfold ideal at hres
        rw [hres]
        exact hrun
      · intro x hx
        rw [hoh x hx, holds_set_empty hq1 hkq hx, List.mem_cons]
        tauto

theorem nogaps_replicate (n : Nat) : NoGaps (List.replicate n ⟨0, 0⟩) := by
  intro i _ hki
  exact absurd (keyAt_replicate n i) hki

theorem nodup_replicate (n : Nat) : NoDupKeys (List.replicate n ⟨0, 0⟩) := by
  intro i _ j _ hki
  exact absurd (keyAt_replicate n i) hki

theorem holds_iff_mem (cells : List cell) (x : cell) : Holds cells x ↔ x ∈ cells := by
  constructor
  · rintro ⟨i, hi, hxi⟩
    rw [← hxi]
    simp only [cellAt, List.getD_eq_getElem?_getD, List.getElem?_eq_getElem hi,
      Option.getD_some]
    exact List.getElem_mem hi
  · intro hx
    obtain ⟨i, hi, rfl⟩ := List.getElem_of_mem hx
    refine ⟨i, hi, ?_⟩
    simp only [cellAt, List.getD_eq_getElem?_getD, List.getElem?_eq_getElem hi,
      Option.getD_some]

theorem not_holds_replicate (n : Nat) (x : cell) (hx : x.key ≠ 0) :
    ¬ Holds (List.replicate n ⟨0, 0⟩) x := by
  rintro ⟨i, _, hxi⟩
  rw [cellAt_replicate] at hxi
  apply hx; rw [← hxi]

theorem pairwise_of_nodup {cells : List cell} (hd : NoDupKeys cells) :
    cells.Pairwise (fun a b => a.key ≠ 0 → a.key ≠ b.key) := by
  rw [List.pairwise_iff_getElem]
  intro i j hi hj hij hki hkij
  have h1 : keyAt cells i = cells[i].key := by
    simp only [keyAt, cellAt, List.getD_eq_getElem?_getD, List.getElem?_eq_getElem hi,
      Option.getD_some]
  have h2 : keyAt cells j = cells[j].key := by
    simp only [keyAt, cellAt, List.getD_eq_getElem?_getD, List.getElem?_eq_getElem hj,
      Option.getD_some]
  have := hd i hi j hj (by rw [h1]; exact hki) (by rw [h1, h2]; exact hkij)
  omega

/-! ## Backward-shift deletion -/

theorem offset_self (n a : Nat) : CIRCULAR_OFFSET n a a = 0 := by
  have := offset_cases n a a; omega

theorem offset_lt {n a b : Nat} (ha : a < n) (hb : b < n) : CIRCULAR_OFFSET n a b < n := by
  have := offset_cases n a b; omega

theorem offset_pos {n a b : Nat} (ha : a < n) (h : a ≠ b) :
    0 < CIRCULAR_OFFSET n a b := by
  have := offset_cases n a b; omega

theorem offset_next_self {n a : Nat} (ha : a < n) (h2 : 2 ≤ n) :
    CIRCULAR_OFFSET n a (CIRCULAR_NEXT n a) = 1 := by
  have := offset_cases n a (CIRCULAR_NEXT n a)
  have := next_cases n a
  omega

theorem offset_next_left {n a e : Nat} (ha : a < n) (he : e < n) (h : a ≠ e) :
    CIRCULAR_OFFSET n (CIRCULAR_NEXT n a) e + 1 = CIRCULAR_OFFSET n a e := by
  have := offset_cases n a e
  have := offset_cases n (CIRCULAR_NEXT n a) e
  have := next_cases n a
  omega

theorem offset_next_right {n c a : Nat} (hc : c < n) (ha : a < n)
    (h : CIRCULAR_OFFSET n c a + 1 < n) :
    CIRCULAR_OFFSET n c (CIRCULAR_NEXT n a) = CIRCULAR_OFFSET n c a + 1 := by
  have := offset_cases n c a
  have := offset_cases n c (CIRCULAR_NEXT n a)
  have := next_cases n a
  omega

theorem offset_between {n a c i nb : Nat} (ha : a < n) (hc : c < n) (hi : i < n)
    (hnb : nb < n) (h1 : CIRCULAR_OFFSET n a c < CIRCULAR_OFFSET n a i)
    (h2 : ¬ CIRCULAR_OFFSET n a nb < CIRCULAR_OFFSET n a i) (h3 : nb ≠ i) :
    0 < CIRCULAR_OFFSET n c i ∧ CIRCULAR_OFFSET n c i < CIRCULAR_OFFSET n c nb := by
  have := offset_cases n a c
  have := offset_cases n a i
  have := offset_cases n a nb
  have := offset_cases n c i
  have := offset_cases n c nb
  omega

theorem delete_loop_post (n : Nat) (hn64 : n ≤ 2 ^ 64) :
    ∀ (fuel : Nat) (cells : List cell) (c nb e : Nat), cells.length = n →
      c < n → nb < n → e < n → keyAt cells c ≠ 0 → keyAt cells e = 0 → NoGaps cells →
      (∀ i, i < n → ∀ j, j < n → i ≠ c → j ≠ c → keyAt cells i ≠ 0 →
        keyAt cells i = keyAt cells j → i = j) →
      (∀ j, j < n → 0 < CIRCULAR_OFFSET n c j →
        CIRCULAR_OFFSET n c j < CIRCULAR_OFFSET n c nb →
        keyAt cells j ≠ 0 ∧
          ¬ CIRCULAR_OFFSET n (ideal n (keyAt cells j)) c <
              CIRCULAR_OFFSET n (ideal n (keyAt cells j)) j) →
      0 < CIRCULAR_OFFSET n c nb → CIRCULAR_OFFSET n c nb ≤ CIRCULAR_OFFSET n c e →
      CIRCULAR_OFFSET n nb e < fuel →
      ∃ out, delete_loop n fuel cells c nb = some out ∧ out.length = n ∧ NoGaps out ∧
        NoDupKeys out ∧ occupied out + 1 = occupied cells ∧
        (∀ x : cell, x.key ≠ 0 →
          (Holds out x ↔ ∃ i, i < n ∧ i ≠ c ∧ cellAt cells i = x)) := by
  intro fuel
  induction fuel with
  | zero => intro cells c nb e _ _ _ _ _ _ _ _ _ _ _ h; omega
  | succ fuel ih =>
    intro cells c nb e hlen hc hnb he hkc hke hg hd hex hpos hle hfuel
    have h0 : 0 < n := by omega
    have hc1 : c < cells.length := by omega
    have hget : cells[nb]? = some (cellAt cells nb) := getElem?_eq_cellAt (by omega)
    unfold delete_loop
    rw [hget]
    simp only []
    by_cases hx0 : (cellAt cells nb).key = 0
    · -- nobody to swap with: clear the cell
      rw [if_pos hx0]
      refine ⟨cells.set c ⟨0, 0⟩, rfl, by rw [List.length_set]; exact hlen, ?_, ?_, ?_, ?_⟩
      · intro i hi hki j hj hlt
        rw [List.length_set] at hi hj hlt
        rw [hlen] at hi hj hlt
        have hic : c ≠ i := by
          intro h; subst h; rw [keyAt_set_self hc1] at hki; exact hki rfl
        rw [keyAt_set_ne hic] at hki hlt
        by_cases hjc : c = j
        · exfalso
          subst hjc
          have ha := ideal_lt h0 hn64 (keyAt cells i)
          have hinb : i ≠ nb := by
            intro h; subst h; exact hki hx0
          -- the empty cell is not on the walk from the ideal cell to `i`
          have hnb_off : ¬ CIRCULAR_OFFSET n (ideal n (keyAt cells i)) nb <
              CIRCULAR_OFFSET n (ideal n (keyAt cells i)) i := by
            intro h
            have := hg i (by omega) hki nb (by omega) (by rw [hlen]; exact h)
            exact this hx0
          have hb := offset_between ha hc hi hnb hlt hnb_off (Ne.symm hinb)
          exact (hex i hi hb.1 hb.2).2 hlt
        · rw [keyAt_set_ne hjc]
          exact hg i (by omega) hki j (by omega) (by rw [hlen]; exact hlt)
      · intro i hi j hj hki hkij
        rw [List.length_set, hlen] at hi hj
        have hic : c ≠ i := by
          intro h; subst h; rw [keyAt_set_self hc1] at hki; exact hki rfl
        rw [keyAt_set_ne hic] at hki hkij
        have hjc : c ≠ j := by
          intro h; subst h; rw [keyAt_set_self hc1] at hkij; exact hki hkij
        rw [keyAt_set_ne hjc] at hkij
        exact hd i hi j hj (Ne.symm hic) (Ne.symm hjc) hki hkij
      · have := occupied_set cells ⟨0, 0⟩ c hc1
        rw [if_pos hkc] at this
        simpa using this
      · intro x hx
        constructor
        · rintro ⟨i, hi, hxi⟩
          rw [List.length_set, hlen] at hi
          have hic : c ≠ i := by
            intro h; subst h; rw [cellAt_set_self hc1] at hxi
            apply hx; rw [← hxi]
          rw [cellAt_set_ne hic] at hxi
          exact ⟨i, hi, Ne.symm hic, hxi⟩
        · rintro ⟨i, hi, hic, hxi⟩
          exact ⟨i, by rw [List.length_set, hlen]; exact hi,
            by rw [cellAt_set_ne (Ne.symm hic)]; exact hxi⟩
    · rw [if_neg hx0]
      have hnbe : nb ≠ e := by
        intro h; subst h; exact hx0 hke
      have hnextlt : CIRCULAR_NEXT n nb < n := next_lt hnb
      have hcnb : c ≠ nb := by
        intro h; subst h; rw [offset_self] at hpos; omega
      have f2 := offset_next_left hnb he hnbe
      have f3 := offset_next_self hnb (by omega)
      have f4 := offset_pos hnb hnbe
      have f6 : CIRCULAR_OFFSET n c nb ≠ CIRCULAR_OFFSET n c e :=
        fun h => hnbe (offset_inj hc hnb he h)
      have f7 := offset_lt hc he
      have f5 := offset_next_right hc hnb (by omega)
      have hce : c ≠ e := by
        intro h; subst h; exact hkc hke
      by_cases hcond : CIRCULAR_OFFSET n (FIRST_CELL n (integer_hash (cellAt cells nb).key)) c <
          CIRCULAR_OFFSET n (FIRST_CELL n (integer_hash (cellAt cells nb).key)) nb
      · -- the neighbor moves back into the cell
        rw [if_pos hcond]
        have hknb : keyAt (cells.set c (cellAt cells nb)) nb ≠ 0 := by
          rw [keyAt_set_ne hcnb]; exact hx0
        have hke1 : keyAt (cells.set c (cellAt cells nb)) e = 0 := by
          rw [keyAt_set_ne hce]; exact hke
        have key_set : ∀ j, keyAt (cells.set c (cellAt cells nb)) j =
            if c = j then keyAt cells nb else keyAt cells j := by
          intro j
          by_cases hj : c = j
          · subst hj; rw [keyAt_set_self hc1, if_pos rfl]; rfl
          · rw [keyAt_set_ne hj, if_neg hj]
        have hg1 : NoGaps (cells.set c (cellAt cells nb)) := by
          intro i hi hki j hj hlt
          rw [List.length_set] at hi hj hlt
          rw [key_set] at hki hlt ⊢
          by_cases hjc : c = j
          · rw [if_pos hjc]; exact hx0
          · rw [if_neg hjc]
            by_cases hic : c = i
            · rw [if_pos hic] at hlt
              subst hic
              apply hg nb (by omega) hx0 j hj
              rw [hlen] at hlt ⊢
              have : keyAt cells nb = (cellAt cells nb).key := rfl
              unfold ideal at hlt ⊢
              rw [this] at hlt ⊢
              omega
            · rw [if_neg hic] at hki hlt
              exact hg i hi hki j hj hlt
        have hd1 : ∀ i, i < n → ∀ j, j < n → i ≠ nb → j ≠ nb →
            keyAt (cells.set c (cellAt cells nb)) i ≠ 0 →
            keyAt (cells.set c (cellAt cells nb)) i =
              keyAt (cells.set c (cellAt cells nb)) j → i = j := by
          intro i hi j hj hinb hjnb hki hkij
          rw [key_set] at hki hkij
          rw [key_set j] at hkij
          by_cases hic : c = i
          · by_cases hjc : c = j
            · omega
            · rw [if_pos hic, if_neg hjc] at hkij
              exact absurd (hd nb hnb j hj (Ne.symm hcnb) (Ne.symm hjc) hx0 hkij).symm hjnb
          · by_cases hjc : c = j
            · rw [if_neg hic, if_pos hjc] at hkij
              rw [if_neg hic] at hki
              exact absurd (hd i hi nb hnb (Ne.symm hic) (Ne.symm hcnb) hki hkij) hinb
            · rw [if_neg hic] at hki hkij
              rw [if_neg hjc] at hkij
              exact hd i hi j hj (Ne.symm hic) (Ne.symm hjc) hki hkij
        obtain ⟨out, hrun, hol, hog, hod, hoo, hoh⟩ :=
          ih (cells.set c (cellAt cells nb)) nb (CIRCULAR_NEXT n nb) e
            (by rw [List.length_set]; exact hlen) hnb hnextlt he hknb hke1 hg1 hd1
            (by
              intro j hj h1 h2
              omega)
            (by omega) (by omega) (by omega)
        refine ⟨out, hrun, hol, hog, hod, ?_, ?_⟩
        · have := occupied_set cells (cellAt cells nb) c hc1
          rw [if_pos hkc, if_pos hx0] at this
          omega
        · intro x hx
          rw [hoh x hx]
          constructor
          · rintro ⟨i, hi, hinb, hxi⟩
            by_cases hic : c = i
            · subst hic
              rw [cellAt_set_self hc1] at hxi
              exact ⟨nb, hnb, Ne.symm hcnb, hxi⟩
            · rw [cellAt_set_ne hic] at hxi
              exact ⟨i, hi, Ne.symm hic, hxi⟩
          · rintro ⟨i, hi, hic, hxi⟩
            by_cases hinb : i = nb
            · subst hinb
              exact ⟨c, hc, hic.symm, by rw [cellAt_set_self hc1]; exact hxi⟩
            · exact ⟨i, hi, hinb, by rw [cellAt_set_ne (Ne.symm hic)]; exact hxi⟩
      · -- the neighbor stays
        rw [if_neg hcond]
        obtain ⟨out, hrun, hol, hog, hod, hoo, hoh⟩ :=
          ih cells c (CIRCULAR_NEXT n nb) e hlen hc hnextlt he hkc hke hg hd
            (by
              intro j hj h1 h2
              by_cases hjnb : j = nb
              · subst hjnb
                exact ⟨hx0, hcond⟩
              · apply hex j hj h1
                have : CIRCULAR_OFFSET n c j ≠ CIRCULAR_OFFSET n c nb :=
                  fun h => hjnb (offset_inj hc hj hnb h)
                omega)
            (by omega) (by omega) (by omega)
        exact ⟨out, hrun, hol, hog, hod, hoo, hoh⟩

/-! ## Rounding up to a power of two -/

/-- One smearing step `v |= v >> m`: if the top `m` of the `L` low bits are set, then
afterwards the top `2 * m` of them are. -/
theorem smear_step {s L m : Nat} (hhi : ∀ i, L ≤ i → s.testBit i = false)
    (hlo : ∀ i, L - m ≤ i → i < L → s.testBit i = true) :
    (∀ i, L ≤ i → (s ||| (s >>> m)).testBit i = false) ∧
    (∀ i, L - (m + m) ≤ i → i < L → (s ||| (s >>> m)).testBit i = true) := by
  constructor
  · intro i hi
    rw [Nat.testBit_or, Nat.testBit_shiftRight, hhi i hi, hhi (m + i) (by omega)]
    rfl
  · intro i hi1 hi2
    rw [Nat.testBit_or, Nat.testBit_shiftRight]
    by_cases h : L - m ≤ i
    · rw [hlo i h hi2]; rfl
    · have hm : m ≠ 0 := by omega
      by_cases h3 : m + i < L
      · rw [hlo (m + i) (by omega) h3]; simp
      · omega

theorem smear_all {w L : Nat} (hL : 0 < L) (hL64 : L ≤ 64)
    (hhi : ∀ i, L ≤ i → w.testBit i = false) (htop : w.testBit (L - 1) = true) :
    (let v := w
     let v := v ||| (v >>> 1)
     let v := v ||| (v >>> 2)
     let v := v ||| (v >>> 4)
     let v := v ||| (v >>> 8)
     let v := v ||| (v >>> 16)
     let v := v ||| (v >>> 32)
     v) = 2 ^ L - 1 := by
  have h1 : ∀ i, L - 1 ≤ i → i < L → w.testBit i = true := by
    intro i hi1 hi2
    have : i = L - 1 := by omega
    rw [this]; exact htop
  have s1 := smear_step hhi h1
  have s2 := smear_step s1.1 s1.2
  have s4 := smear_step s2.1 s2.2
  have s8 := smear_step s4.1 s4.2
  have s16 := smear_step s8.1 s8.2
  have s32 := smear_step s16.1 s16.2
  simp only []
  apply Nat.eq_of_testBit_eq
  intro i
  rw [Nat.testBit_two_pow_sub_one]
  by_cases hi : i < L
  · rw [s32.2 i (by omega) hi]; simp [hi]
  · rw [s32.1 i (by omega)]; simp [hi]

theorem upper_power_of_two_spec {v : Nat} (h1 : 1 ≤ v) (h2 : v ≤ 2 ^ 63) :
    ∃ e, upper_power_of_two v = 2 ^ e ∧ e ≤ 63 ∧ v ≤ 2 ^ e ∧ ∀ e1, v ≤ 2 ^ e1 → e ≤ e1 := by
  have hw : (v + 2 ^ 64 - 1) % 2 ^ 64 = v - 1 := by omega
  by_cases hv1 : v = 1
  · subst hv1
    refine ⟨0, by decide, by omega, by omega, fun e1 _ => by omega⟩
  · obtain ⟨i, hi, hmsb⟩ := Nat.exists_most_significant_bit (n := v - 1) (by omega)
    have hge := Nat.testBit_implies_ge hi
    have hlt : v - 1 < 2 ^ (i + 1) :=
      Nat.lt_pow_two_of_testBit _ (fun j hj => hmsb j (by omega))
    have hi63 : i < 63 := by
      by_contra hcon
      have : 2 ^ 63 ≤ 2 ^ i := Nat.pow_le_pow_right (by omega) (by omega)
      omega
    have hsm := smear_all (w := v - 1) (L := i + 1) (by omega) (by omega)
      (fun j hj => hmsb j (by omega)) (by simpa using hi)
    have hpow : 2 ^ (i + 1) ≤ 2 ^ 63 := Nat.pow_le_pow_right (by omega) (by omega)
    have hpos : 0 < 2 ^ (i + 1) := Nat.two_pow_pos _
    refine ⟨i + 1, ?_, by omega, by omega, ?_⟩
    · unfold upper_power_of_two
      simp only [] at hsm ⊢
      rw [hw, hsm]
      omega
    · intro e1 he1
      by_contra hcon
      have : 2 ^ e1 ≤ 2 ^ i := Nat.pow_le_pow_right (by omega) (by omega)
      omega

theorem power_of_2_assert_pow (e : Nat) (he : e ≤ 64) : power_of_2_assert (2 ^ e) = true := by
  unfold power_of_2_assert
  have hpos : 0 < 2 ^ e := Nat.two_pow_pos _
  have hle : 2 ^ e ≤ 2 ^ 64 := Nat.pow_le_pow_right (by omega) he
  rw [size_sub_one hpos hle, Nat.and_pow_two_sub_one_eq_mod, Nat.mod_self]
  rfl

/-! ## The operations on a table that satisfies the invariant -/

theorem wf_of_inv {t : hash_table} (h : Inv t) : WFCells t.cells t.array_size := by
  refine ⟨h.len, ?_, h.nogaps, h.nodup, ?_⟩
  · have := h.fits; omega
  · have hp := h.pop
    have hl := h.load
    have : occupied t.cells < t.cells.length := by
      rw [h.len]
      split_ifs at hp <;> omega
    obtain ⟨e, he, hke⟩ := exists_empty this
    exact ⟨e, by rw [← h.len]; exact he, hke⟩

theorem lookup_found {t : hash_table} (hw : WFCells t.cells t.array_size) {k i : Nat}
    (hk : k ≠ 0) (hi : i < t.array_size) (hki : keyAt t.cells i = k) :
    t.lookup k = some (cell_ptr.reg i) := by
  unfold hash_table.lookup
  rw [if_pos hk, lookup_loop_eq_insert_probe]
  have := probe_found hw.len hw.small hw.nogaps hw.nodup hw.has_empty hk hi hki
  unfold ideal at this
  rw [this]; rfl

theorem lookup_absent {t : hash_table} (hw : WFCells t.cells t.array_size) {k : Nat}
    (hk : k ≠ 0) (habs : ∀ i, i < t.array_size → keyAt t.cells i ≠ k) :
    t.lookup k = some cell_ptr.null := by
  unfold hash_table.lookup
  rw [if_pos hk, lookup_loop_eq_insert_probe]
  obtain ⟨q, -, -, -, hres⟩ := probe_absent hw.len hw.small hw.has_empty habs
  unfold ideal at hres
  rw [hres]; rfl

theorem lookup_zero (t : hash_table) :
    t.lookup 0 = some (if t.zero_used then cell_ptr.zero else cell_ptr.null) := by
  unfold hash_table.lookup
  simp only [ne_eq, not_true_eq_false, if_false]
  split_ifs <;> rfl

/-- The three outcomes of a lookup. -/
theorem lookup_cases {t : hash_table} (hw : WFCells t.cells t.array_size) (k : Nat) :
    (k = 0 ∧ t.lookup k = some (if t.zero_used then cell_ptr.zero else cell_ptr.null)) ∨
    (k ≠ 0 ∧ ∃ i, i < t.array_size ∧ keyAt t.cells i = k ∧
      t.lookup k = some (cell_ptr.reg i)) ∨
    (k ≠ 0 ∧ (∀ i, i < t.array_size → keyAt t.cells i ≠ k) ∧
      t.lookup k = some cell_ptr.null) := by
  by_cases hk : k = 0
  · subst hk; exact Or.inl ⟨rfl, lookup_zero t⟩
  · by_cases hex : ∃ i, i < t.array_size ∧ keyAt t.cells i = k
    · obtain ⟨i, hi, hki⟩ := hex
      exact Or.inr (Or.inl ⟨hk, i, hi, hki, lookup_found hw hk hi hki⟩)
    · push_neg at hex
      exact Or.inr (Or.inr ⟨hk, hex, lookup_absent hw hk hex⟩)

theorem absent_iff_not_holds {cells : List cell} {n k : Nat} (hn : cells.length = n) :
    (∀ i, i < n → keyAt cells i ≠ k) ↔ ∀ x : cell, x.key = k → ¬ Holds cells x := by
  subst hn
  constructor
  · rintro h x hx ⟨i, hi, hxi⟩
    apply h i hi
    unfold keyAt; rw [hxi]; exact hx
  · intro h i hi hki
    exact h (cellAt cells i) hki ⟨i, hi, rfl⟩

theorem repopulate_spec {t : hash_table} {d e : Nat}
    (hd : NoDupKeys t.cells) (hocc : occupied t.cells ≤ t.population)
    (hde : d = 2 ^ e) (hd3 : d * 3 < 2 ^ 64) (hp : t.population * 4 ≤ d * 3) :
    ∃ out, t.repopulate d = some { t with cells := out, array_size := d } ∧
      WFCells out d ∧ occupied out = occupied t.cells ∧
      (∀ x : cell, x.key ≠ 0 → (Holds out x ↔ Holds t.cells x)) := by
  have hdpos : 0 < d := by rw [hde]; exact Nat.two_pow_pos _
  have he64 : e ≤ 64 := by
    by_contra hcon
    have : 2 ^ 64 ≤ 2 ^ e := Nat.pow_le_pow_right (by omega) (by omega)
    omega
  have hassert : repopulate_assert t d = true := by
    unfold repopulate_assert
    rw [hde, power_of_2_assert_pow e he64, ← hde]
    rw [Nat.mod_eq_of_lt (by omega : t.population * 4 < 2 ^ 64), Nat.mod_eq_of_lt hd3]
    simpa using hp
  obtain ⟨out, hrun, hol, hog, hod, hoo, hoh⟩ :=
    repopulate_loop_post d (by omega) t.cells (List.replicate d ⟨0, 0⟩)
      (List.length_replicate _ _) (nogaps_replicate d) (nodup_replicate d)
      (fun c _ hck i _ => by rw [keyAt_replicate]; exact Ne.symm hck)
      (pairwise_of_nodup hd)
      (by rw [occupied_replicate]; omega)
  rw [occupied_replicate, Nat.zero_add] at hoo
  refine ⟨out, ?_, ⟨hol, by omega, hog, hod, ?_⟩, hoo, ?_⟩
  · unfold hash_table.repopulate
    rw [if_pos hassert, hrun]
  · have : occupied out < out.length := by omega
    obtain ⟨e1, he1, hke1⟩ := exists_empty this
    exact ⟨e1, by omega, hke1⟩
  · intro x hx
    rw [hoh x hx, ← holds_iff_mem]
    constructor
    · rintro (h | h)
      · exact absurd h (not_holds_replicate d x hx)
      · exact h
    · exact Or.inr

/-! ## Insert -/

theorem insert_loop_present {t : hash_table} (hw : WFCells t.cells t.array_size)
    {k i : Nat} (fuel : Nat) (hk : k ≠ 0) (hi : i < t.array_size)
    (hki : keyAt t.cells i = k) :
    insert_loop k (fuel + 1) t = some (t, cell_ptr.reg i) := by
  have := probe_found hw.len hw.small hw.nogaps hw.nodup hw.has_empty hk hi hki
  unfold ideal at this
  unfold insert_loop
  rw [this]

theorem insert_loop_absent {t : hash_table} (hw : WFCells t.cells t.array_size)
    {k : Nat} (fuel : Nat) (hk : k ≠ 0)
    (habs : ∀ i, i < t.array_size → keyAt t.cells i ≠ k)
    (hocc : occupied t.cells ≤ t.population)
    (hload : (t.population + 1) * 4 < t.array_size * 3) (h64 : t.array_size * 3 < 2 ^ 64) :
    ∃ q, q < t.array_size ∧ keyAt t.cells q = 0 ∧
      insert_loop k (fuel + 1) t =
        some ({ t with population := t.population + 1
                       cells := t.cells.set q { cellAt t.cells q with key := k } },
              cell_ptr.reg q) ∧
      WFCells (t.cells.set q { cellAt t.cells q with key := k }) t.array_size ∧
      occupied (t.cells.set q { cellAt t.cells q with key := k }) = occupied t.cells + 1 ∧
      (∀ x : cell, x.key ≠ 0 →
        (Holds (t.cells.set q { cellAt t.cells q with key := k }) x ↔
          Holds t.cells x ∨ x = { cellAt t.cells q with key := k })) := by
  obtain ⟨q, hq, hkq, hbefore, hres⟩ := probe_absent hw.len hw.small hw.has_empty habs
  have hq1 : q < t.cells.length := by rw [hw.len]; exact hq
  have hocc1 : occupied (t.cells.set q { cellAt t.cells q with key := k }) =
      occupied t.cells + 1 := by
    have := occupied_set t.cells { cellAt t.cells q with key := k } q hq1
    rw [if_neg (by simpa using hkq), if_pos (by exact hk)] at this
    omega
  refine ⟨q, hq, hkq, ?_, ⟨?_, hw.small, ?_, ?_, ?_⟩, hocc1, ?_⟩
  · unfold ideal at hres
    unfold insert_loop
    rw [hres]
    simp only []
    rw [Nat.mod_eq_of_lt (by omega : (t.population + 1) * 4 < 2 ^ 64),
      Nat.mod_eq_of_lt h64, if_neg (by omega), getElem?_eq_cellAt hq1]
    simp only []
    rw [Nat.mod_eq_of_lt (by omega : t.population + 1 < 2 ^ 64)]
  · rw [List.length_set]; exact hw.len
  · exact set_empty_nogaps hw.len hw.nogaps hq hk hbefore
  · exact set_empty_nodup hw.len hw.nodup hq habs
  · have : occupied (t.cells.set q { cellAt t.cells q with key := k }) <
        (t.cells.set q { cellAt t.cells q with key := k }).length := by
      rw [List.length_set, hw.len]; omega
    obtain ⟨e, he, hke⟩ := exists_empty this
    rw [List.length_set, hw.len] at he
    exact ⟨e, he, hke⟩
  · intro x hx
    exact holds_set_empty hq1 hkq hx

theorem insert_loop_resize {t t1 : hash_table} (hw : WFCells t.cells t.array_size)
    {k : Nat} (fuel : Nat)
    (habs : ∀ i, i < t.array_size → keyAt t.cells i ≠ k)
    (hload : (t.population + 1) * 4 ≥ t.array_size * 3)
    (h64 : t.array_size * 3 < 2 ^ 64) (hp64 : (t.population + 1) * 4 < 2 ^ 64)
    (hrep : t.repopulate (t.array_size * 2) = some t1) :
    insert_loop k (fuel + 1) t = insert_loop k fuel t1 := by
  obtain ⟨q, hq, hkq, hbefore, hres⟩ := probe_absent hw.len hw.small hw.has_empty habs
  unfold ideal at hres
  conv_lhs => unfold insert_loop
  rw [hres]
  simp only []
  rw [Nat.mod_eq_of_lt hp64, Nat.mod_eq_of_lt h64, if_pos hload,
    Nat.mod_eq_of_lt (by omega : t.array_size * 2 < 2 ^ 64), hrep]

theorem load_double {p n : Nat} (hn : 0 < n) (h : p * 4 < n * 3) :
    (p + 1) * 4 < n * 2 * 3 := by
  rcases Nat.lt_or_ge n 2 with h2 | h2 <;> omega

theorem isPow2_double {n : Nat} (h : IsPow2 n) : IsPow2 (n * 2) := by
  obtain ⟨e, he⟩ := h
  exact ⟨e + 1, by rw [he, pow_succ]⟩

theorem isPow2_pos {n : Nat} (h : IsPow2 n) : 0 < n := by
  obtain ⟨e, he⟩ := h
  rw [he]; exact Nat.two_pow_pos _

theorem reg_ne_null (t : hash_table) (k i : Nat) (h : t.lookup k = some (cell_ptr.reg i)) :
    t.lookup k ≠ some cell_ptr.null := by
  rw [h]; intro hc; cases hc

theorem insert_nonzero_spec {t : hash_table} (h : Inv t) {k : Nat} (hk : k ≠ 0) :
    ∃ t1 p, t.insert k = some (t1, p) ∧ InsertPost t k t1 p := by
  have hw := wf_of_inv h
  have hfits := h.fits
  have hpop := h.pop
  have hld := h.load
  have hocc : occupied t.cells ≤ t.population := by omega
  have hins : t.insert k = insert_loop k 65 t := by
    unfold hash_table.insert; rw [if_pos hk]
  rw [hins]
  rcases lookup_cases hw k with ⟨h0, -⟩ | ⟨-, i, hi, hki, hlk⟩ | ⟨-, habs, hlk⟩
  · exact absurd h0 hk
  · -- the key is present
    refine ⟨t, cell_ptr.reg i, insert_loop_present hw 64 hk hi hki, ?_⟩
    exact
      { wf := hw, pow2 := h.pow2, pop := hpop, load := hld, found := hlk
        ptr := Or.inl ⟨hk, i, rfl, hi, hki⟩
        same := fun _ => rfl
        grow := fun hn => absurd hn (reg_ne_null t k i hlk)
        frame := fun _ _ _ => Iff.rfl
        zero_frame := ⟨rfl, fun _ => rfl⟩
        bound := Nat.le_mul_of_pos_right _ (by omega) }
  · by_cases hload : (t.population + 1) * 4 < t.array_size * 3
    · -- the key is absent and the table does not grow
      obtain ⟨q, hq, hkq, hrun, hwf, ho, hh⟩ :=
        insert_loop_absent hw 64 hk habs hocc hload (by omega)
      refine ⟨_, _, hrun, ?_⟩
      have hkq1 : keyAt (t.cells.set q { cellAt t.cells q with key := k }) q = k :=
        keyAt_set_self (by rw [hw.len]; exact hq) _
      exact
        { wf := hwf, pow2 := h.pow2
          pop := by
            show t.population + 1 = _ + (if t.zero_used then 1 else 0)
            rw [ho]; omega
          load := hload
          found := lookup_found (t := { t with
              population := t.population + 1
              cells := t.cells.set q { cellAt t.cells q with key := k } }) hwf hk hq hkq1
          ptr := Or.inl ⟨hk, q, rfl, hq, hkq1⟩
          same := fun hn => absurd hlk hn
          grow := fun _ => ⟨rfl, by
            show t.array_size = _
            rw [if_neg (by omega)]⟩
          frame := by
            intro x hx hxk
            show Holds (t.cells.set q { cellAt t.cells q with key := k }) x ↔ _
            rw [hh x hx]
            constructor
            · rintro (h1 | h1)
              · exact h1
              · exact absurd (by rw [h1]) hxk
            · exact Or.inl
          zero_frame := ⟨rfl, fun _ => rfl⟩
          bound := Nat.le_mul_of_pos_right _ (by omega) }
    · -- the key is absent and the table grows
      obtain ⟨e, he⟩ := h.pow2
      have hpos : 0 < t.array_size := isPow2_pos h.pow2
      obtain ⟨out, hrep, hwo, hoo, hho⟩ :=
        repopulate_spec (t := t) (d := t.array_size * 2) (e := e + 1) h.nodup hocc
          (by rw [he, pow_succ]) (by omega) (by have := load_double hpos hld; omega)
      rw [insert_loop_resize hw 64 habs (by omega) (by omega) (by omega) hrep]
      have habs1 : ∀ i, i < t.array_size * 2 → keyAt out i ≠ k := by
        rw [absent_iff_not_holds hwo.len]
        intro x hxk
        rw [hho x (by rw [hxk]; exact hk)]
        exact (absent_iff_not_holds hw.len).1 habs x hxk
      obtain ⟨q, hq, hkq, hrun, hwf, ho, hh⟩ :=
        insert_loop_absent (t := { t with cells := out, array_size := t.array_size * 2 })
          hwo 63 hk habs1 (by show occupied out ≤ t.population; omega)
          (load_double hpos hld)
          (by show t.array_size * 2 * 3 < 2 ^ 64; omega)
      refine ⟨_, _, hrun, ?_⟩
      have hkq1 : keyAt (out.set q { cellAt out q with key := k }) q = k :=
        keyAt_set_self (by rw [hwo.len]; exact hq) _
      exact
        { wf := hwf, pow2 := isPow2_double h.pow2
          pop := by
            show t.population + 1 = _ + (if t.zero_used then 1 else 0)
            rw [ho, hoo]; omega
          load := load_double hpos hld
          found := lookup_found (t := { t with
              population := t.population + 1
              array_size := t.array_size * 2
              cells := out.set q { cellAt out q with key := k } }) hwf hk hq hkq1
          ptr := Or.inl ⟨hk, q, rfl, hq, hkq1⟩
          same := fun hn => absurd hlk hn
          grow := fun _ => ⟨rfl, by
            show t.array_size * 2 = _
            rw [if_pos (by omega)]; omega⟩
          frame := by
            intro x hx hxk
            show Holds (out.set q { cellAt out q with key := k }) x ↔ _
            rw [hh x hx, hho x hx]
            constructor
            · rintro (h1 | h1)
              · exact h1
              · exact absurd (by rw [h1]) hxk
            · exact Or.inl
          zero_frame := ⟨rfl, fun _ => rfl⟩
          bound := Nat.le_refl _ }

theorem zero_ne_null (t : hash_table) (k : Nat) (h : t.lookup k = some cell_ptr.zero) :
    t.lookup k ≠ some cell_ptr.null := by
  rw [h]; intro hc; cases hc

theorem insert_zero_spec {t : hash_table} (h : Inv t) :
    ∃ t1 p, t.insert 0 = some (t1, p) ∧ InsertPost t 0 t1 p := by
  have hw := wf_of_inv h
  have hfits := h.fits
  have hpop := h.pop
  have hld := h.load
  have hpos : 0 < t.array_size := isPow2_pos h.pow2
  have hlk := lookup_zero t
  by_cases hz : t.zero_used = true
  · -- the zero key is present
    rw [if_pos hz] at hlk
    refine ⟨t, cell_ptr.zero, ?_, ?_⟩
    · unfold hash_table.insert
      simp [hz]
    · exact
        { wf := hw, pow2 := h.pow2, pop := hpop, load := hld, found := hlk
          ptr := Or.inr ⟨rfl, rfl, hz⟩
          same := fun _ => rfl
          grow := fun hn => absurd hn (zero_ne_null t 0 hlk)
          frame := fun _ _ _ => Iff.rfl
          zero_frame := ⟨rfl, fun _ => rfl⟩
          bound := Nat.le_mul_of_pos_right _ (by omega) }
  · rw [if_neg hz] at hlk hpop
    have hocc : occupied t.cells ≤ t.population + 1 := by omega
    by_cases hload : (t.population + 1) * 4 < t.array_size * 3
    · -- the table does not grow
      refine ⟨{ t with zero_used := true, population := t.population + 1 },
        cell_ptr.zero, ?_, ?_⟩
      · unfold hash_table.insert
        simp only [ne_eq, not_true_eq_false, if_false, hz, Bool.false_eq_true, not_false_eq_true, if_true]
        rw [Nat.mod_eq_of_lt (by omega : t.population + 1 < 2 ^ 64),
          Nat.mod_eq_of_lt (by omega : (t.population + 1) * 4 < 2 ^ 64),
          Nat.mod_eq_of_lt (by omega : t.array_size * 3 < 2 ^ 64), if_neg (by omega)]
      · exact
          { wf := hw, pow2 := h.pow2
            pop := by
              show t.population + 1 = occupied t.cells + (if true = true then 1 else 0)
              simp; omega
            load := hload
            found := lookup_zero _
            ptr := Or.inr ⟨rfl, rfl, rfl⟩
            same := fun hn => absurd hlk hn
            grow := fun _ => ⟨rfl, by
              show t.array_size = _
              rw [if_neg (by omega)]⟩
            frame := fun _ _ _ => Iff.rfl
            zero_frame := ⟨rfl, fun hne => absurd rfl hne⟩
            bound := Nat.le_mul_of_pos_right _ (by omega) }
    · -- the table grows
      obtain ⟨e, he⟩ := h.pow2
      have hdbl := load_double hpos hld
      obtain ⟨out, hrep, hwo, hoo, hho⟩ :=
        repopulate_spec (t := { t with zero_used := true, population := t.population + 1 })
          (d := t.array_size * 2) (e := e + 1) h.nodup hocc
          (by rw [he, pow_succ]) (by omega) (by show (t.population + 1) * 4 ≤ _; omega)
      refine ⟨{ t with zero_used := true, population := t.population + 1, cells := out
                       array_size := t.array_size * 2 }, cell_ptr.zero, ?_, ?_⟩
      · unfold hash_table.insert
        simp only [ne_eq, not_true_eq_false, if_false, hz, Bool.false_eq_true, not_false_eq_true, if_true]
        rw [Nat.mod_eq_of_lt (by omega : t.population + 1 < 2 ^ 64),
          Nat.mod_eq_of_lt (by omega : (t.population + 1) * 4 < 2 ^ 64),
          Nat.mod_eq_of_lt (by omega : t.array_size * 3 < 2 ^ 64), if_pos (by omega),
          Nat.mod_eq_of_lt (by omega : t.array_size * 2 < 2 ^ 64), hrep]
      · exact
          { wf := hwo, pow2 := isPow2_double h.pow2
            pop := by
              show t.population + 1 = occupied out + (if true = true then 1 else 0)
              rw [hoo]; simp; omega
            load := hdbl
            found := lookup_zero _
            ptr := Or.inr ⟨rfl, rfl, rfl⟩
            same := fun hn => absurd hlk hn
            grow := fun _ => ⟨rfl, by
              show t.array_size * 2 = _
              rw [if_pos (by omega)]; omega⟩
            frame := fun x hx _ => hho x hx
            zero_frame := ⟨rfl, fun hne => absurd rfl hne⟩
            bound := Nat.le_refl _ }

theorem insert_spec {t : hash_table} (h : Inv t) (k : Nat) :
    ∃ t1 p, t.insert k = some (t1, p) ∧ InsertPost t k t1 p := by
  by_cases hk : k = 0
  · subst hk; exact insert_zero_spec h
  · exact insert_nonzero_spec h hk

theorem inv_of_insert {t t1 : hash_table} {k : Nat} {p : cell_ptr} (ht : Inv t)
    (hp : InsertPost t k t1 p) (hfits : t1.array_size * 2 * 3 < 2 ^ 64) : Inv t1 :=
  { len := hp.wf.len, pow2 := hp.pow2, fits := hfits, pop := hp.pop, load := hp.load
    zero_key := by rw [hp.zero_frame.1]; exact ht.zero_key
    nogaps := hp.wf.nogaps, nodup := hp.wf.nodup }

/-! ## Delete -/

theorem pred_wrap {p : Nat} (h1 : 1 ≤ p) (h2 : p < 2 ^ 64) :
    (p + 2 ^ 64 - 1) % 2 ^ 64 = p - 1 := by
  omega

theorem delete_reg_spec {t : hash_table} (h : Inv t) {i : Nat} (hi : i < t.array_size)
    (hki : keyAt t.cells i ≠ 0) :
    ∃ out, t.delete (cell_ptr.reg i) =
        some { t with cells := out, population := t.population - 1 } ∧
      out.length = t.array_size ∧ NoGaps out ∧ NoDupKeys out ∧
      occupied out + 1 = occupied t.cells ∧
      (∀ x : cell, x.key ≠ 0 →
        (Holds out x ↔ Holds t.cells x ∧ x.key ≠ keyAt t.cells i)) := by
  have hw := wf_of_inv h
  have hfits := h.fits
  have hpop := h.pop
  have hld := h.load
  obtain ⟨e, he, hke⟩ := hw.has_empty
  have hie : i ≠ e := by
    intro hc; subst hc; exact hki hke
  have h2 : 2 ≤ t.array_size := by omega
  have hnd := hw.nodup
  rw [NoDupKeys, hw.len] at hnd
  obtain ⟨out, hrun, hol, hog, hod, hoo, hoh⟩ :=
    delete_loop_post t.array_size hw.small t.array_size t.cells i
      (CIRCULAR_NEXT t.array_size i) e hw.len hi (next_lt hi) he hki hke hw.nogaps
      (fun a ha b hb _ _ hka hkab => hnd a ha b hb hka hkab)
      (by
        intro j _ h1 h3
        rw [offset_next_self hi h2] at h3
        omega)
      (by rw [offset_next_self hi h2]; omega)
      (by
        rw [offset_next_self hi h2]
        exact offset_pos hi hie)
      (offset_lt (next_lt hi) he)
  refine ⟨out, ?_, hol, hog, hod, hoo, ?_⟩
  · unfold hash_table.delete
    simp only []
    rw [getElem?_eq_cellAt (by rw [hw.len]; exact hi)]
    simp only []
    rw [if_pos ⟨hi, hki⟩, hrun]
    simp only []
    rw [pred_wrap (by omega) (by omega)]
  · intro x hx
    rw [hoh x hx]
    constructor
    · rintro ⟨j, hj, hji, hxj⟩
      refine ⟨⟨j, by rw [hw.len]; exact hj, hxj⟩, ?_⟩
      intro hc
      apply hji
      have hkj : keyAt t.cells j = x.key := by unfold keyAt; rw [hxj]
      exact hnd j hj i hi (by rw [hkj]; exact hx) (by rw [hkj, hc])
    · rintro ⟨⟨j, hj, hxj⟩, hne⟩
      refine ⟨j, by rw [← hw.len]; exact hj, ?_, hxj⟩
      intro hc
      subst hc
      apply hne
      unfold keyAt; rw [hxj]

theorem delete_key_spec {t : hash_table} (h : Inv t) (k : Nat) :
    ∃ t1, t.delete_key k = some t1 ∧ DeletePost t k t1 := by
  have hw := wf_of_inv h
  have hfits := h.fits
  have hpop := h.pop
  have hld := h.load
  rcases lookup_cases hw k with ⟨h0, hlk⟩ | ⟨hk, i, hi, hki, hlk⟩ | ⟨hk, habs, hlk⟩
  · subst h0
    by_cases hz : t.zero_used = true
    · -- the zero key is present
      rw [if_pos hz] at hlk hpop
      refine ⟨{ t with zero_used := false
                       cell_zero := { t.cell_zero with value := 0 }
                       population := t.population - 1 }, ?_, ?_⟩
      · unfold hash_table.delete_key
        rw [hlk]
        simp only []
        unfold hash_table.delete
        simp only []
        rw [if_pos hz, pred_wrap (by omega) (by omega)]
      · exact
          { inv :=
              { len := h.len, pow2 := h.pow2, fits := h.fits, zero_key := h.zero_key
                pop := by
                  show t.population - 1 = occupied t.cells + (if false = true then 1 else 0)
                  simp; omega
                load := by show (t.population - 1) * 4 < t.array_size * 3; omega
                nogaps := h.nogaps, nodup := h.nodup }
            gone := lookup_zero _
            size := rfl
            same := fun hn => absurd hn (zero_ne_null t 0 hlk)
            shrink := fun _ => by show t.population - 1 + 1 = t.population; omega
            frame := fun x hx => ⟨fun hh => ⟨hh, hx⟩, fun hh => hh.1⟩
            zero_frame := fun hne => absurd rfl hne
            cells_frame := fun _ => ⟨rfl, rfl⟩ }
    · -- the zero key is absent
      rw [if_neg hz] at hlk
      refine ⟨t, ?_, ?_⟩
      · unfold hash_table.delete_key
        rw [hlk]
      · exact
          { inv := h, gone := hlk, size := rfl, same := fun _ => rfl
            shrink := fun hn => absurd hlk hn
            frame := fun x hx => ⟨fun hh => ⟨hh, hx⟩, fun hh => hh.1⟩
            zero_frame := fun hne => absurd rfl hne
            cells_frame := fun _ => ⟨rfl, by simpa using hz⟩ }
  · -- a regular cell holds the key
    obtain ⟨out, hdel, hol, hog, hod, hoo, hoh⟩ := delete_reg_spec h hi (by rw [hki]; exact hk)
    rw [hki] at hoh
    refine ⟨{ t with cells := out, population := t.population - 1 }, ?_, ?_⟩
    · unfold hash_table.delete_key
      rw [hlk]
      simp only []
      exact hdel
    · have hinv : Inv { t with cells := out, population := t.population - 1 } :=
        { len := hol, pow2 := h.pow2, fits := h.fits, zero_key := h.zero_key
          pop := by
            show t.population - 1 = occupied out + (if t.zero_used then 1 else 0)
            omega
          load := by show (t.population - 1) * 4 < t.array_size * 3; omega
          nogaps := hog, nodup := hod }
      exact
        { inv := hinv
          gone := by
            apply lookup_absent (wf_of_inv hinv) hk
            show ∀ j, j < t.array_size → keyAt out j ≠ k
            rw [absent_iff_not_holds hol]
            intro x hxk hh
            exact ((hoh x (by rw [hxk]; exact hk)).1 hh).2 hxk
          size := rfl
          same := fun hn => absurd hn (reg_ne_null t k i hlk)
          shrink := fun _ => by show t.population - 1 + 1 = t.population; omega
          frame := hoh
          zero_frame := fun _ => ⟨rfl, rfl⟩
          cells_frame := fun h0 => absurd h0 hk }
  · -- the key is absent
    refine ⟨t, ?_, ?_⟩
    · unfold hash_table.delete_key
      rw [hlk]
    · exact
        { inv := h, gone := hlk, size := rfl, same := fun _ => rfl
          shrink := fun hn => absurd hlk hn
          frame := fun x _ => ⟨fun hh => ⟨hh, fun hc =>
              (absent_iff_not_holds hw.len).1 habs x hc hh⟩, fun hh => hh.1⟩
          zero_frame := fun _ => ⟨rfl, rfl⟩
          cells_frame := fun h0 => absurd h0 hk }

theorem delete_eq_delete_key {t t1 : hash_table} {k : Nat} {p : cell_ptr}
    (hlk : t.lookup k = some p) (hdel : t.delete p = some t1) :
    t.delete_key k = some t1 := by
  unfold hash_table.delete_key
  rw [hlk]
  cases p with
  | null => simp [hash_table.delete] at hdel
  | zero => exact hdel
  | reg i => exact hdel

/-! ## What a lookup result tells -/

theorem lookup_reg_inv {t : hash_table} (hw : WFCells t.cells t.array_size) {k i : Nat}
    (h : t.lookup k = some (cell_ptr.reg i)) :
    k ≠ 0 ∧ i < t.array_size ∧ keyAt t.cells i = k := by
  rcases lookup_cases hw k with ⟨-, hlk⟩ | ⟨hk, j, hj, hkj, hlk⟩ | ⟨-, -, hlk⟩
  · rw [hlk] at h
    split_ifs at h <;> cases h
  · rw [hlk] at h
    cases h
    exact ⟨hk, hj, hkj⟩
  · rw [hlk] at h
    cases h

theorem lookup_zero_inv {t : hash_table} (hw : WFCells t.cells t.array_size) {k : Nat}
    (h : t.lookup k = some cell_ptr.zero) : k = 0 ∧ t.zero_used = true := by
  rcases lookup_cases hw k with ⟨h0, hlk⟩ | ⟨-, j, -, -, hlk⟩ | ⟨-, -, hlk⟩
  · rw [hlk] at h
    by_cases hz : t.zero_used = true
    · exact ⟨h0, hz⟩
    · rw [if_neg hz] at h; cases h
  · rw [hlk] at h; cases h
  · rw [hlk] at h; cases h

theorem lookup_null_inv {t : hash_table} (hw : WFCells t.cells t.array_size) {k : Nat}
    (h : t.lookup k = some cell_ptr.null) :
    (k = 0 ∧ t.zero_used = false) ∨
      (k ≠ 0 ∧ ∀ i, i < t.array_size → keyAt t.cells i ≠ k) := by
  rcases lookup_cases hw k with ⟨h0, hlk⟩ | ⟨-, j, -, -, hlk⟩ | ⟨hk, habs, -⟩
  · rw [hlk] at h
    by_cases hz : t.zero_used = true
    · rw [if_pos hz] at h; cases h
    · exact Or.inl ⟨h0, by simpa using hz⟩
  · rw [hlk] at h; cases h
  · exact Or.inr ⟨hk, habs⟩

/-! ## Writing a value, clearing, compacting, constructing -/

theorem keyAt_set_value (cells : List cell) (i j v : Nat) :
    keyAt (cells.set i { cellAt cells i with value := v }) j = keyAt cells j := by
  unfold keyAt
  rw [cellAt_set]
  split_ifs with h
  · rw [h.1]
  · rfl

theorem nogaps_congr {cells cells1 : List cell} (hl : cells1.length = cells.length)
    (hk : ∀ j, keyAt cells1 j = keyAt cells j) (h : NoGaps cells) : NoGaps cells1 := by
  intro i hi hki j hj hlt
  rw [hl] at hi hj hlt
  rw [hk] at hki hlt ⊢
  exact h i hi hki j hj hlt

theorem nodup_congr {cells cells1 : List cell} (hl : cells1.length = cells.length)
    (hk : ∀ j, keyAt cells1 j = keyAt cells j) (h : NoDupKeys cells) : NoDupKeys cells1 := by
  intro i hi j hj hki hkij
  rw [hl] at hi hj
  rw [hk] at hki hkij
  rw [hk] at hkij
  exact h i hi j hj hki hkij

theorem occupied_set_value (cells : List cell) (i v : Nat) :
    occupied (cells.set i { cellAt cells i with value := v }) = occupied cells := by
  by_cases hi : i < cells.length
  · have := occupied_set cells { cellAt cells i with value := v } i hi
    have hk : ({ cellAt cells i with value := v } : cell).key = keyAt cells i := rfl
    rw [hk] at this
    omega
  · rw [List.set_eq_of_length_le (by omega)]

theorem set_value_spec {t t1 : hash_table} (h : Inv t) {k v : Nat} {p : cell_ptr}
    (hlk : t.lookup k = some p) (hset : t.set_value p v = some t1) :
    Inv t1 ∧ t1.array_size = t.array_size ∧ t1.population = t.population ∧
      t1.zero_used = t.zero_used ∧ (∀ j, keyAt t1.cells j = keyAt t.cells j) := by
  have hw := wf_of_inv h
  cases p with
  | null => simp [hash_table.set_value] at hset
  | zero =>
    simp only [hash_table.set_value, Option.some.injEq] at hset
    subst hset
    exact ⟨{ len := h.len, pow2 := h.pow2, fits := h.fits, pop := h.pop, load := h.load
             zero_key := h.zero_key, nogaps := h.nogaps, nodup := h.nodup },
      rfl, rfl, rfl, fun _ => rfl⟩
  | reg i =>
    obtain ⟨-, hi, -⟩ := lookup_reg_inv hw hlk
    unfold hash_table.set_value at hset
    simp only [] at hset
    rw [getElem?_eq_cellAt (by rw [hw.len]; exact hi)] at hset
    simp only [Option.some.injEq] at hset
    subst hset
    refine ⟨{ len := by
                show (t.cells.set i _).length = _
                rw [List.length_set]; exact h.len
              pow2 := h.pow2, fits := h.fits, zero_key := h.zero_key
              pop := by
                show t.population = occupied (t.cells.set i _) + _
                rw [occupied_set_value]; exact h.pop
              load := h.load
              nogaps := nogaps_congr (List.length_set _ _ _) (keyAt_set_value _ _ · _) h.nogaps
              nodup := nodup_congr (List.length_set _ _ _) (keyAt_set_value _ _ · _) h.nodup },
      rfl, rfl, rfl, fun j => keyAt_set_value _ _ _ _⟩

theorem clear_inv {t : hash_table} (h : Inv t) : Inv t.clear :=
  { len := List.length_replicate _ _
    pow2 := h.pow2
    fits := h.fits
    zero_key := h.zero_key
    pop := by
      show 0 = occupied (List.replicate t.array_size ⟨0, 0⟩) + (if false = true then 1 else 0)
      rw [occupied_replicate]; simp
    load := by
      show 0 * 4 < t.array_size * 3
      have := isPow2_pos h.pow2
      omega
    nogaps := nogaps_replicate _
    nodup := nodup_replicate _ }

theorem construct_inv {n e : Nat} {t : hash_table} (hn : n = 2 ^ e)
    (hfits : sizeof_cell * n < 2 ^ 64) (hc : hash_table.construct n = some t) : Inv t := by
  have he : e ≤ 64 := by
    by_contra hcon
    have : 2 ^ 64 ≤ 2 ^ e := Nat.pow_le_pow_right (by omega) (by omega)
    unfold sizeof_cell at hfits
    omega
  unfold hash_table.construct at hc
  rw [hn, power_of_2_assert_pow e he, if_pos rfl, ← hn] at hc
  simp only [Option.some.injEq] at hc
  subst hc
  exact
    { len := List.length_replicate _ _
      pow2 := ⟨e, hn⟩
      fits := by unfold sizeof_cell at hfits; show n * 2 * 3 < 2 ^ 64; omega
      zero_key := rfl
      pop := by
        show 0 = occupied (List.replicate n ⟨0, 0⟩) + (if false = true then 1 else 0)
        rw [occupied_replicate]; simp
      load := by
        show 0 * 4 < n * 3
        have : 0 < n := by rw [hn]; exact Nat.two_pow_pos _
        omega
      nogaps := nogaps_replicate _
      nodup := nodup_replicate _ }

theorem compact_spec {t : hash_table} (h : Inv t) :
    ∃ out e, t.compact = some { t with cells := out, array_size := 2 ^ e } ∧
      Inv { t with cells := out, array_size := 2 ^ e } ∧
      t.population * 4 < 2 ^ e * 3 ∧ (∀ e1, t.population * 4 < 2 ^ e1 * 3 → e ≤ e1) ∧
      occupied out = occupied t.cells ∧
      (∀ x : cell, x.key ≠ 0 → (Holds out x ↔ Holds t.cells x)) ∧
      2 ^ e ≤ t.array_size := by
  have hfits := h.fits
  have hpop := h.pop
  have hld := h.load
  have hocc : occupied t.cells ≤ t.population := by omega
  have hv : (t.population * 4 + 3) % 2 ^ 64 / 3 = (t.population * 4 + 3) / 3 := by
    rw [Nat.mod_eq_of_lt (by omega)]
  obtain ⟨e, hup, he63, hle, hmin⟩ :=
    upper_power_of_two_spec (v := (t.population * 4 + 3) / 3) (by omega) (by omega)
  obtain ⟨en, hen⟩ := h.pow2
  have hile : e ≤ en := hmin en (by rw [← hen]; omega)
  have hdn : 2 ^ e ≤ t.array_size := by
    rw [hen]; exact Nat.pow_le_pow_right (by omega) hile
  have hstrict : t.population * 4 < 2 ^ e * 3 := by omega
  obtain ⟨out, hrep, hwo, hoo, hho⟩ :=
    repopulate_spec (t := t) (d := 2 ^ e) (e := e) h.nodup hocc rfl (by omega) (by omega)
  refine ⟨out, e, ?_, ?_, hstrict, ?_, hoo, hho, hdn⟩
  · unfold hash_table.compact
    rw [hv, hup, hrep]
  · exact
      { len := hwo.len, pow2 := ⟨e, rfl⟩
        fits := by show 2 ^ e * 2 * 3 < 2 ^ 64; omega
        zero_key := h.zero_key
        pop := by
          show t.population = occupied out + (if t.zero_used then 1 else 0)
          rw [hoo]; exact hpop
        load := hstrict
        nogaps := hwo.nogaps, nodup := hwo.nodup }
  · intro e1 he1
    apply hmin
    omega

/-! ## The invariant holds in every reachable state -/

theorem reachable_inv {t : hash_table} (hr : Reachable t) : Inv t := by
  induction hr with
  | construct hn hfits hc => exact construct_inv hn hfits hc
  | insert _ hins hfits ih =>
    obtain ⟨t2, p2, hrun, hpost⟩ := insert_spec ih _
    rw [hins] at hrun
    cases hrun
    exact inv_of_insert ih hpost (by unfold sizeof_cell at hfits; omega)
  | delete_key _ hdel ih =>
    obtain ⟨t2, hrun, hpost⟩ := delete_key_spec ih _
    rw [hdel] at hrun
    cases hrun
    exact hpost.inv
  | delete _ hlk hdel ih =>
    obtain ⟨t2, hrun, hpost⟩ := delete_key_spec ih _
    rw [delete_eq_delete_key hlk hdel] at hrun
    cases hrun
    exact hpost.inv
  | clear _ ih => exact clear_inv ih
  | compact _ hc ih =>
    obtain ⟨out, e, hrun, hinv, -⟩ := compact_spec ih
    rw [hc] at hrun
    cases hrun
    exact hinv
  | set_value _ hlk hset ih => exact (set_value_spec ih hlk hset).1

/-! ## The value of a key -/

theorem deref_reg {t : hash_table} {i : Nat} (hi : i < t.cells.length) :
    t.deref (cell_ptr.reg i) = some (cellAt t.cells i) := by
  unfold hash_table.deref
  exact getElem?_eq_cellAt hi

theorem value_of_holds {t : hash_table} (hw : WFCells t.cells t.array_size) {x : cell}
    (hx : x.key ≠ 0) (hh : Holds t.cells x) :
    ∃ i, i < t.array_size ∧ cellAt t.cells i = x ∧ t.lookup x.key = some (cell_ptr.reg i) ∧
      t.value_of x.key = some (some x.value) := by
  obtain ⟨i, hi, hxi⟩ := hh
  have hi1 : i < t.array_size := by rw [← hw.len]; exact hi
  have hlk := lookup_found hw hx hi1 (by unfold keyAt; rw [hxi])
  refine ⟨i, hi1, hxi, hlk, ?_⟩
  unfold hash_table.value_of
  rw [hlk]
  simp only []
  rw [deref_reg hi, hxi]
  rfl

theorem value_of_absent {t : hash_table} (hw : WFCells t.cells t.array_size) {k : Nat}
    (hk : k ≠ 0) (habs : ∀ i, i < t.array_size → keyAt t.cells i ≠ k) :
    t.value_of k = some none := by
  unfold hash_table.value_of
  rw [lookup_absent hw hk habs]

theorem value_of_zero (t : hash_table) :
    t.value_of 0 = some (if t.zero_used then some t.cell_zero.value else none) := by
  unfold hash_table.value_of
  rw [lookup_zero]
  by_cases hz : t.zero_used = true
  · rw [if_pos hz, if_pos hz]; rfl
  · rw [if_neg hz, if_neg hz]

theorem value_of_congr {t t1 : hash_table} (hw : WFCells t.cells t.array_size)
    (hw1 : WFCells t1.cells t1.array_size)
    (hframe : ∀ x : cell, x.key ≠ 0 → (Holds t1.cells x ↔ Holds t.cells x))
    (hz : t1.zero_used = t.zero_used) (hc : t1.cell_zero = t.cell_zero) (k : Nat) :
    ∃ r, t.value_of k = some r ∧ t1.value_of k = some r := by
  by_cases hk : k = 0
  · subst hk
    exact ⟨_, value_of_zero t, by rw [value_of_zero, hz, hc]⟩
  · by_cases hex : ∃ i, i < t.array_size ∧ keyAt t.cells i = k
    · obtain ⟨i, hi, hki⟩ := hex
      have hh : Holds t.cells (cellAt t.cells i) := ⟨i, by rw [hw.len]; exact hi, rfl⟩
      have hkx : (cellAt t.cells i).key ≠ 0 := by
        intro hc0; apply hk; rw [← hki]; exact hc0
      obtain ⟨-, -, -, -, hv⟩ := value_of_holds hw hkx hh
      obtain ⟨-, -, -, -, hv1⟩ := value_of_holds hw1 hkx ((hframe _ hkx).2 hh)
      have : (cellAt t.cells i).key = k := hki
      rw [this] at hv hv1
      exact ⟨_, hv, hv1⟩
    · push_neg at hex
      refine ⟨none, value_of_absent hw hk hex, value_of_absent hw1 hk ?_⟩
      rw [absent_iff_not_holds hw1.len]
      intro x hxk
      rw [hframe x (by rw [hxk]; exact hk)]
      exact (absent_iff_not_holds hw.len).1 hex x hxk

/-! ## The iterator -/

theorem cellAt_eq_getElem {cells : List cell} {i : Nat} (hi : i < cells.length) :
    cellAt cells i = cells[i] := by
  simp only [cellAt, List.getD_eq_getElem?_getD, List.getElem?_eq_getElem hi,
    Option.getD_some]

/-- A walk of the iterator from index `i` on, then the client loop from where it stops,
visits the occupied cells from `i` on. -/
theorem iterate_from (t : hash_table) (hlen : t.cells.length = t.array_size) :
    ∀ (m i fuel fuel2 : Nat), i + m = t.array_size → m < fuel → m < fuel2 →
      (iterator.next_loop t fuel i).bind (fun p => iterate_loop t fuel2 ⟨p⟩) =
        some (occupied_cells (t.cells.drop i)) := by
  intro m
  induction m with
  | zero =>
    intro i fuel fuel2 him hf hf2
    obtain ⟨f, rfl⟩ : ∃ f, fuel = f + 1 := ⟨fuel - 1, by omega⟩
    obtain ⟨f2, rfl⟩ : ∃ f2, fuel2 = f2 + 1 := ⟨fuel2 - 1, by omega⟩
    have hi : i = t.array_size := by omega
    unfold iterator.next_loop
    rw [if_pos hi]
    simp only [Option.some_bind]
    unfold iterate_loop
    simp only []
    rw [List.drop_of_length_le (by omega)]
    rfl
  | succ m ih =>
    intro i fuel fuel2 him hf hf2
    obtain ⟨f, rfl⟩ : ∃ f, fuel = f + 1 := ⟨fuel - 1, by omega⟩
    obtain ⟨f2, rfl⟩ : ∃ f2, fuel2 = f2 + 1 := ⟨fuel2 - 1, by omega⟩
    have hi : i < t.cells.length := by omega
    have hne : i ≠ t.array_size := by omega
    rw [List.drop_eq_getElem_cons hi, ← cellAt_eq_getElem hi]
    conv_lhs => unfold iterator.next_loop
    rw [if_neg hne, getElem?_eq_cellAt hi]
    simp only []
    by_cases hk : (cellAt t.cells i).key ≠ 0
    · rw [if_pos hk]
      simp only [Option.some_bind]
      conv_lhs => unfold iterate_loop
      simp only []
      rw [deref_reg hi]
      have hnext : iterator.next t ⟨cell_ptr.reg i⟩ =
          (iterator.next_loop t (t.array_size + 1) (i + 1)).map iterator.mk := rfl
      rw [hnext]
      have := ih (i + 1) (t.array_size + 1) f2 (by omega) (by omega) (by omega)
      cases hnl : iterator.next_loop t (t.array_size + 1) (i + 1) with
      | none => rw [hnl] at this; simp at this
      | some p =>
        rw [hnl] at this
        simp only [Option.some_bind] at this
        simp only [Option.map_some']
        rw [this]
        simp [occupied_cells, List.filter_cons, hk]
    · rw [if_neg hk]
      rw [ih (i + 1) f (f2 + 1) (by omega) (by omega) (by omega)]
      simp [occupied_cells, List.filter_cons, hk]

theorem iterate_spec {t : hash_table} (hlen : t.cells.length = t.array_size) :
    t.iterate = some t.contents := by
  have h0 := iterate_from t hlen t.array_size 0 (t.array_size + 1) (t.array_size + 2)
    (by omega) (by omega) (by omega)
  have h1 := iterate_from t hlen t.array_size 0 (t.array_size + 1) (t.array_size + 1)
    (by omega) (by omega) (by omega)
  rw [List.drop_zero] at h0 h1
  unfold hash_table.iterate iterator.construct hash_table.contents
  by_cases hz : t.zero_used = true
  · simp only [hz, not_true_eq_false, if_false, if_true]
    unfold iterate_loop
    simp only []
    have hnext : iterator.next t ⟨cell_ptr.zero⟩ =
        (iterator.next_loop t (t.array_size + 1) 0).map iterator.mk := rfl
    rw [hnext]
    cases hnl : iterator.next_loop t (t.array_size + 1) 0 with
    | none => rw [hnl] at h1; simp at h1
    | some p =>
      rw [hnl] at h1
      simp only [Option.some_bind] at h1
      simp only [hash_table.deref, Option.map_some']
      rw [h1]
      rfl
  · simp only [hz, Bool.false_eq_true, not_false_eq_true, if_true, if_false]
    have hnext : iterator.next t ⟨cell_ptr.zero⟩ =
        (iterator.next_loop t (t.array_size + 1) 0).map iterator.mk := rfl
    rw [hnext]
    cases hnl : iterator.next_loop t (t.array_size + 1) 0 with
    | none => rw [hnl] at h0; simp at h0
    | some p =>
      rw [hnl] at h0
      simp only [Option.some_bind] at h0
      simp only [Option.map_some']
      rw [h0]
      rfl

/-! ## The contents of a table -/

theorem mem_occupied_cells (cells : List cell) (x : cell) :
    x ∈ occupied_cells cells ↔ Holds cells x ∧ x.key ≠ 0 := by
  unfold occupied_cells
  rw [List.mem_filter, holds_iff_mem]
  simp

theorem occupied_cells_pairwise {cells : List cell} (hd : NoDupKeys cells) :
    (occupied_cells cells).Pairwise (fun a b => a.key ≠ b.key) := by
  unfold occupied_cells
  rw [List.pairwise_filter]
  exact (pairwise_of_nodup hd).imp (fun hab ha _ => hab (by simpa using ha))

theorem occupied_cells_nodup {cells : List cell} (hd : NoDupKeys cells) :
    (occupied_cells cells).Nodup :=
  (occupied_cells_pairwise hd).imp (fun hab heq => hab (by rw [heq]))

theorem length_occupied_cells (cells : List cell) :
    (occupied_cells cells).length = occupied cells := by
  unfold occupied_cells occupied
  rw [List.countP_eq_length_filter]

theorem occupied_cells_perm {cells cells1 : List cell} (hd : NoDupKeys cells)
    (hd1 : NoDupKeys cells1)
    (hframe : ∀ x : cell, x.key ≠ 0 → (Holds cells1 x ↔ Holds cells x)) :
    (occupied_cells cells).Perm (occupied_cells cells1) := by
  rw [List.perm_ext_iff_of_nodup (occupied_cells_nodup hd) (occupied_cells_nodup hd1)]
  intro x
  rw [mem_occupied_cells, mem_occupied_cells]
  constructor
  · rintro ⟨hh, hx⟩; exact ⟨(hframe x hx).2 hh, hx⟩
  · rintro ⟨hh, hx⟩; exact ⟨(hframe x hx).1 hh, hx⟩

theorem found_iff {t : hash_table} (hw : WFCells t.cells t.array_size) (k : Nat) :
    t.found k ↔ (k = 0 ∧ t.zero_used = true) ∨
      (k ≠ 0 ∧ ∃ i, i < t.array_size ∧ keyAt t.cells i = k) := by
  unfold hash_table.found
  rcases lookup_cases hw k with ⟨h0, hlk⟩ | ⟨hk, i, hi, hki, hlk⟩ | ⟨hk, habs, hlk⟩
  · rw [hlk]
    by_cases hz : t.zero_used = true
    · rw [if_pos hz]
      exact ⟨fun _ => Or.inl ⟨h0, hz⟩, fun _ => ⟨_, rfl, by intro hc; cases hc⟩⟩
    · rw [if_neg hz]
      constructor
      · rintro ⟨p, hp, hne⟩
        cases hp
        exact absurd rfl hne
      · rintro (⟨-, hz1⟩ | ⟨hk, -⟩)
        · exact absurd hz1 hz
        · exact absurd h0 hk
  · rw [hlk]
    exact ⟨fun _ => Or.inr ⟨hk, i, hi, hki⟩, fun _ => ⟨_, rfl, by intro hc; cases hc⟩⟩
  · rw [hlk]
    constructor
    · rintro ⟨p, hp, hne⟩
      cases hp
      exact absurd rfl hne
    · rintro (⟨h0, -⟩ | ⟨-, i, hi, hki⟩)
      · exact absurd h0 hk
      · exact absurd hki (habs i hi)

theorem found_iff_not_null {t : hash_table} (hw : WFCells t.cells t.array_size) (k : Nat) :
    t.found k ↔ t.lookup k ≠ some cell_ptr.null := by
  unfold hash_table.found
  constructor
  · rintro ⟨p, hp, hne⟩ hc
    rw [hp] at hc
    cases hc
    exact hne rfl
  · intro hne
    rcases lookup_cases hw k with ⟨-, hlk⟩ | ⟨-, i, -, -, hlk⟩ | ⟨-, -, hlk⟩
    · exact ⟨_, hlk, by intro hc; rw [hc] at hlk; exact hne hlk⟩
    · exact ⟨_, hlk, by intro hc; cases hc⟩
    · exact absurd hlk hne

theorem not_found_iff_null {t : hash_table} (hw : WFCells t.cells t.array_size) (k : Nat) :
    ¬ t.found k ↔ t.lookup k = some cell_ptr.null := by
  rw [found_iff_not_null hw, not_not]

/-- The keys that are present are as many as `population` says. -/
theorem found_ncard {t : hash_table} (h : Inv t) :
    {k | t.found k}.ncard = t.population := by
  have hw := wf_of_inv h
  have hset : {k | t.found k} =
      ↑(((if t.zero_used then [0] else []) ++
        (occupied_cells t.cells).map cell.key).toFinset) := by
    rw [List.coe_toFinset]
    ext k
    simp only [Set.mem_setOf_eq, List.mem_append, List.mem_map]
    rw [found_iff hw]
    constructor
    · rintro (⟨h0, hz⟩ | ⟨hk, i, hi, hki⟩)
      · left; rw [if_pos hz, h0]; exact List.mem_singleton.2 rfl
      · right
        refine ⟨cellAt t.cells i, ?_, hki⟩
        rw [mem_occupied_cells]
        refine ⟨⟨i, by rw [hw.len]; exact hi, rfl⟩, ?_⟩
        intro hc; apply hk; rw [← hki]; exact hc
    · rintro (hm | ⟨x, hx, hxk⟩)
      · by_cases hz : t.zero_used = true
        · rw [if_pos hz] at hm
          exact Or.inl ⟨List.mem_singleton.1 hm, hz⟩
        · rw [if_neg hz] at hm
          cases hm
      · rw [mem_occupied_cells] at hx
        obtain ⟨⟨i, hi, hxi⟩, hx0⟩ := hx
        right
        refine ⟨by rw [← hxk]; exact hx0, i, by rw [← hw.len]; exact hi, ?_⟩
        unfold keyAt; rw [hxi]; exact hxk
  have hnd : ((if t.zero_used then [0] else []) ++
      (occupied_cells t.cells).map cell.key).Nodup := by
    have hk : ((occupied_cells t.cells).map cell.key).Nodup := by
      unfold List.Nodup
      rw [List.pairwise_map]
      exact occupied_cells_pairwise h.nodup
    by_cases hz : t.zero_used = true
    · rw [if_pos hz]
      simp only [List.singleton_append, List.nodup_cons]
      refine ⟨?_, hk⟩
      rw [List.mem_map]
      rintro ⟨x, hx, hx0⟩
      rw [mem_occupied_cells] at hx
      exact hx.2 hx0
    · rw [if_neg hz]
      simpa using hk
  rw [hset, Set.ncard_coe_Finset, List.toFinset_card_of_nodup hnd, List.length_append,
    List.length_map, length_occupied_cells, h.pop]
  by_cases hz : t.zero_used = true
  · rw [if_pos hz, if_pos hz]; simp; omega
  · rw [if_neg hz, if_neg hz]; simp

/-! ## Reachable states -/

theorem reachable_fits {t : hash_table} (hr : Reachable t) :
    sizeof_cell * t.array_size < 2 ^ 64 := by
  induction hr with
  | construct hn hfits hc =>
    unfold hash_table.construct at hc
    split_ifs at hc
    cases hc
    exact hfits
  | insert _ _ hfits _ => exact hfits
  | @delete_key t t1 k hr hdel ih =>
    obtain ⟨t2, hrun, hpost⟩ := delete_key_spec (reachable_inv hr) k
    rw [hdel] at hrun
    cases hrun
    rw [hpost.size]; exact ih
  | @delete t t1 k p hr hlk hdel ih =>
    obtain ⟨t2, hrun, hpost⟩ := delete_key_spec (reachable_inv hr) k
    rw [delete_eq_delete_key hlk hdel] at hrun
    cases hrun
    rw [hpost.size]; exact ih
  | clear _ ih => exact ih
  | @compact t t1 hr hc ih =>
    obtain ⟨out, e, hrun, -, -, -, -, -, hle⟩ := compact_spec (reachable_inv hr)
    rw [hc] at hrun
    cases hrun
    show sizeof_cell * 2 ^ e < 2 ^ 64
    unfold sizeof_cell at ih ⊢
    omega
  | @set_value t t1 k v p hr hlk hset ih =>
    rw [(set_value_spec (reachable_inv hr) hlk hset).2.1]; exact ih

/-- The table that an insert into a reachable table leaves satisfies the invariant. -/
theorem inv_after_insert {t t1 : hash_table} {k : Nat} {p : cell_ptr} (hr : Reachable t)
    (hp : InsertPost t k t1 p) : Inv t1 := by
  have hf := reachable_fits hr
  have hb := hp.bound
  unfold sizeof_cell at hf
  exact inv_of_insert (reachable_inv hr) hp (by omega)

theorem set_value_some {t : hash_table} (hw : WFCells t.cells t.array_size) {k : Nat}
    {p : cell_ptr} (hlk : t.lookup k = some p) (hp : p ≠ cell_ptr.null) (v : Nat) :
    ∃ t1, t.set_value p v = some t1 ∧ (t1.deref p).map cell.value = some v := by
  cases p with
  | null => exact absurd rfl hp
  | zero => exact ⟨_, rfl, rfl⟩
  | reg i =>
    obtain ⟨-, hi, -⟩ := lookup_reg_inv hw hlk
    have hi1 : i < t.cells.length := by rw [hw.len]; exact hi
    refine ⟨{ t with cells := t.cells.set i { cellAt t.cells i with value := v } }, ?_, ?_⟩
    · unfold hash_table.set_value
      simp only []
      rw [getElem?_eq_cellAt hi1]
    · rw [deref_reg (by show i < (t.cells.set i _).length; rw [List.length_set]; exact hi1)]
      show some (cellAt (t.cells.set i _) i).value = some v
      rw [cellAt_set_self hi1]

/-- Insert of a key leaves the presence of every other key as it is. -/
theorem insert_found_frame {t t1 : hash_table} {k : Nat} {p : cell_ptr}
    (hw : WFCells t.cells t.array_size) (hp : InsertPost t k t1 p) {k1 : Nat}
    (hne : k1 ≠ k) : t1.found k1 ↔ t.found k1 := by
  rw [found_iff hw, found_iff hp.wf]
  by_cases hk1 : k1 = 0
  · subst hk1
    rw [hp.zero_frame.2 (Ne.symm hne)]
    simp
  · have : (∃ i, i < t1.array_size ∧ keyAt t1.cells i = k1) ↔
        (∃ i, i < t.array_size ∧ keyAt t.cells i = k1) := by
      constructor
      · rintro ⟨i, hi, hki⟩
        have hh : Holds t1.cells (cellAt t1.cells i) := ⟨i, by rw [hp.wf.len]; exact hi, rfl⟩
        have hkx : (cellAt t1.cells i).key = k1 := hki
        obtain ⟨j, hj, hxj⟩ :=
          (hp.frame _ (by rw [hkx]; exact hk1) (by rw [hkx]; exact hne)).1 hh
        exact ⟨j, by rw [← hw.len]; exact hj, by unfold keyAt; rw [hxj]; exact hkx⟩
      · rintro ⟨i, hi, hki⟩
        have hh : Holds t.cells (cellAt t.cells i) := ⟨i, by rw [hw.len]; exact hi, rfl⟩
        have hkx : (cellAt t.cells i).key = k1 := hki
        obtain ⟨j, hj, hxj⟩ :=
          (hp.frame _ (by rw [hkx]; exact hk1) (by rw [hkx]; exact hne)).2 hh
        exact ⟨j, by rw [← hp.wf.len]; exact hj, by unfold keyAt; rw [hxj]; exact hkx⟩
    rw [this]
    simp [hk1]

/-- One insert of an absent key into a table that is far from the largest size. -/
theorem insert_fresh_step {t : hash_table} (h : Inv t) (hsmall : t.array_size ≤ 2 ^ 32)
    {k : Nat} (hk : ¬ t.found k) :
    ∃ t1 p, t.insert k = some (t1, p) ∧ Inv t1 ∧ t1.population = t.population + 1 ∧
      t1.array_size =
        (if (t.population + 1) * 4 ≥ t.array_size * 3 then 2 * t.array_size
         else t.array_size) ∧
      ∀ k1, k1 ≠ k → ¬ t.found k1 → ¬ t1.found k1 := by
  have hw := wf_of_inv h
  obtain ⟨t1, p, hrun, hpost⟩ := insert_spec h k
  have hg := hpost.grow ((not_found_iff_null hw k).1 hk)
  have hb := hpost.bound
  refine ⟨t1, p, hrun, inv_of_insert h hpost (by omega), hg.1, hg.2, ?_⟩
  intro k1 hne hnf hf
  exact hnf ((insert_found_frame hw hpost hne).1 hf)

/-! ## The example table -/

theorem demo_reachable : Reachable demo_4 := by
  have h0 : Reachable demo_0 :=
    Reachable.construct (n := 8) (e := 3) (by decide) (by decide) (by decide)
  have h1 : Reachable demo_1 :=
    Reachable.insert (k := 4) (p := cell_ptr.reg 5) h0 (by decide) (by decide)
  have h2 : Reachable demo_2 :=
    Reachable.insert (k := 5) (p := cell_ptr.reg 6) h1 (by decide) (by decide)
  have h3 : Reachable demo_3 :=
    Reachable.insert (k := 7) (p := cell_ptr.reg 7) h2 (by decide) (by decide)
  exact Reachable.set_value (k := 5) (v := 50) (p := cell_ptr.reg 6) h3 (by decide) (by decide)

theorem demo_0_reachable : Reachable demo_0 :=
  Reachable.construct (n := 8) (e := 3) (by decide) (by decide) (by decide)

theorem demo_0_not_found (k : Nat) : ¬ demo_0.found k := by
  have hw := wf_of_inv (reachable_inv demo_0_reachable)
  rw [found_iff hw]
  rintro (⟨-, hz⟩ | ⟨hk, i, -, hki⟩)
  · cases hz
  · apply hk
    rw [← hki]
    exact keyAt_replicate 8 i

/-! ## Inserting several absent keys -/

theorem insert_all_fresh :
    ∀ (keys : List Nat) (t : hash_table) (b : Nat), Inv t → t.array_size ≤ b →
      b * 2 ^ keys.length ≤ 2 ^ 32 → keys.Nodup → (∀ k, k ∈ keys → ¬ t.found k) →
      ∃ tm, insert_all t keys = some tm ∧
        tm.population = t.population + keys.length ∧
        tm.array_size = grow_from t.population t.array_size keys.length := by
  intro keys
  induction keys with
  | nil =>
    intro t b _ _ _ _ _
    exact ⟨t, rfl, rfl, rfl⟩
  | cons k ks ih =>
    intro t b hinv hb hb32 hnd hnf
    have hpow : 0 < 2 ^ ks.length := Nat.two_pow_pos _
    have hb1 : b * 2 * 2 ^ ks.length ≤ 2 ^ 32 := by
      have : b * 2 ^ (k :: ks).length = b * 2 * 2 ^ ks.length := by
        rw [List.length_cons, pow_succ]; ring
      omega
    have hb2 : b * 2 ≤ 2 ^ 32 := by
      have : b * 2 * 1 ≤ b * 2 * 2 ^ ks.length := Nat.mul_le_mul_left _ hpow
      omega
    rw [List.nodup_cons] at hnd
    obtain ⟨t1, p, hrun, hinv1, hpop1, hsize1, hframe⟩ :=
      insert_fresh_step hinv (by omega) (hnf k (List.mem_cons_self _ _))
    have hs1 : t1.array_size ≤ b * 2 := by
      rw [hsize1]; split_ifs <;> omega
    obtain ⟨tm, hrunm, hpopm, hsizem⟩ :=
      ih t1 (b * 2) hinv1 hs1 hb1 hnd.2
        (fun k1 hk1 => hframe k1 (by rintro rfl; exact hnd.1 hk1)
          (hnf k1 (List.mem_cons_of_mem _ hk1)))
    refine ⟨tm, ?_, ?_, ?_⟩
    · unfold insert_all
      rw [hrun]
      exact hrunm
    · rw [hpopm, hpop1, List.length_cons]; omega
    · rw [hsizem, hpop1, hsize1, List.length_cons]
      rfl

/-! ## The claims -/

/-- C1: in every reachable state, `lookup(k)` for a nonzero key `k` returns the regular
cell that holds `k` if there is one (there is then only one) and `NULL` if no regular cell
holds `k`; `lookup(0)` returns the zero cell if `zero_used`, and `NULL` otherwise. -/
theorem C1_lookup_correct (t : hash_table) (hr : Reachable t) (k : Nat) :
    (k ≠ 0 →
      (∀ i, i < t.array_size → keyAt t.cells i = k → t.lookup k = some (cell_ptr.reg i)) ∧
      ((∀ i, i < t.array_size → keyAt t.cells i ≠ k) → t.lookup k = some cell_ptr.null)) ∧
    (k = 0 → t.lookup k = some (if t.zero_used then cell_ptr.zero else cell_ptr.null)) := by
  have hw := wf_of_inv (reachable_inv hr)
  refine ⟨fun hk => ⟨fun i hi hki => lookup_found hw hk hi hki,
    fun habs => lookup_absent hw hk habs⟩, ?_⟩
  rintro rfl
  exact lookup_zero t

theorem C1_lookup_correct_witness :
    Reachable demo_4 ∧ demo_4.lookup 5 = some (cell_ptr.reg 6) ∧
      demo_4.lookup 13 = some cell_ptr.null :=
  ⟨demo_reachable,
    ((C1_lookup_correct demo_4 demo_reachable 5).1 (by decide)).1 6 (by decide) (by decide),
    ((C1_lookup_correct demo_4 demo_reachable 13).1 (by decide)).2 (by decide)⟩

/-- C2: in every reachable state, `insert(k)` returns a handle, and the `lookup(k)` that
follows returns the same handle: a regular cell with key `k` for a nonzero `k`, the zero
cell (with `zero_used` set) for `k = 0`; this holds with and without a resize. -/
theorem C2_insert_then_lookup (t : hash_table) (hr : Reachable t) (k : Nat) :
    ∃ t1 h, t.insert k = some (t1, h) ∧ t1.lookup k = some h ∧ h ≠ cell_ptr.null ∧
      ((k ≠ 0 ∧ ∃ i, h = cell_ptr.reg i ∧ i < t1.array_size ∧ keyAt t1.cells i = k) ∨
       (k = 0 ∧ h = cell_ptr.zero ∧ t1.zero_used = true)) := by
  obtain ⟨t1, p, hrun, hpost⟩ := insert_spec (reachable_inv hr) k
  refine ⟨t1, p, hrun, hpost.found, ?_, hpost.ptr⟩
  rcases hpost.ptr with ⟨-, i, hp, -⟩ | ⟨-, hp, -⟩ <;> rw [hp] <;> intro hc <;> cases hc

theorem C2_insert_then_lookup_witness :
    Reachable demo_4 ∧
      ∃ t1 h, demo_4.insert 9 = some (t1, h) ∧ t1.lookup 9 = some h ∧ h ≠ cell_ptr.null ∧
        (((9 : Nat) ≠ 0 ∧ ∃ i, h = cell_ptr.reg i ∧ i < t1.array_size ∧
            keyAt t1.cells i = 9) ∨
         ((9 : Nat) = 0 ∧ h = cell_ptr.zero ∧ t1.zero_used = true)) :=
  ⟨demo_reachable, C2_insert_then_lookup demo_4 demo_reachable 9⟩

/-- C3: in every reachable state and for every key `k` (zero included), `insert(k)`, then
`delete(k)` by key, then `lookup(k)` reports not-found. -/
theorem C3_insert_delete_lookup (t : hash_table) (hr : Reachable t) (k : Nat) :
    ∃ t1 h t2, t.insert k = some (t1, h) ∧ t1.delete_key k = some t2 ∧
      t2.lookup k = some cell_ptr.null := by
  obtain ⟨t1, p, hrun, hpost⟩ := insert_spec (reachable_inv hr) k
  obtain ⟨t2, hdel, hdpost⟩ := delete_key_spec (inv_after_insert hr hpost) k
  exact ⟨t1, p, t2, hrun, hdel, hdpost.gone⟩

theorem C3_insert_delete_lookup_witness :
    Reachable demo_4 ∧
      ∃ t1 h t2, demo_4.insert 12 = some (t1, h) ∧ t1.delete_key 12 = some t2 ∧
        t2.lookup 12 = some cell_ptr.null :=
  ⟨demo_reachable, C3_insert_delete_lookup demo_4 demo_reachable 12⟩

/-- C4: in every reachable state, for distinct keys `k1` and `k2` with `k2` present,
after `delete(k1)` the call `lookup(k2)` still finds a cell, that cell has key `k2`, and
its value is the value that `lookup(k2)` had before the delete. -/
theorem C4_delete_keeps_others (t : hash_table) (hr : Reachable t) (k1 k2 : Nat)
    (hne : k1 ≠ k2) (h2 : t.found k2) :
    ∃ t1 p x p1 x1, t.delete_key k1 = some t1 ∧
      t.lookup k2 = some p ∧ t.deref p = some x ∧
      t1.lookup k2 = some p1 ∧ p1 ≠ cell_ptr.null ∧ t1.deref p1 = some x1 ∧
      x1.key = k2 ∧ x1.value = x.value := by
  have hinv := reachable_inv hr
  have hw := wf_of_inv hinv
  obtain ⟨t1, hdel, hpost⟩ := delete_key_spec hinv k1
  have hw1 := wf_of_inv hpost.inv
  rcases (found_iff hw k2).1 h2 with ⟨h0, hz⟩ | ⟨hk2, i, hi, hki⟩
  · subst h0
    have hzf := hpost.zero_frame hne
    refine ⟨t1, cell_ptr.zero, t.cell_zero, cell_ptr.zero, t1.cell_zero, hdel, ?_, rfl, ?_,
      (by intro hc; cases hc), rfl, hpost.inv.zero_key, by rw [hzf.2]⟩
    · rw [lookup_zero, if_pos hz]
    · rw [lookup_zero, hzf.1, if_pos hz]
  · have hh : Holds t.cells (cellAt t.cells i) := ⟨i, by rw [hw.len]; exact hi, rfl⟩
    have hkx : (cellAt t.cells i).key = k2 := hki
    have hh1 : Holds t1.cells (cellAt t.cells i) :=
      (hpost.frame _ (by rw [hkx]; exact hk2)).2 ⟨hh, by rw [hkx]; exact Ne.symm hne⟩
    obtain ⟨j, hj, hxj, hlk1, -⟩ := value_of_holds hw1 (by rw [hkx]; exact hk2) hh1
    rw [hkx] at hlk1
    refine ⟨t1, cell_ptr.reg i, cellAt t.cells i, cell_ptr.reg j, cellAt t1.cells j, hdel,
      lookup_found hw hk2 hi hki, deref_reg (by rw [hw.len]; exact hi), hlk1,
      (by intro hc; cases hc), deref_reg (by rw [hw1.len]; exact hj), ?_, ?_⟩
    · rw [hxj]; exact hkx
    · rw [hxj]

theorem C4_delete_keeps_others_witness :
    Reachable demo_4 ∧ (4 : Nat) ≠ 5 ∧ demo_4.found 5 ∧
      ∃ t1 p x p1 x1, demo_4.delete_key 4 = some t1 ∧
        demo_4.lookup 5 = some p ∧ demo_4.deref p = some x ∧
        t1.lookup 5 = some p1 ∧ p1 ≠ cell_ptr.null ∧ t1.deref p1 = some x1 ∧
        x1.key = 5 ∧ x1.value = x.value :=
  ⟨demo_reachable, by decide, ⟨cell_ptr.reg 6, by decide, by decide⟩,
    C4_delete_keeps_others demo_4 demo_reachable 4 5 (by decide)
      ⟨cell_ptr.reg 6, by decide, by decide⟩⟩

/-- C5: in every reachable state, if `insert(k)` returns `h1`, the value `v` is written
through `h1`, and `insert(k)` is called again, then the second call returns `h1` again,
leaves the whole table as it is, and the value at `h1` is still `v`. -/
theorem C5_insert_idempotent (t : hash_table) (hr : Reachable t) (k v : Nat) :
    ∃ t1 h1 t2, t.insert k = some (t1, h1) ∧ t1.set_value h1 v = some t2 ∧
      t2.insert k = some (t2, h1) ∧ (t2.deref h1).map cell.value = some v := by
  obtain ⟨t1, h1, hrun, hpost⟩ := insert_spec (reachable_inv hr) k
  have hinv1 := inv_after_insert hr hpost
  have hw1 := wf_of_inv hinv1
  have hnn : h1 ≠ cell_ptr.null := by
    rcases hpost.ptr with ⟨-, i, hp, -⟩ | ⟨-, hp, -⟩ <;> rw [hp] <;> intro hc <;> cases hc
  obtain ⟨t2, hset, hval⟩ := set_value_some hw1 hpost.found hnn v
  obtain ⟨hinv2, hsize, -, hzu, hkeys⟩ := set_value_spec hinv1 hpost.found hset
  have hw2 := wf_of_inv hinv2
  have hlk2 : t2.lookup k = some h1 := by
    rcases hpost.ptr with ⟨hk, i, hp, hi, hki⟩ | ⟨hk, hp, hz⟩
    · rw [hp]
      exact lookup_found hw2 hk (by rw [hsize]; exact hi) (by rw [hkeys]; exact hki)
    · rw [hp, hk, lookup_zero, hzu, if_pos hz]
  obtain ⟨t3, h3, hrun2, hpost2⟩ := insert_spec hinv2 k
  have hsame : t3 = t2 := hpost2.same (by rw [hlk2]; intro hc; cases hc; exact hnn rfl)
  subst hsame
  have hh : h3 = h1 := by
    have := hpost2.found
    rw [hlk2] at this
    cases this; rfl
  subst hh
  exact ⟨t1, h3, t3, hrun, hset, hrun2, hval⟩

theorem C5_insert_idempotent_witness :
    Reachable demo_4 ∧
      ∃ t1 h1 t2, demo_4.insert 5 = some (t1, h1) ∧ t1.set_value h1 77 = some t2 ∧
        t2.insert 5 = some (t2, h1) ∧ (t2.deref h1).map cell.value = some 77 :=
  ⟨demo_reachable, C5_insert_idempotent demo_4 demo_reachable 5 77⟩

/-- C6: in every reachable state, `population` is the number of occupied regular cells
plus one if `zero_used`, and it is the number of keys that `lookup` finds; `insert` of an
absent key raises it by one, `insert` of a present key leaves it, `delete` of a present
key lowers it by one, and `clear` sets it to zero. -/
theorem C6_population (t : hash_table) (hr : Reachable t) :
    t.population = occupied t.cells + (if t.zero_used then 1 else 0) ∧
    {k | t.found k}.ncard = t.population ∧
    (∀ k, ¬ t.found k →
      ∃ t1 h, t.insert k = some (t1, h) ∧ t1.population = t.population + 1) ∧
    (∀ k, t.found k → ∃ t1 h, t.insert k = some (t1, h) ∧ t1.population = t.population) ∧
    (∀ k, t.found k → ∃ t1, t.delete_key k = some t1 ∧ t1.population + 1 = t.population) ∧
    t.clear.population = 0 := by
  have hinv := reachable_inv hr
  have hw := wf_of_inv hinv
  refine ⟨hinv.pop, found_ncard hinv, ?_, ?_, ?_, rfl⟩
  · intro k hk
    obtain ⟨t1, h, hrun, hpost⟩ := insert_spec hinv k
    exact ⟨t1, h, hrun, (hpost.grow ((not_found_iff_null hw k).1 hk)).1⟩
  · intro k hk
    obtain ⟨t1, h, hrun, hpost⟩ := insert_spec hinv k
    have := hpost.same ((found_iff_not_null hw k).1 hk)
    subst this
    exact ⟨t1, h, hrun, rfl⟩
  · intro k hk
    obtain ⟨t1, hdel, hpost⟩ := delete_key_spec hinv k
    exact ⟨t1, hdel, hpost.shrink ((found_iff_not_null hw k).1 hk)⟩

theorem C6_population_witness :
    Reachable demo_4 ∧
      (demo_4.population = occupied demo_4.cells + (if demo_4.zero_used then 1 else 0) ∧
      {k | demo_4.found k}.ncard = demo_4.population ∧
      (∀ k, ¬ demo_4.found k →
        ∃ t1 h, demo_4.insert k = some (t1, h) ∧ t1.population = demo_4.population + 1) ∧
      (∀ k, demo_4.found k →
        ∃ t1 h, demo_4.insert k = some (t1, h) ∧ t1.population = demo_4.population) ∧
      (∀ k, demo_4.found k →
        ∃ t1, demo_4.delete_key k = some t1 ∧ t1.population + 1 = demo_4.population) ∧
      demo_4.clear.population = 0) :=
  ⟨demo_reachable, C6_population demo_4 demo_reachable⟩

/-- C7: in every reachable state the size of the array is a power of two, and after
every `insert` (zero or nonzero key, with or without a resize) it still is, and
`population * 4 <= array_size * 3`. -/
theorem C7_sizing (t : hash_table) (hr : Reachable t) :
    IsPow2 t.array_size ∧
    ∀ k, ∃ t1 h, t.insert k = some (t1, h) ∧ IsPow2 t1.array_size ∧
      t1.population * 4 ≤ t1.array_size * 3 := by
  have hinv := reachable_inv hr
  refine ⟨hinv.pow2, fun k => ?_⟩
  obtain ⟨t1, h, hrun, hpost⟩ := insert_spec hinv k
  exact ⟨t1, h, hrun, hpost.pow2, Nat.le_of_lt hpost.load⟩

theorem C7_sizing_witness :
    Reachable demo_4 ∧
      (IsPow2 demo_4.array_size ∧
      ∀ k, ∃ t1 h, demo_4.insert k = some (t1, h) ∧ IsPow2 t1.array_size ∧
        t1.population * 4 ≤ t1.array_size * 3) :=
  ⟨demo_reachable, C7_sizing demo_4 demo_reachable⟩

theorem grow_from_8 (m : Nat) (hm : m ≤ 6) :
    grow_from 0 8 m = if m ≤ 5 then 8 else 16 := by
  interval_cases m <;> rfl

/-- C8: in every reachable state with population `p` and array size `c`, `insert` of an
absent key leaves population `p + 1` and array size `2 * c` if `(p + 1) * 4 >= c * 3`,
and `c` otherwise. From the empty table of size 8, inserting six distinct keys leaves
the size 8 after each of the first five inserts and 16 after the sixth. -/
theorem C8_growth_rule :
    (∀ t : hash_table, Reachable t → ∀ k, ¬ t.found k →
      ∃ t1 h, t.insert k = some (t1, h) ∧ t1.population = t.population + 1 ∧
        t1.array_size =
          if (t.population + 1) * 4 ≥ t.array_size * 3 then 2 * t.array_size
          else t.array_size) ∧
    (∀ keys : List Nat, keys.Nodup → keys.length = 6 →
      ∃ t0, hash_table.construct 8 = some t0 ∧
        ∀ m, m ≤ 6 →
          ∃ tm, insert_all t0 (keys.take m) = some tm ∧ tm.population = m ∧
            tm.array_size = if m ≤ 5 then 8 else 16) := by
  constructor
  · intro t hr k hk
    have hinv := reachable_inv hr
    obtain ⟨t1, h, hrun, hpost⟩ := insert_spec hinv k
    have hg := hpost.grow ((not_found_iff_null (wf_of_inv hinv) k).1 hk)
    exact ⟨t1, h, hrun, hg.1, hg.2⟩
  · intro keys hnd hlen
    refine ⟨demo_0, by decide, fun m hm => ?_⟩
    have hl : (keys.take m).length = m := by
      rw [List.length_take]; omega
    have hpow : 2 ^ m ≤ 2 ^ 6 := Nat.pow_le_pow_right (by omega) hm
    obtain ⟨tm, hrun, hpop, hsize⟩ :=
      insert_all_fresh (keys.take m) demo_0 8 (reachable_inv demo_0_reachable)
        (Nat.le_refl _) (by rw [hl]; omega) (hnd.sublist (List.take_sublist _ _))
        (fun k _ => demo_0_not_found k)
    refine ⟨tm, hrun, ?_, ?_⟩
    · rw [hpop, hl]; exact Nat.zero_add _
    · rw [hsize, hl]
      exact grow_from_8 m hm

theorem C8_growth_rule_witness :
    (Reachable demo_4 ∧ ¬ demo_4.found 9 ∧
      ∃ t1 h, demo_4.insert 9 = some (t1, h) ∧ t1.population = demo_4.population + 1 ∧
        t1.array_size =
          if (demo_4.population + 1) * 4 ≥ demo_4.array_size * 3 then 2 * demo_4.array_size
          else demo_4.array_size) ∧
    ([1, 2, 3, 4, 5, 6].Nodup ∧ [1, 2, 3, 4, 5, 6].length = 6 ∧
      ∃ t0, hash_table.construct 8 = some t0 ∧
        ∀ m, m ≤ 6 →
          ∃ tm, insert_all t0 ([1, 2, 3, 4, 5, 6].take m) = some tm ∧ tm.population = m ∧
            tm.array_size = if m ≤ 5 then 8 else 16) :=
  ⟨⟨demo_reachable,
      (not_found_iff_null (wf_of_inv (reachable_inv demo_reachable)) 9).2 (by decide),
      C8_growth_rule.1 demo_4 demo_reachable 9
        ((not_found_iff_null (wf_of_inv (reachable_inv demo_reachable)) 9).2 (by decide))⟩,
    by decide, by decide, C8_growth_rule.2 [1, 2, 3, 4, 5, 6] (by decide) (by decide)⟩

/-- C9: in every reachable state, `compact()` leaves the cells that a fresh iterator
visits the same up to their order (as a multiset of key and value pairs), leaves for
every key the result of `lookup` (found or not, and the value found) as it is, and leaves
`population` and `zero_used` as they are. -/
theorem C9_compact_preserves (t : hash_table) (hr : Reachable t) :
    ∃ t1 l l1, t.compact = some t1 ∧ t.iterate = some l ∧ t1.iterate = some l1 ∧
      l.Perm l1 ∧
      (∀ k, ∃ r, t.value_of k = some r ∧ t1.value_of k = some r) ∧
      t1.population = t.population ∧ t1.zero_used = t.zero_used := by
  have hinv := reachable_inv hr
  obtain ⟨out, e, hrun, hinv1, -, -, -, hframe, -⟩ := compact_spec hinv
  refine ⟨_, t.contents, _, hrun, iterate_spec hinv.len, iterate_spec hinv1.len, ?_, ?_,
    rfl, rfl⟩
  · unfold hash_table.contents
    exact List.Perm.append_left _ (occupied_cells_perm hinv.nodup hinv1.nodup hframe)
  · intro k
    exact value_of_congr (wf_of_inv hinv) (wf_of_inv hinv1) hframe rfl rfl k

theorem C9_compact_preserves_witness :
    Reachable demo_4 ∧
      ∃ t1 l l1, demo_4.compact = some t1 ∧ demo_4.iterate = some l ∧
        t1.iterate = some l1 ∧ l.Perm l1 ∧
        (∀ k, ∃ r, demo_4.value_of k = some r ∧ t1.value_of k = some r) ∧
        t1.population = demo_4.population ∧ t1.zero_used = demo_4.zero_used :=
  ⟨demo_reachable, C9_compact_preserves demo_4 demo_reachable⟩

/-- C10, as the code has it: in every reachable state with population `p`, after
`compact()` the size of the array is the smallest power of two `c` with `p * 4 < c * 3`
(strictly), which is `upper_power_of_two(p * 4 / 3 + 1)`. -/
theorem C10_compact_capacity (t : hash_table) (hr : Reachable t) :
    ∃ t1, t.compact = some t1 ∧ IsPow2 t1.array_size ∧
      t.population * 4 < t1.array_size * 3 ∧
      (∀ c, IsPow2 c → t.population * 4 < c * 3 → t1.array_size ≤ c) ∧
      t1.array_size = upper_power_of_two (t.population * 4 / 3 + 1) := by
  have hinv := reachable_inv hr
  obtain ⟨out, e, hrun, hinv1, hlt, hmin, -, -, -⟩ := compact_spec hinv
  refine ⟨_, hrun, ⟨e, rfl⟩, hlt, ?_, ?_⟩
  · rintro c ⟨e1, rfl⟩ hc
    exact Nat.pow_le_pow_right (by omega) (hmin e1 hc)
  · have hfits := hinv.fits
    have hld := hinv.load
    have hc : t.compact = some { t with
        cells := out
        array_size :=
          upper_power_of_two ((t.population * 4 + 3) % 2 ^ 64 / 3) } := by
      unfold hash_table.compact hash_table.repopulate at hrun ⊢
      split_ifs at hrun ⊢ with ha
      cases hl : repopulate_loop (upper_power_of_two ((t.population * 4 + 3) % 2 ^ 64 / 3))
          t.cells (List.replicate (upper_power_of_two
            ((t.population * 4 + 3) % 2 ^ 64 / 3)) ⟨0, 0⟩) with
      | none => rw [hl] at hrun; cases hrun
      | some fresh =>
        rw [hl] at hrun
        simp only [Option.some.injEq, hash_table.mk.injEq] at hrun
        simp only [Option.some.injEq, hash_table.mk.injEq]
        exact ⟨hrun.1, trivial, trivial, trivial, trivial⟩
    rw [hrun] at hc
    simp only [Option.some.injEq, hash_table.mk.injEq] at hc
    show 2 ^ e = _
    rw [hc.2.1, Nat.mod_eq_of_lt (by omega), Nat.add_div_right _ (by omega)]

theorem C10_compact_capacity_witness :
    Reachable demo_4 ∧
      ∃ t1, demo_4.compact = some t1 ∧ IsPow2 t1.array_size ∧
        demo_4.population * 4 < t1.array_size * 3 ∧
        (∀ c, IsPow2 c → demo_4.population * 4 < c * 3 → t1.array_size ≤ c) ∧
        t1.array_size = upper_power_of_two (demo_4.population * 4 / 3 + 1) :=
  ⟨demo_reachable, C10_compact_capacity demo_4 demo_reachable⟩

/-- C10, as the specification has it, fails: the reachable table `demo_4` has population
3, `compact()` leaves it with 8 cells, and 4 is a smaller power of two `c` with
`3 * 4 <= c * 3`; the formula `ceil_pow2(ceil(3 * 4 / 3))` of the specification is 4. -/
theorem C10_counterexample :
    Reachable demo_4 ∧ demo_4.population = 3 ∧
      (∃ t1, demo_4.compact = some t1 ∧ t1.array_size = 8 ∧
        ¬ (∀ c, IsPow2 c → demo_4.population * 4 ≤ c * 3 → t1.array_size ≤ c)) ∧
      upper_power_of_two ((demo_4.population * 4 + 2) / 3) = 4 := by
  refine ⟨demo_reachable, rfl, ⟨demo_4, by decide, rfl, ?_⟩, by decide⟩
  intro h
  have := h 4 ⟨2, rfl⟩ (by decide)
  revert this
  decide

/-! ## Empty cells have the value zero -/

theorem emptyValues_iff (t : hash_table) :
    EmptyValues t ↔
      (∀ i, keyAt t.cells i = 0 → (cellAt t.cells i).value = 0) ∧
        (t.zero_used = false → t.cell_zero.value = 0) := by
  unfold EmptyValues
  constructor
  · rintro ⟨h1, h2⟩
    refine ⟨fun i hk => ?_, h2⟩
    by_cases hi : i < t.cells.length
    · exact h1 i hi hk
    · unfold cellAt
      rw [List.getD_eq_getElem?_getD, List.getElem?_eq_none (by omega)]
      rfl
  · rintro ⟨h1, h2⟩
    exact ⟨fun i _ hk => h1 i hk, h2⟩

theorem zero_values_set {cells : List cell} {c : Nat} {x : cell}
    (hv : ∀ i, keyAt cells i = 0 → (cellAt cells i).value = 0)
    (hx : x.key = 0 → x.value = 0) :
    ∀ i, keyAt (cells.set c x) i = 0 → (cellAt (cells.set c x) i).value = 0 := by
  intro i hk
  unfold keyAt at hk
  rw [cellAt_set] at hk ⊢
  split_ifs at hk ⊢ with h
  · exact hx hk
  · exact hv i hk

theorem zero_values_replicate (n : Nat) :
    ∀ i, keyAt (List.replicate n ⟨0, 0⟩) i = 0 →
      (cellAt (List.replicate n ⟨0, 0⟩) i).value = 0 := by
  intro i _
  rw [cellAt_replicate]

theorem delete_loop_values (n : Nat) :
    ∀ (fuel : Nat) (cells : List cell) (c nb : Nat) (out : List cell),
      (∀ i, keyAt cells i = 0 → (cellAt cells i).value = 0) →
      delete_loop n fuel cells c nb = some out →
      ∀ i, keyAt out i = 0 → (cellAt out i).value = 0 := by
  intro fuel
  induction fuel with
  | zero =>
    intro cells c nb out _ hrun
    simp [delete_loop] at hrun
  | succ fuel ih =>
    intro cells c nb out hv hrun
    unfold delete_loop at hrun
    cases hx : cells[nb]? with
    | none => rw [hx] at hrun; simp at hrun
    | some x =>
      rw [hx] at hrun
      simp only [] at hrun
      by_cases hx0 : x.key = 0
      · rw [if_pos hx0] at hrun
        simp only [Option.some.injEq] at hrun
        subst hrun
        exact zero_values_set hv (fun _ => rfl)
      · rw [if_neg hx0] at hrun
        split_ifs at hrun
        · exact ih _ _ _ _ (zero_values_set hv (fun h => absurd h hx0)) hrun
        · exact ih _ _ _ _ hv hrun

theorem repopulate_loop_values (n : Nat) :
    ∀ (rest fresh out : List cell),
      (∀ i, keyAt fresh i = 0 → (cellAt fresh i).value = 0) →
      repopulate_loop n rest fresh = some out →
      ∀ i, keyAt out i = 0 → (cellAt out i).value = 0 := by
  intro rest
  induction rest with
  | nil =>
    intro fresh out hv hrun
    simp only [repopulate_loop, Option.some.injEq] at hrun
    subst hrun
    exact hv
  | cons c rest ih =>
    intro fresh out hv hrun
    unfold repopulate_loop at hrun
    by_cases hck : c.key ≠ 0
    · rw [if_pos hck] at hrun
      cases hp : repopulate_probe fresh n n (FIRST_CELL n (integer_hash c.key)) with
      | none => rw [hp] at hrun; simp at hrun
      | some q =>
        rw [hp] at hrun
        exact ih _ _ (zero_values_set hv (fun h => absurd h hck)) hrun
    · rw [if_neg hck] at hrun
      exact ih _ _ hv hrun

theorem repopulate_values {t t1 : hash_table} {d : Nat} (hrun : t.repopulate d = some t1) :
    (∀ i, keyAt t1.cells i = 0 → (cellAt t1.cells i).value = 0) ∧
      t1.zero_used = t.zero_used ∧ t1.cell_zero = t.cell_zero := by
  unfold hash_table.repopulate at hrun
  split_ifs at hrun
  cases hl : repopulate_loop d t.cells (List.replicate d ⟨0, 0⟩) with
  | none => rw [hl] at hrun; simp at hrun
  | some fresh =>
    rw [hl] at hrun
    simp only [Option.some.injEq] at hrun
    subst hrun
    exact ⟨repopulate_loop_values d _ _ _ (zero_values_replicate d) hl, rfl, rfl⟩

theorem insert_values {t : hash_table} (h : Inv t) (hv : EmptyValues t) (k : Nat) :
    ∃ t1 p, t.insert k = some (t1, p) ∧ EmptyValues t1 ∧
      (¬ t.found k → ∃ x, t1.deref p = some x ∧ x.value = 0) := by
  have hw := wf_of_inv h
  have hfits := h.fits
  have hpop := h.pop
  have hld := h.load
  have hocc : occupied t.cells ≤ t.population := by omega
  have hv1 := (emptyValues_iff t).1 hv
  rcases lookup_cases hw k with ⟨h0, hlk⟩ | ⟨hk, i, hi, hki, hlk⟩ | ⟨hk, habs, hlk⟩
  · subst h0
    by_cases hz : t.zero_used = true
    · -- the zero key is present
      rw [if_pos hz] at hlk
      refine ⟨t, cell_ptr.zero, ?_, hv, ?_⟩
      · unfold hash_table.insert
        simp [hz]
      · intro hnf
        exact absurd ⟨cell_ptr.zero, hlk, by intro hc; cases hc⟩ hnf
    · have hz1 : t.zero_used = false := by simpa using hz
      by_cases hload : (t.population + 1) * 4 < t.array_size * 3
      · -- the table does not grow
        refine ⟨{ t with zero_used := true, population := t.population + 1 },
          cell_ptr.zero, ?_, ?_, ?_⟩
        · unfold hash_table.insert
          simp only [ne_eq, not_true_eq_false, if_false, hz, Bool.false_eq_true,
            not_false_eq_true, if_true]
          rw [Nat.mod_eq_of_lt (by omega : t.population + 1 < 2 ^ 64),
            Nat.mod_eq_of_lt (by omega : (t.population + 1) * 4 < 2 ^ 64),
            Nat.mod_eq_of_lt (by omega : t.array_size * 3 < 2 ^ 64), if_neg (by omega)]
        · exact ⟨hv.1, fun hc => by cases hc⟩
        · intro _
          exact ⟨t.cell_zero, rfl, hv.2 hz1⟩
      · -- the table grows
        obtain ⟨e, he⟩ := h.pow2
        have hpos : 0 < t.array_size := isPow2_pos h.pow2
        have hdbl := load_double hpos hld
        obtain ⟨out, hrep, -, -, -⟩ :=
          repopulate_spec (t := { t with zero_used := true, population := t.population + 1 })
            (d := t.array_size * 2) (e := e + 1) h.nodup
            (by show occupied t.cells ≤ t.population + 1; omega)
            (by rw [he, pow_succ]) (by omega) (by show (t.population + 1) * 4 ≤ _; omega)
        have hvo := repopulate_values hrep
        refine ⟨{ t with zero_used := true, population := t.population + 1, cells := out
                         array_size := t.array_size * 2 }, cell_ptr.zero, ?_, ?_, ?_⟩
        · unfold hash_table.insert
          simp only [ne_eq, not_true_eq_false, if_false, hz, Bool.false_eq_true,
            not_false_eq_true, if_true]
          rw [Nat.mod_eq_of_lt (by omega : t.population + 1 < 2 ^ 64),
            Nat.mod_eq_of_lt (by omega : (t.population + 1) * 4 < 2 ^ 64),
            Nat.mod_eq_of_lt (by omega : t.array_size * 3 < 2 ^ 64), if_pos (by omega),
            Nat.mod_eq_of_lt (by omega : t.array_size * 2 < 2 ^ 64), hrep]
        · rw [emptyValues_iff]
          exact ⟨hvo.1, fun hc => by cases hc⟩
        · intro _
          exact ⟨t.cell_zero, rfl, hv.2 hz1⟩
  · -- a regular cell holds the key
    have hins : t.insert k = insert_loop k 65 t := by
      unfold hash_table.insert; rw [if_pos hk]
    refine ⟨t, cell_ptr.reg i, by rw [hins]; exact insert_loop_present hw 64 hk hi hki, hv, ?_⟩
    intro hnf
    exact absurd ⟨cell_ptr.reg i, hlk, by intro hc; cases hc⟩ hnf
  · have hins : t.insert k = insert_loop k 65 t := by
      unfold hash_table.insert; rw [if_pos hk]
    rw [hins]
    by_cases hload : (t.population + 1) * 4 < t.array_size * 3
    · -- the key is absent and the table does not grow
      obtain ⟨q, hq, hkq, hrun, -, -, -⟩ :=
        insert_loop_absent hw 64 hk habs hocc hload (by omega)
      have hq1 : q < t.cells.length := by rw [hw.len]; exact hq
      refine ⟨_, _, hrun, ?_, ?_⟩
      · rw [emptyValues_iff]
        exact ⟨zero_values_set hv1.1 (fun hc => absurd hc hk), hv1.2⟩
      · intro _
        refine ⟨_, deref_reg (by
          show q < (t.cells.set q _).length
          rw [List.length_set]; exact hq1), ?_⟩
        show (cellAt (t.cells.set q _) q).value = 0
        rw [cellAt_set_self hq1]
        exact hv1.1 q hkq
    · -- the key is absent and the table grows
      obtain ⟨e, he⟩ := h.pow2
      have hpos : 0 < t.array_size := isPow2_pos h.pow2
      have hdbl := load_double hpos hld
      obtain ⟨out, hrep, hwo, hoo, hho⟩ :=
        repopulate_spec (t := t) (d := t.array_size * 2) (e := e + 1) h.nodup hocc
          (by rw [he, pow_succ]) (by omega) (by omega)
      have hvo := repopulate_values hrep
      rw [insert_loop_resize hw 64 habs (by omega) (by omega) (by omega) hrep]
      have habs1 : ∀ i, i < t.array_size * 2 → keyAt out i ≠ k := by
        rw [absent_iff_not_holds hwo.len]
        intro x hxk
        rw [hho x (by rw [hxk]; exact hk)]
        exact (absent_iff_not_holds hw.len).1 habs x hxk
      obtain ⟨q, hq, hkq, hrun, -, -, -⟩ :=
        insert_loop_absent (t := { t with cells := out, array_size := t.array_size * 2 })
          hwo 63 hk habs1 (by show occupied out ≤ t.population; omega) hdbl
          (by show t.array_size * 2 * 3 < 2 ^ 64; omega)
      have hq1 : q < out.length := by rw [hwo.len]; exact hq
      refine ⟨_, _, hrun, ?_, ?_⟩
      · rw [emptyValues_iff]
        exact ⟨zero_values_set hvo.1 (fun hc => absurd hc hk), hv1.2⟩
      · intro _
        refine ⟨_, deref_reg (by
          show q < (out.set q _).length
          rw [List.length_set]; exact hq1), ?_⟩
        show (cellAt (out.set q _) q).value = 0
        rw [cellAt_set_self hq1]
        exact hvo.1 q hkq

theorem delete_values {t t1 : hash_table} {p : cell_ptr} (hv : EmptyValues t)
    (hdel : t.delete p = some t1) : EmptyValues t1 := by
  have hv1 := (emptyValues_iff t).1 hv
  rw [emptyValues_iff]
  cases p with
  | null => simp [hash_table.delete] at hdel
  | zero =>
    unfold hash_table.delete at hdel
    simp only [] at hdel
    split_ifs at hdel
    simp only [Option.some.injEq] at hdel
    subst hdel
    exact ⟨hv1.1, fun _ => rfl⟩
  | reg c =>
    unfold hash_table.delete at hdel
    simp only [] at hdel
    cases hx : t.cells[c]? with
    | none => rw [hx] at hdel; simp at hdel
    | some x =>
      rw [hx] at hdel
      simp only [] at hdel
      split_ifs at hdel
      cases hl : delete_loop t.array_size t.array_size t.cells c
          (CIRCULAR_NEXT t.array_size c) with
      | none => rw [hl] at hdel; simp at hdel
      | some cells1 =>
        rw [hl] at hdel
        simp only [Option.some.injEq] at hdel
        subst hdel
        exact ⟨delete_loop_values _ _ _ _ _ _ hv1.1 hl, hv1.2⟩

theorem delete_key_values {t t1 : hash_table} {k : Nat} (hv : EmptyValues t)
    (hdel : t.delete_key k = some t1) : EmptyValues t1 := by
  unfold hash_table.delete_key at hdel
  cases hlk : t.lookup k with
  | none => rw [hlk] at hdel; simp at hdel
  | some p =>
    rw [hlk] at hdel
    cases p with
    | null =>
      simp only [Option.some.injEq] at hdel
      subst hdel; exact hv
    | zero => exact delete_values hv hdel
    | reg c => exact delete_values hv hdel

theorem set_value_values {t t1 : hash_table} (h : Inv t) (hv : EmptyValues t) {k v : Nat}
    {p : cell_ptr} (hlk : t.lookup k = some p) (hset : t.set_value p v = some t1) :
    EmptyValues t1 := by
  have hw := wf_of_inv h
  have hv1 := (emptyValues_iff t).1 hv
  rw [emptyValues_iff]
  cases p with
  | null => simp [hash_table.set_value] at hset
  | zero =>
    obtain ⟨-, hz⟩ := lookup_zero_inv hw hlk
    simp only [hash_table.set_value, Option.some.injEq] at hset
    subst hset
    refine ⟨hv1.1, fun hc => ?_⟩
    rw [hz] at hc
    cases hc
  | reg i =>
    obtain ⟨hk, hi, hki⟩ := lookup_reg_inv hw hlk
    unfold hash_table.set_value at hset
    simp only [] at hset
    rw [getElem?_eq_cellAt (by rw [hw.len]; exact hi)] at hset
    simp only [Option.some.injEq] at hset
    subst hset
    refine ⟨zero_values_set hv1.1 (fun hc => ?_), hv1.2⟩
    exact absurd (hki.symm.trans hc) (Ne.symm hk).symm

theorem clear_values (t : hash_table) : EmptyValues t.clear := by
  rw [emptyValues_iff]
  exact ⟨zero_values_replicate _, fun _ => rfl⟩

theorem construct_values {n : Nat} {t : hash_table} (hc : hash_table.construct n = some t) :
    EmptyValues t := by
  unfold hash_table.construct at hc
  split_ifs at hc
  simp only [Option.some.injEq] at hc
  subst hc
  rw [emptyValues_iff]
  exact ⟨zero_values_replicate _, fun _ => rfl⟩

theorem compact_values {t t1 : hash_table} (hv : EmptyValues t) (hc : t.compact = some t1) :
    EmptyValues t1 := by
  have := repopulate_values hc
  rw [emptyValues_iff]
  refine ⟨this.1, ?_⟩
  rw [this.2.1, this.2.2]
  exact hv.2

theorem reachable_values {t : hash_table} (hr : Reachable t) : EmptyValues t := by
  induction hr with
  | construct _ _ hc => exact construct_values hc
  | @insert t t1 k p hr hins _ ih =>
    obtain ⟨t2, p2, hrun, hv2, -⟩ := insert_values (reachable_inv hr) ih k
    rw [hins] at hrun
    cases hrun
    exact hv2
  | delete_key _ hdel ih => exact delete_key_values ih hdel
  | delete _ _ hdel ih => exact delete_values ih hdel
  | clear _ _ => exact clear_values _
  | compact _ hc ih => exact compact_values ih hc
  | @set_value t t1 k v p hr hlk hset ih =>
    exact set_value_values (reachable_inv hr) ih hlk hset

/-! ## Allocation that can fail -/

theorem repopulate_alloc_true {alloc : Nat → Bool} {t : hash_table} {d : Nat}
    (ha : alloc d = true) :
    t.repopulate_alloc alloc d = (t.repopulate d).map alloc_result.returned := by
  unfold hash_table.repopulate_alloc hash_table.repopulate
  by_cases hs : repopulate_assert t d = true
  · rw [if_pos hs, if_pos hs, if_pos ha]
    cases repopulate_loop d t.cells (List.replicate d ⟨0, 0⟩) <;> rfl
  · rw [if_neg hs, if_neg hs]
    rfl

theorem repopulate_alloc_false {alloc : Nat → Bool} {t : hash_table} {d : Nat}
    (ha : alloc d = false) (hs : repopulate_assert t d = true) :
    t.repopulate_alloc alloc d = some (alloc_result.bad_alloc { t with array_size := d }) := by
  unfold hash_table.repopulate_alloc
  rw [ha, if_pos hs]
  rfl

/-- When every allocation succeeds, the run is the one of `insert_loop`. -/
theorem insert_loop_alloc_always (k : Nat) :
    ∀ (fuel : Nat) (t : hash_table),
      insert_loop_alloc (fun _ => true) k fuel t =
        (insert_loop k fuel t).map alloc_result.returned := by
  intro fuel
  induction fuel with
  | zero => intro t; rfl
  | succ fuel ih =>
    intro t
    unfold insert_loop_alloc insert_loop
    cases insert_probe t.cells t.array_size k t.array_size
        (FIRST_CELL t.array_size (integer_hash k)) with
    | none => rfl
    | some r =>
      cases r with
      | found c => rfl
      | empty c =>
        simp only []
        split_ifs
        · rw [repopulate_alloc_true rfl]
          cases t.repopulate (t.array_size * 2 % 2 ^ 64) with
          | none => rfl
          | some t1 => exact ih t1
        · cases t.cells[c]? <;> rfl

/-- When every allocation succeeds, the run is the one of `insert`. -/
theorem insert_alloc_always (t : hash_table) (k : Nat) :
    t.insert_alloc (fun _ => true) k = (t.insert k).map alloc_result.returned := by
  unfold hash_table.insert_alloc hash_table.insert
  by_cases hk : k ≠ 0
  · rw [if_pos hk, if_pos hk]
    exact insert_loop_alloc_always k 65 t
  · rw [if_neg hk, if_neg hk]
    by_cases hz : ¬ t.zero_used = true
    · rw [if_pos hz, if_pos hz]
      simp only []
      by_cases hl : (t.population + 1) % 2 ^ 64 * 4 % 2 ^ 64 ≥ t.array_size * 3 % 2 ^ 64
      · rw [if_pos hl, if_pos hl, repopulate_alloc_true rfl]
        cases hash_table.repopulate _ _ <;> rfl
      · rw [if_neg hl, if_neg hl]
        rfl
    · rw [if_neg hz, if_neg hz]
      rfl

/-- When every allocation succeeds, the run is the one of `compact`. -/
theorem compact_alloc_always (t : hash_table) :
    t.compact_alloc (fun _ => true) = t.compact.map alloc_result.returned := by
  unfold hash_table.compact_alloc hash_table.compact
  exact repopulate_alloc_true rfl

theorem insert_loop_alloc_present {alloc : Nat → Bool} {t : hash_table}
    (hw : WFCells t.cells t.array_size) {k i : Nat} (fuel : Nat) (hk : k ≠ 0)
    (hi : i < t.array_size) (hki : keyAt t.cells i = k) :
    insert_loop_alloc alloc k (fuel + 1) t =
      some (alloc_result.returned (t, cell_ptr.reg i)) := by
  have := probe_found hw.len hw.small hw.nogaps hw.nodup hw.has_empty hk hi hki
  unfold ideal at this
  unfold insert_loop_alloc
  rw [this]

theorem insert_loop_alloc_absent {a : Nat → Bool} {t : hash_table}
    (hw : WFCells t.cells t.array_size) {k : Nat} (fuel : Nat)
    (habs : ∀ i, i < t.array_size → keyAt t.cells i ≠ k)
    (hload : (t.population + 1) * 4 < t.array_size * 3) (h64 : t.array_size * 3 < 2 ^ 64) :
    ∃ r, insert_loop_alloc a k (fuel + 1) t = some (alloc_result.returned r) := by
  obtain ⟨q, hq, hkq, hbefore, hres⟩ := probe_absent hw.len hw.small hw.has_empty habs
  have hq1 : q < t.cells.length := by rw [hw.len]; exact hq
  unfold ideal at hres
  unfold insert_loop_alloc
  rw [hres]
  simp only []
  rw [Nat.mod_eq_of_lt (by omega : (t.population + 1) * 4 < 2 ^ 64),
    Nat.mod_eq_of_lt h64, if_neg (by omega), getElem?_eq_cellAt hq1]
  exact ⟨_, rfl⟩

theorem insert_loop_alloc_resize {alloc : Nat → Bool} {t : hash_table}
    (hw : WFCells t.cells t.array_size) {k : Nat} (fuel : Nat)
    (habs : ∀ i, i < t.array_size → keyAt t.cells i ≠ k)
    (hload : (t.population + 1) * 4 ≥ t.array_size * 3)
    (h64 : t.array_size * 3 < 2 ^ 64) (hp64 : (t.population + 1) * 4 < 2 ^ 64) :
    insert_loop_alloc alloc k (fuel + 1) t =
      match t.repopulate_alloc alloc (t.array_size * 2) with
      | none => none
      | some (alloc_result.bad_alloc t1) => some (alloc_result.bad_alloc t1)
      | some (alloc_result.returned t1) => insert_loop_alloc alloc k fuel t1 := by
  obtain ⟨q, hq, hkq, hbefore, hres⟩ := probe_absent hw.len hw.small hw.has_empty habs
  unfold ideal at hres
  conv_lhs => unfold insert_loop_alloc
  rw [hres]
  simp only []
  rw [Nat.mod_eq_of_lt hp64, Nat.mod_eq_of_lt h64, if_pos hload,
    Nat.mod_eq_of_lt (by omega : t.array_size * 2 < 2 ^ 64)]

theorem repopulate_assert_double {t : hash_table} (h : Inv t) (t2 : hash_table)
    (hp : t2.population ≤ t.population + 1) :
    repopulate_assert t2 (t.array_size * 2) = true := by
  have hfits := h.fits
  have hld := h.load
  obtain ⟨e, he⟩ := h.pow2
  have hpos : 0 < t.array_size := isPow2_pos h.pow2
  have hdbl := load_double hpos hld
  have he64 : e + 1 ≤ 64 := by
    by_contra hcon
    have : 2 ^ 64 ≤ 2 ^ (e + 1) := Nat.pow_le_pow_right (by omega) (by omega)
    rw [pow_succ] at this
    omega
  unfold repopulate_assert
  have h2 : t.array_size * 2 = 2 ^ (e + 1) := by rw [he, pow_succ]
  rw [h2, power_of_2_assert_pow (e + 1) he64, ← h2]
  rw [Nat.mod_eq_of_lt (by omega : t2.population * 4 < 2 ^ 64),
    Nat.mod_eq_of_lt (by omega : t.array_size * 2 * 3 < 2 ^ 64)]
  simp only [Bool.true_and, decide_eq_true_eq]
  omega

/-- The state that a failed allocation leaves behind in `insert`. -/
theorem insert_alloc_bad {alloc : Nat → Bool} {t t1 : hash_table} (h : Inv t) {k : Nat}
    (hrun : t.insert_alloc alloc k = some (alloc_result.bad_alloc t1)) :
    alloc (t.array_size * 2) = false ∧ ¬ t.found k ∧
      (t.population + 1) * 4 ≥ t.array_size * 3 ∧
      (k ≠ 0 → t1 = { t with array_size := t.array_size * 2 }) ∧
      (k = 0 → t1 = { t with zero_used := true, population := t.population + 1
                             array_size := t.array_size * 2 }) := by
  have hw := wf_of_inv h
  have hfits := h.fits
  have hpop := h.pop
  have hld := h.load
  have hocc : occupied t.cells ≤ t.population := by omega
  have hpos : 0 < t.array_size := isPow2_pos h.pow2
  have hdbl := load_double hpos hld
  rcases lookup_cases hw k with ⟨h0, hlk⟩ | ⟨hk, i, hi, hki, hlk⟩ | ⟨hk, habs, hlk⟩
  · subst h0
    unfold hash_table.insert_alloc at hrun
    by_cases hz : t.zero_used = true
    · simp [hz] at hrun
    · simp only [ne_eq, not_true_eq_false, if_false, hz, Bool.false_eq_true,
        not_false_eq_true, if_true] at hrun
      rw [if_neg hz] at hlk
      rw [Nat.mod_eq_of_lt (by omega : t.population + 1 < 2 ^ 64),
        Nat.mod_eq_of_lt (by omega : (t.population + 1) * 4 < 2 ^ 64),
        Nat.mod_eq_of_lt (by omega : t.array_size * 3 < 2 ^ 64),
        Nat.mod_eq_of_lt (by omega : t.array_size * 2 < 2 ^ 64)] at hrun
      by_cases hload : (t.population + 1) * 4 ≥ t.array_size * 3
      · rw [if_pos hload] at hrun
        by_cases ha : alloc (t.array_size * 2) = true
        · exfalso
          rw [repopulate_alloc_true ha] at hrun
          cases hr : hash_table.repopulate
              { t with zero_used := true, population := t.population + 1 }
              (t.array_size * 2) with
          | none => rw [hr] at hrun; cases hrun
          | some t2 => rw [hr] at hrun; cases hrun
        · have ha1 : alloc (t.array_size * 2) = false := by simpa using ha
          rw [repopulate_alloc_false ha1
            (repopulate_assert_double h _ (Nat.le_refl _))] at hrun
          simp only [Option.some.injEq, alloc_result.bad_alloc.injEq] at hrun
          refine ⟨ha1, (not_found_iff_null hw 0).2 hlk, hload, fun hne => absurd rfl hne,
            fun _ => hrun.symm⟩
      · rw [if_neg hload] at hrun
        cases hrun
  · exfalso
    unfold hash_table.insert_alloc at hrun
    rw [if_pos hk, insert_loop_alloc_present hw 64 hk hi hki] at hrun
    cases hrun
  · unfold hash_table.insert_alloc at hrun
    rw [if_pos hk] at hrun
    by_cases hload : (t.population + 1) * 4 < t.array_size * 3
    · exfalso
      obtain ⟨r, hr⟩ := insert_loop_alloc_absent (a := alloc) hw 64 habs hload (by omega)
      rw [hr] at hrun
      cases hrun
    · rw [insert_loop_alloc_resize hw 64 habs (by omega) (by omega) (by omega)] at hrun
      by_cases ha : alloc (t.array_size * 2) = true
      · exfalso
        obtain ⟨e, he⟩ := h.pow2
        obtain ⟨out, hrep, hwo, hoo, hho⟩ :=
          repopulate_spec (t := t) (d := t.array_size * 2) (e := e + 1) h.nodup hocc
            (by rw [he, pow_succ]) (by omega) (by omega)
        rw [repopulate_alloc_true ha, hrep] at hrun
        simp only [Option.map_some'] at hrun
        have habs1 : ∀ i, i < t.array_size * 2 → keyAt out i ≠ k := by
          rw [absent_iff_not_holds hwo.len]
          intro x hxk
          rw [hho x (by rw [hxk]; exact hk)]
          exact (absent_iff_not_holds hw.len).1 habs x hxk
        obtain ⟨r, hr⟩ :=
          insert_loop_alloc_absent (a := alloc)
            (t := { t with cells := out, array_size := t.array_size * 2 })
            hwo 63 habs1 hdbl (by show t.array_size * 2 * 3 < 2 ^ 64; omega)
        rw [hr] at hrun
        cases hrun
      · have ha1 : alloc (t.array_size * 2) = false := by simpa using ha
        rw [repopulate_alloc_false ha1 (repopulate_assert_double h _ (Nat.le_succ _))] at hrun
        simp only [Option.some.injEq, alloc_result.bad_alloc.injEq] at hrun
        refine ⟨ha1, (not_found_iff_null hw k).2 hlk, by omega, fun _ => hrun.symm,
          fun h0 => absurd h0 hk⟩

/-- The state that a failed allocation leaves behind in `compact`. -/
theorem compact_alloc_bad {alloc : Nat → Bool} {t t1 : hash_table}
    (hrun : t.compact_alloc alloc = some (alloc_result.bad_alloc t1)) :
    t1 = { t with
      array_size := upper_power_of_two (((t.population * 4 + 3) % 2 ^ 64) / 3) } ∧
      alloc (upper_power_of_two (((t.population * 4 + 3) % 2 ^ 64) / 3)) = false := by
  unfold hash_table.compact_alloc hash_table.repopulate_alloc at hrun
  split_ifs at hrun with hs ha
  · cases hl : repopulate_loop (upper_power_of_two ((t.population * 4 + 3) % 2 ^ 64 / 3))
        t.cells (List.replicate
          (upper_power_of_two ((t.population * 4 + 3) % 2 ^ 64 / 3)) ⟨0, 0⟩) with
    | none => rw [hl] at hrun; cases hrun
    | some fresh => rw [hl] at hrun; cases hrun
  · simp only [Option.some.injEq, alloc_result.bad_alloc.injEq] at hrun
    exact ⟨hrun.symm, by simpa using ha⟩

/-- A failed allocation in the resize of `insert` abandons the run. -/
theorem insert_alloc_fails {alloc : Nat → Bool} {t : hash_table} (h : Inv t) {k : Nat}
    (hnf : ¬ t.found k) (hload : (t.population + 1) * 4 ≥ t.array_size * 3)
    (ha : alloc (t.array_size * 2) = false) :
    ∃ t1, t.insert_alloc alloc k = some (alloc_result.bad_alloc t1) := by
  have hw := wf_of_inv h
  have hfits := h.fits
  have hld := h.load
  rcases lookup_cases hw k with ⟨h0, hlk⟩ | ⟨hk, i, hi, hki, hlk⟩ | ⟨hk, habs, hlk⟩
  · subst h0
    have hz : ¬ t.zero_used = true := by
      intro hz
      rw [if_pos hz] at hlk
      exact hnf ⟨_, hlk, by intro hc; cases hc⟩
    refine ⟨{ t with zero_used := true, population := t.population + 1
                     array_size := t.array_size * 2 }, ?_⟩
    unfold hash_table.insert_alloc
    simp only [ne_eq, not_true_eq_false, if_false, hz, Bool.false_eq_true,
      not_false_eq_true, if_true]
    rw [Nat.mod_eq_of_lt (by omega : t.population + 1 < 2 ^ 64),
      Nat.mod_eq_of_lt (by omega : (t.population + 1) * 4 < 2 ^ 64),
      Nat.mod_eq_of_lt (by omega : t.array_size * 3 < 2 ^ 64),
      Nat.mod_eq_of_lt (by omega : t.array_size * 2 < 2 ^ 64), if_pos hload,
      repopulate_alloc_false ha (repopulate_assert_double h _ (Nat.le_refl _))]
  · exact absurd ⟨_, hlk, by intro hc; cases hc⟩ hnf
  · refine ⟨{ t with array_size := t.array_size * 2 }, ?_⟩
    unfold hash_table.insert_alloc
    rw [if_pos hk, insert_loop_alloc_resize hw 64 habs hload (by omega) (by omega),
      repopulate_alloc_false ha (repopulate_assert_double h _ (Nat.le_succ _))]

/-! ## The probe start as a remainder -/

theorem FIRST_CELL_eq_mod {n : Nat} (hp : IsPow2 n) (hn : n ≤ 2 ^ 64) (hash : Nat) :
    FIRST_CELL n hash = hash % n := by
  obtain ⟨e, rfl⟩ := hp
  unfold FIRST_CELL
  rw [size_sub_one (Nat.two_pow_pos e) hn, Nat.and_pow_two_sub_one_eq_mod]

theorem add_mod_cases (n a d : Nat) (ha : a < n) (hd : d < n) :
    (a + d < n ∧ (a + d) % n = a + d) ∨ (n ≤ a + d ∧ (a + d) % n = a + d - n) := by
  by_cases h : a + d < n
  · exact Or.inl ⟨h, Nat.mod_eq_of_lt h⟩
  · right
    refine ⟨by omega, ?_⟩
    rw [Nat.mod_eq_sub_mod (by omega), Nat.mod_eq_of_lt (by omega)]

theorem offset_add_mod {n a d : Nat} (ha : a < n) (hd : d < n) :
    (a + d) % n < n ∧ CIRCULAR_OFFSET n a ((a + d) % n) = d := by
  have h1 := add_mod_cases n a d ha hd
  have h2 := offset_cases n a ((a + d) % n)
  omega

theorem add_offset_mod {n a j : Nat} (ha : a < n) (hj : j < n) :
    (a + CIRCULAR_OFFSET n a j) % n = j := by
  have h2 := offset_cases n a j
  have h3 := offset_lt ha hj
  have h1 := add_mod_cases n a (CIRCULAR_OFFSET n a j) ha h3
  omega

/-! ## The handles that the iterator returns -/

theorem occupied_ptrs_zero (cells : List cell) (i : Nat) : occupied_ptrs cells i 0 = [] := rfl

theorem occupied_ptrs_succ (cells : List cell) (i m : Nat) :
    occupied_ptrs cells i (m + 1) =
      if keyAt cells i ≠ 0 then cell_ptr.reg i :: occupied_ptrs cells (i + 1) m
      else occupied_ptrs cells (i + 1) m := by
  unfold occupied_ptrs
  rw [List.range'_succ, List.filter_cons]
  by_cases h : keyAt cells i ≠ 0
  · rw [if_pos h, if_pos (by simpa using h)]
    rfl
  · rw [if_neg h, if_neg (by simpa using h)]

theorem occupied_ptrs_head (cells : List cell) :
    ∀ (m i j : Nat) (rest : List cell_ptr),
      occupied_ptrs cells i m = cell_ptr.reg j :: rest →
      i ≤ j ∧ j < i + m ∧ rest = occupied_ptrs cells (j + 1) (i + m - (j + 1)) := by
  intro m
  induction m with
  | zero => intro i j rest h; rw [occupied_ptrs_zero] at h; cases h
  | succ m ih =>
    intro i j rest h
    rw [occupied_ptrs_succ] at h
    split_ifs at h
    · cases h
      refine ⟨Nat.le_refl _, by omega, ?_⟩
      have : i + (m + 1) - (i + 1) = m := by omega
      rw [this]
    · obtain ⟨h1, h2, h3⟩ := ih (i + 1) j rest h
      refine ⟨by omega, by omega, ?_⟩
      have : i + (m + 1) - (j + 1) = i + 1 + m - (j + 1) := by omega
      rw [this]; exact h3

theorem occupied_ptrs_shape (cells : List cell) :
    ∀ (m i : Nat) (p : cell_ptr), p ∈ occupied_ptrs cells i m →
      ∃ j, p = cell_ptr.reg j := by
  intro m i p hp
  unfold occupied_ptrs at hp
  rw [List.mem_map] at hp
  obtain ⟨j, -, hj⟩ := hp
  exact ⟨j, hj.symm⟩

theorem next_loop_spec (t : hash_table) (hlen : t.cells.length = t.array_size) :
    ∀ (m i fuel : Nat), i + m = t.array_size → m < fuel →
      iterator.next_loop t fuel i = some ((occupied_ptrs t.cells i m).headD cell_ptr.null) := by
  intro m
  induction m with
  | zero =>
    intro i fuel him hf
    obtain ⟨f, rfl⟩ : ∃ f, fuel = f + 1 := ⟨fuel - 1, by omega⟩
    unfold iterator.next_loop
    rw [if_pos (by omega)]
    rfl
  | succ m ih =>
    intro i fuel him hf
    obtain ⟨f, rfl⟩ : ∃ f, fuel = f + 1 := ⟨fuel - 1, by omega⟩
    have hi : i < t.cells.length := by omega
    unfold iterator.next_loop
    rw [if_neg (by omega), getElem?_eq_cellAt hi, occupied_ptrs_succ]
    simp only []
    have hk : (cellAt t.cells i).key = keyAt t.cells i := rfl
    rw [hk]
    split_ifs
    · rfl
    · exact ih (i + 1) f (by omega) (by omega)

/-- One call of `next()` moves to the first of the remaining handles, or to `NULL` when
none remains. -/
theorem next_remaining (t : hash_table) (hlen : t.cells.length = t.array_size)
    (p : cell_ptr) (hp : ∀ j, p = cell_ptr.reg j → j < t.array_size) :
    iterator.next t ⟨p⟩ = some ⟨(t.remaining p).headD cell_ptr.null⟩ ∧
      t.remaining ((t.remaining p).headD cell_ptr.null) = (t.remaining p).tail ∧
      (∀ j, (t.remaining p).headD cell_ptr.null = cell_ptr.reg j → j < t.array_size) := by
  have hshape : ∀ i m, (occupied_ptrs t.cells i m = [] ∨
      ∃ j rest, occupied_ptrs t.cells i m = cell_ptr.reg j :: rest) := by
    intro i m
    cases hl : occupied_ptrs t.cells i m with
    | nil => exact Or.inl rfl
    | cons a rest =>
      obtain ⟨j, hj⟩ := occupied_ptrs_shape t.cells m i a (by rw [hl]; exact List.mem_cons_self _ _)
      exact Or.inr ⟨j, rest, by rw [hj]⟩
  have hmain : ∀ i m, i + m = t.array_size →
      t.remaining ((occupied_ptrs t.cells i m).headD cell_ptr.null) =
        (occupied_ptrs t.cells i m).tail ∧
      (∀ j, (occupied_ptrs t.cells i m).headD cell_ptr.null = cell_ptr.reg j →
        j < t.array_size) := by
    intro i m him
    rcases hshape i m with h | ⟨j, rest, h⟩
    · rw [h]
      exact ⟨rfl, fun j hj => by cases hj⟩
    · obtain ⟨h1, h2, h3⟩ := occupied_ptrs_head t.cells m i j rest h
      rw [h]
      refine ⟨?_, fun j1 hj1 => ?_⟩
      · show occupied_ptrs t.cells (j + 1) (t.cells.length - (j + 1)) = rest
        rw [h3, hlen, him]
      · cases hj1; omega
  cases p with
  | null => exact ⟨rfl, rfl, fun j hj => by cases hj⟩
  | zero =>
    refine ⟨?_, hmain 0 t.cells.length (by omega)⟩
    show (iterator.next_loop t (t.array_size + 1) 0).map iterator.mk = _
    rw [next_loop_spec t hlen t.array_size 0 _ (by omega) (by omega)]
    show some (iterator.mk ((occupied_ptrs t.cells 0 t.array_size).headD cell_ptr.null)) =
      some (iterator.mk ((occupied_ptrs t.cells 0 t.cells.length).headD cell_ptr.null))
    rw [hlen]
  | reg j =>
    have hj := hp j rfl
    refine ⟨?_, hmain (j + 1) (t.cells.length - (j + 1)) (by omega)⟩
    show (iterator.next_loop t (t.array_size + 1) (j + 1)).map iterator.mk = _
    rw [next_loop_spec t hlen (t.array_size - (j + 1)) (j + 1) _ (by omega) (by omega)]
    show some (iterator.mk
        ((occupied_ptrs t.cells (j + 1) (t.array_size - (j + 1))).headD cell_ptr.null)) =
      some (iterator.mk
        ((occupied_ptrs t.cells (j + 1) (t.cells.length - (j + 1))).headD cell_ptr.null))
    rw [hlen]

theorem take_append_replicate {α : Type} (x : α) :
    ∀ (l : List α) (k a b : Nat), k ≤ l.length + a → k ≤ l.length + b →
      (l ++ List.replicate a x).take k = (l ++ List.replicate b x).take k := by
  intro l
  induction l with
  | nil =>
    intro k a b ha hb
    simp only [List.nil_append, List.take_replicate, List.length_nil, Nat.zero_add] at ha hb ⊢
    rw [Nat.min_eq_left ha, Nat.min_eq_left hb]
  | cons y ys ih =>
    intro k a b ha hb
    cases k with
    | zero => rfl
    | succ k =>
      simp only [List.cons_append, List.take_succ_cons, List.length_cons] at ha hb ⊢
      rw [ih k a b (by omega) (by omega)]

/-- What a client sees of an iterator at `p`: `p`, the remaining handles, and then `NULL`
for ever. -/
theorem trace_spec (t : hash_table) (hlen : t.cells.length = t.array_size) :
    ∀ (m : Nat) (p : cell_ptr), (∀ j, p = cell_ptr.reg j → j < t.array_size) →
      iterator.trace t m ⟨p⟩ =
        some (((p :: t.remaining p) ++ List.replicate (m + 1) cell_ptr.null).take (m + 1)) := by
  intro m
  induction m with
  | zero =>
    intro p _
    rfl
  | succ m ih =>
    intro p hp
    obtain ⟨hnext, hrem, hvalid⟩ := next_remaining t hlen p hp
    unfold iterator.trace
    rw [hnext]
    simp only []
    rw [ih _ hvalid, hrem]
    simp only [Option.map_some', List.cons_append, List.take_succ_cons, Option.some.injEq,
      List.cons.injEq, true_and]
    cases hl : t.remaining p with
    | nil => rfl
    | cons a rest =>
      simp only [List.headD_cons, List.tail_cons, List.cons_append, List.take_succ_cons,
        List.cons.injEq, true_and]
      exact take_append_replicate _ _ _ _ _ (by omega) (by omega)

theorem iterator_trace_spec (t : hash_table) (hlen : t.cells.length = t.array_size)
    (m : Nat) :
    t.iterator_trace m =
      some ((t.handles ++ List.replicate (m + 1) cell_ptr.null).take (m + 1)) := by
  unfold hash_table.iterator_trace iterator.construct hash_table.handles
  by_cases hz : t.zero_used = true
  · simp only [hz, not_true_eq_false, if_false, if_true]
    rw [trace_spec t hlen m cell_ptr.zero (fun j hj => by cases hj)]
    rfl
  · simp only [hz, Bool.false_eq_true, not_false_eq_true, if_true, if_false]
    obtain ⟨hnext, hrem, hvalid⟩ :=
      next_remaining t hlen cell_ptr.zero (fun j hj => by cases hj)
    rw [hnext]
    simp only []
    rw [trace_spec t hlen m _ hvalid, hrem]
    have hr : t.remaining cell_ptr.zero = occupied_ptrs t.cells 0 t.cells.length := rfl
    rw [hr]
    cases hl : occupied_ptrs t.cells 0 t.cells.length with
    | nil =>
      simp only [List.headD_nil, List.tail_nil, List.nil_append, List.cons_append,
        List.take_succ_cons, List.replicate_succ, Option.some.injEq, List.cons.injEq, true_and]
      exact take_append_replicate cell_ptr.null [] m (m + 1) m (by simp) (by simp)
    | cons a rest => rfl

theorem occupied_ptrs_deref (t : hash_table) :
    ∀ (m i : Nat), i + m = t.cells.length →
      (occupied_ptrs t.cells i m).map t.deref = (occupied_cells (t.cells.drop i)).map some := by
  intro m
  induction m with
  | zero =>
    intro i him
    rw [occupied_ptrs_zero, List.drop_of_length_le (by omega)]
    rfl
  | succ m ih =>
    intro i him
    have hi : i < t.cells.length := by omega
    rw [occupied_ptrs_succ, List.drop_eq_getElem_cons hi, ← cellAt_eq_getElem hi]
    have hk : (cellAt t.cells i).key = keyAt t.cells i := rfl
    unfold occupied_cells
    rw [List.filter_cons]
    by_cases h : keyAt t.cells i ≠ 0
    · rw [if_pos h, if_pos (by rw [hk]; simpa using h), List.map_cons, List.map_cons,
        deref_reg hi]
      have := ih (i + 1) (by omega)
      unfold occupied_cells at this
      rw [this]
    · rw [if_neg h, if_neg (by rw [hk]; simpa using h)]
      have := ih (i + 1) (by omega)
      unfold occupied_cells at this
      exact this

theorem handles_deref (t : hash_table) : t.handles.map t.deref = t.contents.map some := by
  unfold hash_table.handles hash_table.contents
  rw [List.map_append, List.map_append, occupied_ptrs_deref t t.cells.length 0 (by omega),
    List.drop_zero]
  split_ifs <;> rfl

theorem handles_length {t : hash_table} (h : Inv t) : t.handles.length = t.population := by
  have h1 : (t.handles.map t.deref).length = (t.contents.map some).length := by
    rw [handles_deref]
  rw [List.length_map, List.length_map] at h1
  rw [h1, h.pop]
  unfold hash_table.contents
  rw [List.length_append, length_occupied_cells]
  by_cases hz : t.zero_used = true
  · rw [if_pos hz, if_pos hz]; simp; omega
  · rw [if_neg hz, if_neg hz]; simp

theorem handles_eq (t : hash_table) :
    t.handles = (if t.zero_used then [cell_ptr.zero] else []) ++
      ((List.range t.cells.length).filter (fun j => decide (keyAt t.cells j ≠ 0))).map
        cell_ptr.reg := by
  unfold hash_table.handles occupied_ptrs
  rw [List.range_eq_range']

theorem handles_nodup (t : hash_table) : t.handles.Nodup := by
  rw [handles_eq]
  have h1 : (((List.range t.cells.length).filter
      (fun j => decide (keyAt t.cells j ≠ 0))).map cell_ptr.reg).Nodup := by
    apply List.Nodup.map
    · intro a b hab
      cases hab; rfl
    · exact (List.nodup_range _).filter _
  split_ifs
  · rw [List.singleton_append, List.nodup_cons]
    refine ⟨?_, h1⟩
    rw [List.mem_map]
    rintro ⟨j, -, hj⟩
    cases hj
  · simpa using h1

/-! ## Reachable states by several inserts -/

theorem reachable_insert_all :
    ∀ (keys : List Nat) (t t1 : hash_table) (b : Nat), Reachable t → t.array_size ≤ b →
      b * 2 ^ keys.length ≤ 2 ^ 59 → insert_all t keys = some t1 → Reachable t1 := by
  intro keys
  induction keys with
  | nil =>
    intro t t1 b hr _ _ hrun
    simp only [insert_all, Option.some.injEq] at hrun
    subst hrun
    exact hr
  | cons k ks ih =>
    intro t t1 b hr hb hb59 hrun
    have hpow : 0 < 2 ^ ks.length := Nat.two_pow_pos _
    have hb1 : b * 2 * 2 ^ ks.length ≤ 2 ^ 59 := by
      have : b * 2 ^ (k :: ks).length = b * 2 * 2 ^ ks.length := by
        rw [List.length_cons, pow_succ]; ring
      omega
    have hb2 : b * 2 ≤ 2 ^ 59 := by
      have : b * 2 * 1 ≤ b * 2 * 2 ^ ks.length := Nat.mul_le_mul_left _ hpow
      omega
    obtain ⟨t2, p, hins, hpost⟩ := insert_spec (reachable_inv hr) k
    have hbound := hpost.bound
    unfold insert_all at hrun
    rw [hins] at hrun
    simp only [] at hrun
    have hr2 : Reachable t2 :=
      Reachable.insert hr hins (by unfold sizeof_cell; omega)
    exact ih t2 t1 (b * 2) hr2 (by omega) hb1 hrun

theorem demo_5_reachable : Reachable demo_5 :=
  reachable_insert_all [1, 2, 3, 0] demo_0 demo_5 8 demo_0_reachable (by decide) (by decide)
    (by decide)

theorem demo_one_reachable : Reachable demo_one :=
  Reachable.construct (n := 1) (e := 0) (by decide) (by decide) (by decide)

/-! ## The power-of-two check -/

theorem power_of_2_assert_iff {n : Nat} (h1 : 1 ≤ n) (h2 : n < 2 ^ 64) :
    power_of_2_assert n = true ↔ IsPow2 n := by
  constructor
  · intro h
    unfold power_of_2_assert at h
    rw [size_sub_one h1 (Nat.le_of_lt h2)] at h
    have hand : n &&& (n - 1) = 0 := by simpa using h
    obtain ⟨i, hi, hmsb⟩ := Nat.exists_most_significant_bit (n := n) (by omega)
    have hge := Nat.testBit_implies_ge hi
    have hlt : n < 2 ^ (i + 1) := Nat.lt_pow_two_of_testBit _ (fun j hj => hmsb j (by omega))
    refine ⟨i, ?_⟩
    by_contra hne
    have hr : n - 1 = 2 ^ i + (n - 1 - 2 ^ i) := by omega
    have hbit : (n - 1).testBit i = true := by
      rw [hr, Nat.testBit_two_pow_add_eq,
        Nat.testBit_lt_two_pow (by rw [pow_succ] at hlt; omega)]
      rfl
    have : (n &&& (n - 1)).testBit i = true := by
      rw [Nat.testBit_and, hi, hbit]; rfl
    rw [hand] at this
    simp at this
  · rintro ⟨e, rfl⟩
    apply power_of_2_assert_pow
    by_contra hcon
    have : 2 ^ 64 ≤ 2 ^ e := Nat.pow_le_pow_right (by omega) (by omega)
    omega

/-! ## The chains in the words of the specification -/

theorem offset_eq_mod {n a i : Nat} (ha : a < n) (hi : i < n) :
    (i + n - a) % n = CIRCULAR_OFFSET n a i := by
  have h2 := offset_cases n a i
  by_cases h : a ≤ i
  · have : i + n - a = (i - a) + n := by omega
    rw [this, Nat.add_mod_right, Nat.mod_eq_of_lt (by omega)]
    omega
  · rw [Nat.mod_eq_of_lt (by omega)]
    omega

theorem chains_of_nogaps {t : hash_table} (hlen : t.cells.length = t.array_size)
    (hp : IsPow2 t.array_size) (hn : t.array_size ≤ 2 ^ 64) (hg : NoGaps t.cells) :
    t.chains_without_gaps := by
  intro i hi hki d hd
  have hpos := isPow2_pos hp
  have hideal : ideal t.array_size (keyAt t.cells i) =
      integer_hash (keyAt t.cells i) % t.array_size := FIRST_CELL_eq_mod hp hn _
  have ha : integer_hash (keyAt t.cells i) % t.array_size < t.array_size :=
    Nat.mod_lt _ hpos
  rw [offset_eq_mod ha hi] at hd
  have hoi := offset_lt ha hi
  obtain ⟨hj, hoj⟩ := offset_add_mod ha (by omega : d < t.array_size)
  by_cases hlt : d < CIRCULAR_OFFSET t.array_size
      (integer_hash (keyAt t.cells i) % t.array_size) i
  · have := hg i (by rw [hlen]; exact hi) hki
      ((integer_hash (keyAt t.cells i) % t.array_size + d) % t.array_size)
      (by rw [hlen]; exact hj)
    rw [hlen, hideal] at this
    exact this (by rw [hoj]; exact hlt)
  · have hde : d = CIRCULAR_OFFSET t.array_size
        (integer_hash (keyAt t.cells i) % t.array_size) i := by omega
    rw [hde, add_offset_mod ha hi]
    exact hki

theorem value_of_congr_key {t t1 : hash_table} (hw : WFCells t.cells t.array_size)
    (hw1 : WFCells t1.cells t1.array_size) (k : Nat)
    (hframe : ∀ x : cell, x.key ≠ 0 → x.key = k → (Holds t1.cells x ↔ Holds t.cells x))
    (hz : k = 0 → t1.zero_used = t.zero_used) (hc : t1.cell_zero = t.cell_zero) :
    ∃ r, t.value_of k = some r ∧ t1.value_of k = some r := by
  by_cases hk : k = 0
  · subst hk
    exact ⟨_, value_of_zero t, by rw [value_of_zero, hz rfl, hc]⟩
  · by_cases hex : ∃ i, i < t.array_size ∧ keyAt t.cells i = k
    · obtain ⟨i, hi, hki⟩ := hex
      have hh : Holds t.cells (cellAt t.cells i) := ⟨i, by rw [hw.len]; exact hi, rfl⟩
      have hkx : (cellAt t.cells i).key ≠ 0 := by
        intro hc0; apply hk; rw [← hki]; exact hc0
      obtain ⟨-, -, -, -, hv⟩ := value_of_holds hw hkx hh
      obtain ⟨-, -, -, -, hv1⟩ := value_of_holds hw1 hkx ((hframe _ hkx hki).2 hh)
      have : (cellAt t.cells i).key = k := hki
      rw [this] at hv hv1
      exact ⟨_, hv, hv1⟩
    · push_neg at hex
      refine ⟨none, value_of_absent hw hk hex, value_of_absent hw1 hk ?_⟩
      rw [absent_iff_not_holds hw1.len]
      intro x hxk
      rw [hframe x (by rw [hxk]; exact hk) hxk]
      exact (absent_iff_not_holds hw.len).1 hex x hxk

/-- A failed allocation in `compact` abandons the run. -/
theorem compact_alloc_fails {alloc : Nat → Bool} {t : hash_table} (h : Inv t)
    (ha : alloc (upper_power_of_two ((t.population * 4 + 3) / 3)) = false) :
    ∃ t1, t.compact_alloc alloc = some (alloc_result.bad_alloc t1) := by
  have hfits := h.fits
  have hld := h.load
  obtain ⟨out, e, hrun, -⟩ := compact_spec h
  unfold hash_table.compact hash_table.repopulate at hrun
  rw [Nat.mod_eq_of_lt (by omega)] at hrun
  have hs : repopulate_assert t (upper_power_of_two ((t.population * 4 + 3) / 3)) = true := by
    by_contra hs
    rw [if_neg hs] at hrun
    cases hrun
  refine ⟨{ t with array_size := upper_power_of_two ((t.population * 4 + 3) / 3) }, ?_⟩
  unfold hash_table.compact_alloc
  rw [Nat.mod_eq_of_lt (by omega)]
  exact repopulate_alloc_false ha hs

/-- C11: in every reachable state, what a client sees of a fresh iterator (its current
element, then the result of each `next()`) is the zero cell if `zero_used`, then the
occupied regular cells by increasing index, each once, then `NULL` for ever; these are
`population` cells, the cells visited are those of `contents`, and `next()` on an
exhausted iterator leaves it exhausted. After `insert` of 1, 2, 3, 0 into the empty table
of size 8 the iterator returns the zero cell, then the cells 4, 6, 7 (keys 1, 3, 2), then
`NULL` for ever. -/
theorem C11_iterator_order :
    (∀ t : hash_table, Reachable t →
      (∀ m, t.iterator_trace m =
        some ((t.handles ++ List.replicate (m + 1) cell_ptr.null).take (m + 1))) ∧
      t.handles = (if t.zero_used then [cell_ptr.zero] else []) ++
        ((List.range t.array_size).filter (fun j => decide (keyAt t.cells j ≠ 0))).map
          cell_ptr.reg ∧
      t.handles.Nodup ∧ t.handles.length = t.population ∧
      t.handles.map t.deref = t.contents.map some ∧
      t.iterate = some t.contents ∧
      iterator.next t ⟨cell_ptr.null⟩ = some ⟨cell_ptr.null⟩) ∧
    (insert_all demo_0 [1, 2, 3, 0] = some demo_5 ∧
      demo_5.iterator_trace 6 =
        some [cell_ptr.zero, cell_ptr.reg 4, cell_ptr.reg 6, cell_ptr.reg 7,
          cell_ptr.null, cell_ptr.null, cell_ptr.null] ∧
      demo_5.iterate = some [⟨0, 0⟩, ⟨1, 0⟩, ⟨3, 0⟩, ⟨2, 0⟩]) := by
  refine ⟨fun t hr => ?_, by decide, by decide, by decide⟩
  have hinv := reachable_inv hr
  refine ⟨iterator_trace_spec t hinv.len, ?_, handles_nodup t, handles_length hinv,
    handles_deref t, iterate_spec hinv.len, rfl⟩
  rw [handles_eq, hinv.len]

theorem C11_iterator_order_witness :
    Reachable demo_5 ∧
      (∀ m, demo_5.iterator_trace m =
        some ((demo_5.handles ++ List.replicate (m + 1) cell_ptr.null).take (m + 1))) ∧
      demo_5.handles.length = demo_5.population :=
  ⟨demo_5_reachable, (C11_iterator_order.1 demo_5 demo_5_reachable).1,
    (C11_iterator_order.1 demo_5 demo_5_reachable).2.2.2.1⟩

/-- C12: in every reachable state, after `clear()` every regular cell has key 0 and value
0, `zero_used` is false, the value of the zero cell is 0, `population` is 0, the size of
the array is what it was, and `lookup` finds no key. -/
theorem C12_clear (t : hash_table) (hr : Reachable t) :
    t.clear.cells = List.replicate t.array_size ⟨0, 0⟩ ∧
    (∀ i, i < t.clear.array_size →
      (cellAt t.clear.cells i).key = 0 ∧ (cellAt t.clear.cells i).value = 0) ∧
    t.clear.zero_used = false ∧ t.clear.cell_zero.value = 0 ∧ t.clear.population = 0 ∧
    t.clear.array_size = t.array_size ∧
    ∀ k, t.clear.lookup k = some cell_ptr.null := by
  have hinv := clear_inv (reachable_inv hr)
  have hw := wf_of_inv hinv
  refine ⟨rfl, fun i _ => ?_, rfl, rfl, rfl, rfl, fun k => ?_⟩
  · show (cellAt (List.replicate t.array_size ⟨0, 0⟩) i).key = 0 ∧
      (cellAt (List.replicate t.array_size ⟨0, 0⟩) i).value = 0
    rw [cellAt_replicate]
    exact ⟨rfl, rfl⟩
  · by_cases hk : k = 0
    · subst hk
      exact lookup_zero _
    · apply lookup_absent hw hk
      intro i _
      show keyAt (List.replicate t.array_size ⟨0, 0⟩) i ≠ k
      rw [keyAt_replicate]
      exact Ne.symm hk

theorem C12_clear_witness :
    Reachable demo_4 ∧
      (demo_4.clear.cells = List.replicate demo_4.array_size ⟨0, 0⟩ ∧
      (∀ i, i < demo_4.clear.array_size →
        (cellAt demo_4.clear.cells i).key = 0 ∧ (cellAt demo_4.clear.cells i).value = 0) ∧
      demo_4.clear.zero_used = false ∧ demo_4.clear.cell_zero.value = 0 ∧
      demo_4.clear.population = 0 ∧ demo_4.clear.array_size = demo_4.array_size ∧
      ∀ k, demo_4.clear.lookup k = some cell_ptr.null) :=
  ⟨demo_reachable, C12_clear demo_4 demo_reachable⟩

/-- C13: in every reachable state every empty regular cell has the value 0 and so has
the zero cell while it is not in use; hence for every key that is not present, the cell
that `insert` returns has the value 0, and the `lookup` that follows finds the key with
the value 0. On the empty table `lookup(0)` finds nothing, and after `insert(0)` it
finds the value 0. -/
theorem C13_fresh_value :
    (∀ t : hash_table, Reachable t →
      EmptyValues t ∧
      ∀ k, ¬ t.found k →
        ∃ t1 h x, t.insert k = some (t1, h) ∧ t1.deref h = some x ∧ x.value = 0 ∧
          t1.lookup k = some h ∧ t1.value_of k = some (some 0)) ∧
    (demo_0.lookup 0 = some cell_ptr.null ∧
      ∃ t1 h, demo_0.insert 0 = some (t1, h) ∧ t1.lookup 0 = some h ∧
        t1.value_of 0 = some (some 0)) := by
  refine ⟨fun t hr => ?_, by decide, _, _, rfl, by decide, by decide⟩
  have hinv := reachable_inv hr
  have hv := reachable_values hr
  refine ⟨hv, fun k hk => ?_⟩
  obtain ⟨t1, h, hrun, -, hval⟩ := insert_values hinv hv k
  obtain ⟨x, hx, hx0⟩ := hval hk
  obtain ⟨t2, h2, hrun2, hpost⟩ := insert_spec hinv k
  rw [hrun] at hrun2
  cases hrun2
  refine ⟨t1, h, x, hrun, hx, hx0, hpost.found, ?_⟩
  unfold hash_table.value_of
  rw [hpost.found]
  rcases hpost.ptr with ⟨-, i, hp, -⟩ | ⟨-, hp, -⟩
  · subst hp
    simp only []
    rw [hx, Option.map_some', hx0]
  · subst hp
    simp only []
    rw [hx, Option.map_some', hx0]

theorem C13_fresh_value_witness :
    Reachable demo_4 ∧ ¬ demo_4.found 9 ∧
      ∃ t1 h x, demo_4.insert 9 = some (t1, h) ∧ t1.deref h = some x ∧ x.value = 0 ∧
        t1.lookup 9 = some h ∧ t1.value_of 9 = some (some 0) :=
  ⟨demo_reachable,
    (not_found_iff_null (wf_of_inv (reachable_inv demo_reachable)) 9).2 (by decide),
    (C13_fresh_value.1 demo_4 demo_reachable).2 9
      ((not_found_iff_null (wf_of_inv (reachable_inv demo_reachable)) 9).2 (by decide))⟩

/-- C14, as the code has it: in every reachable state, when the allocation in
`repopulate` fails during a resize of `insert(k)` or during `compact()`, the run is
abandoned and leaves the cells and the zero cell as they were, but `array_size` already
is the size asked for (twice the old size in `insert`); `population` and `zero_used` are
as they were for a nonzero key and for `compact()`, and on the path of the zero key
`zero_used` is already set and `population` already counts the key. -/
theorem C14_failed_resize (t : hash_table) (hr : Reachable t) (alloc : Nat → Bool) :
    (∀ k t1, t.insert_alloc alloc k = some (alloc_result.bad_alloc t1) →
      t1.cells = t.cells ∧ t1.cell_zero = t.cell_zero ∧
      t1.array_size = t.array_size * 2 ∧
      (k ≠ 0 → t1.population = t.population ∧ t1.zero_used = t.zero_used) ∧
      (k = 0 → t1.population = t.population + 1 ∧ t1.zero_used = true)) ∧
    (∀ t1, t.compact_alloc alloc = some (alloc_result.bad_alloc t1) →
      t1.cells = t.cells ∧ t1.cell_zero = t.cell_zero ∧
      t1.array_size = upper_power_of_two ((t.population * 4 + 3) / 3) ∧
      t1.population = t.population ∧ t1.zero_used = t.zero_used) ∧
    (∀ k, ¬ t.found k → (t.population + 1) * 4 ≥ t.array_size * 3 →
      alloc (t.array_size * 2) = false →
      ∃ t1, t.insert_alloc alloc k = some (alloc_result.bad_alloc t1)) ∧
    (alloc (upper_power_of_two ((t.population * 4 + 3) / 3)) = false →
      ∃ t1, t.compact_alloc alloc = some (alloc_result.bad_alloc t1)) := by
  have hinv := reachable_inv hr
  refine ⟨fun k t1 hrun => ?_, fun t1 hrun => ?_, fun k hnf hload ha =>
    insert_alloc_fails hinv hnf hload ha, fun ha => compact_alloc_fails hinv ha⟩
  · obtain ⟨-, -, -, hnz, hz⟩ := insert_alloc_bad hinv hrun
    by_cases hk : k = 0
    · rw [hz hk]
      exact ⟨rfl, rfl, rfl, fun hne => absurd hk hne, fun _ => ⟨rfl, rfl⟩⟩
    · rw [hnz hk]
      exact ⟨rfl, rfl, rfl, fun _ => ⟨rfl, rfl⟩, fun h0 => absurd h0 hk⟩
  · obtain ⟨h1, -⟩ := compact_alloc_bad hrun
    have hfits := hinv.fits
    have hld := hinv.load
    rw [h1]
    refine ⟨rfl, rfl, ?_, rfl, rfl⟩
    show upper_power_of_two ((t.population * 4 + 3) % 2 ^ 64 / 3) = _
    rw [Nat.mod_eq_of_lt (by omega)]

theorem C14_failed_resize_witness :
    Reachable demo_one ∧
      demo_one.insert_alloc (fun _ => false) 5 =
        some (alloc_result.bad_alloc { demo_one with array_size := 2 }) ∧
      ({ demo_one with array_size := 2 } : hash_table).cells = demo_one.cells ∧
      ({ demo_one with array_size := 2 } : hash_table).array_size = demo_one.array_size * 2 :=
  ⟨demo_one_reachable, rfl,
    ((C14_failed_resize demo_one demo_one_reachable (fun _ => false)).1 5 _ rfl).1,
    ((C14_failed_resize demo_one demo_one_reachable (fun _ => false)).1 5 _ rfl).2.2.1⟩

/-- C14, as the specification has it, fails: in the reachable table `hash_table(1)`,
`insert(5)` with a failing allocation leaves `array_size` 2 with an array of one cell,
and `insert(0)` with a failing allocation leaves in addition `zero_used` set and
`population` 1. -/
theorem C14_counterexample :
    Reachable demo_one ∧
      (∃ t1, demo_one.insert_alloc (fun _ => false) 5 = some (alloc_result.bad_alloc t1) ∧
        t1.array_size = 2 ∧ demo_one.array_size = 1 ∧ t1.cells.length = 1) ∧
      (∃ t1, demo_one.insert_alloc (fun _ => false) 0 = some (alloc_result.bad_alloc t1) ∧
        t1.array_size = 2 ∧ t1.zero_used = true ∧ t1.population = 1 ∧
        demo_one.zero_used = false ∧ demo_one.population = 0) :=
  ⟨demo_one_reachable, ⟨_, rfl, rfl, rfl, rfl⟩, ⟨_, rfl, rfl, rfl, rfl, rfl, rfl⟩⟩

/-- C15 at the size 0: the check `(n & (n - 1)) == 0` passes for `n = 0`, which is not a
power of two; the constructor then builds a table without cells, in which a lookup of a
nonzero key has no defined result. -/
theorem C15_check_accepts_zero :
    power_of_2_assert 0 = true ∧ ¬ IsPow2 0 ∧
      hash_table.construct 0 = some ⟨[], 0, 0, false, ⟨0, 0⟩⟩ ∧
      hash_table.lookup ⟨[], 0, 0, false, ⟨0, 0⟩⟩ 1 = none := by
  refine ⟨by decide, ?_, by decide, by decide⟩
  rintro ⟨e, he⟩
  have := Nat.two_pow_pos e
  omega

/-- C16: in every reachable state, for every occupied regular cell, with index `i` and
key `k`, every cell on the forward circular run from the index
`integer_hash(k) mod array_size` up to and including `i` holds a key; and this is again
so after `delete` of any occupied regular cell. -/
theorem C16_no_gaps (t : hash_table) (hr : Reachable t) :
    t.chains_without_gaps ∧
    ∀ c, c < t.array_size → keyAt t.cells c ≠ 0 →
      ∃ t1, t.delete (cell_ptr.reg c) = some t1 ∧ t1.chains_without_gaps := by
  have hinv := reachable_inv hr
  have hw := wf_of_inv hinv
  refine ⟨chains_of_nogaps hinv.len hinv.pow2 hw.small hinv.nogaps, fun c hc hkc => ?_⟩
  have hlk := lookup_found hw hkc hc rfl
  obtain ⟨t1, hdel, hpost⟩ := delete_key_spec hinv (keyAt t.cells c)
  have hdel1 : t.delete (cell_ptr.reg c) = some t1 := by
    unfold hash_table.delete_key at hdel
    rw [hlk] at hdel
    exact hdel
  have hw1 := wf_of_inv hpost.inv
  exact ⟨t1, hdel1, chains_of_nogaps hpost.inv.len hpost.inv.pow2 hw1.small hpost.inv.nogaps⟩

theorem C16_no_gaps_witness :
    Reachable demo_4 ∧ demo_4.chains_without_gaps ∧
      ((5 : Nat) < demo_4.array_size ∧ keyAt demo_4.cells 5 ≠ 0 ∧
        ∃ t1, demo_4.delete (cell_ptr.reg 5) = some t1 ∧ t1.chains_without_gaps) :=
  ⟨demo_reachable, (C16_no_gaps demo_4 demo_reachable).1, by decide, by decide,
    (C16_no_gaps demo_4 demo_reachable).2 5 (by decide) (by decide)⟩

/-- C17: in every reachable state no two regular cells hold the same nonzero key, and
this is again so after `insert` (with or without a resize), after `delete`, after
`clear` and after `compact`. -/
theorem C17_no_duplicates (t : hash_table) (hr : Reachable t) :
    NoDupKeys t.cells ∧
    (∀ k, ∃ t1 h, t.insert k = some (t1, h) ∧ NoDupKeys t1.cells) ∧
    (∀ k, ∃ t1, t.delete_key k = some t1 ∧ NoDupKeys t1.cells) ∧
    NoDupKeys t.clear.cells ∧
    (∃ t1, t.compact = some t1 ∧ NoDupKeys t1.cells) := by
  have hinv := reachable_inv hr
  refine ⟨hinv.nodup, fun k => ?_, fun k => ?_, (clear_inv hinv).nodup, ?_⟩
  · obtain ⟨t1, h, hrun, hpost⟩ := insert_spec hinv k
    exact ⟨t1, h, hrun, hpost.wf.nodup⟩
  · obtain ⟨t1, hdel, hpost⟩ := delete_key_spec hinv k
    exact ⟨t1, hdel, hpost.inv.nodup⟩
  · obtain ⟨out, e, hrun, hinv1, -⟩ := compact_spec hinv
    exact ⟨_, hrun, hinv1.nodup⟩

theorem C17_no_duplicates_witness :
    Reachable demo_4 ∧
      (NoDupKeys demo_4.cells ∧
      (∀ k, ∃ t1 h, demo_4.insert k = some (t1, h) ∧ NoDupKeys t1.cells) ∧
      (∀ k, ∃ t1, demo_4.delete_key k = some t1 ∧ NoDupKeys t1.cells) ∧
      NoDupKeys demo_4.clear.cells ∧
      (∃ t1, demo_4.compact = some t1 ∧ NoDupKeys t1.cells)) :=
  ⟨demo_reachable, C17_no_duplicates demo_4 demo_reachable⟩

/-- C18: in every reachable state and for distinct keys `k1` and `k2`, `lookup(k2)`
finds the same (nothing, or a cell with the same value) before and after `insert(k1)`,
with or without a resize. -/
theorem C18_insert_keeps_others (t : hash_table) (hr : Reachable t) (k1 k2 : Nat)
    (hne : k1 ≠ k2) :
    ∃ t1 h r, t.insert k1 = some (t1, h) ∧ t.value_of k2 = some r ∧
      t1.value_of k2 = some r ∧ (t1.found k2 ↔ t.found k2) := by
  have hinv := reachable_inv hr
  have hw := wf_of_inv hinv
  obtain ⟨t1, h, hrun, hpost⟩ := insert_spec hinv k1
  obtain ⟨r, hr1, hr2⟩ :=
    value_of_congr_key hw hpost.wf k2
      (fun x hx hxk => hpost.frame x hx (by rw [hxk]; exact Ne.symm hne))
      (fun h0 => hpost.zero_frame.2 (by rw [h0] at hne; exact hne))
      hpost.zero_frame.1
  exact ⟨t1, h, r, hrun, hr1, hr2, insert_found_frame hw hpost (Ne.symm hne)⟩

theorem C18_insert_keeps_others_witness :
    Reachable demo_4 ∧ (9 : Nat) ≠ 5 ∧
      ∃ t1 h r, demo_4.insert 9 = some (t1, h) ∧ demo_4.value_of 5 = some r ∧
        t1.value_of 5 = some r ∧ (t1.found 5 ↔ demo_4.found 5) :=
  ⟨demo_reachable, by decide, C18_insert_keeps_others demo_4 demo_reachable 9 5 (by decide)⟩

/-- C19: in every reachable state `population * 4 < array_size * 3` strictly, fewer
regular cells are occupied than there are, and some regular cell is empty; so the probe
loops of `lookup`, `insert` and `delete` stop within `array_size` steps, and those of
`repopulate` (called by `insert` with twice the size, and by `compact`) stop within the
new size. -/
theorem C19_empty_cell (t : hash_table) (hr : Reachable t) :
    t.population * 4 < t.array_size * 3 ∧
    occupied t.cells < t.array_size ∧
    (∃ e, e < t.array_size ∧ keyAt t.cells e = 0) ∧
    (∀ k, ∃ r, lookup_loop t.cells t.array_size k t.array_size
      (FIRST_CELL t.array_size (integer_hash k)) = some r) ∧
    (∀ k, ∃ r, insert_probe t.cells t.array_size k t.array_size
      (FIRST_CELL t.array_size (integer_hash k)) = some r) ∧
    (∀ c, c < t.array_size → keyAt t.cells c ≠ 0 →
      ∃ out, delete_loop t.array_size t.array_size t.cells c
        (CIRCULAR_NEXT t.array_size c) = some out) ∧
    (∃ out, repopulate_loop (t.array_size * 2) t.cells
      (List.replicate (t.array_size * 2) ⟨0, 0⟩) = some out) ∧
    (∃ out, repopulate_loop (upper_power_of_two ((t.population * 4 + 3) / 3)) t.cells
      (List.replicate (upper_power_of_two ((t.population * 4 + 3) / 3)) ⟨0, 0⟩) =
        some out) := by
  have hinv := reachable_inv hr
  have hw := wf_of_inv hinv
  have hpop := hinv.pop
  have hld := hinv.load
  have hfits := hinv.fits
  have hocc : occupied t.cells ≤ t.population := by omega
  have hpos := isPow2_pos hinv.pow2
  have hprobe : ∀ k, ∃ r, insert_probe t.cells t.array_size k t.array_size
      (FIRST_CELL t.array_size (integer_hash k)) = some r := by
    intro k
    obtain ⟨e, he, hke⟩ := hw.has_empty
    obtain ⟨q, -, -, -, hres⟩ :=
      insert_probe_post t.cells t.array_size k hw.len t.array_size
        (FIRST_CELL t.array_size (integer_hash k)) e (FIRST_CELL_lt hpos hw.small _) he hke
        (offset_lt (FIRST_CELL_lt hpos hw.small _) he)
    rcases hres with ⟨-, h⟩ | ⟨-, -, h⟩ <;> exact ⟨_, h⟩
  refine ⟨hld, by omega, hw.has_empty, fun k => ?_, hprobe, fun c hc hkc => ?_, ?_, ?_⟩
  · obtain ⟨r, hr1⟩ := hprobe k
    rw [lookup_loop_eq_insert_probe, hr1]
    exact ⟨_, rfl⟩
  · obtain ⟨out, hdel, -⟩ := delete_reg_spec hinv hc hkc
    unfold hash_table.delete at hdel
    simp only [] at hdel
    rw [getElem?_eq_cellAt (by rw [hw.len]; exact hc)] at hdel
    simp only [] at hdel
    rw [if_pos ⟨hc, hkc⟩] at hdel
    cases hl : delete_loop t.array_size t.array_size t.cells c
        (CIRCULAR_NEXT t.array_size c) with
    | none => rw [hl] at hdel; cases hdel
    | some out1 => exact ⟨out1, rfl⟩
  · obtain ⟨e, he⟩ := hinv.pow2
    obtain ⟨out, hrep, -⟩ :=
      repopulate_spec (t := t) (d := t.array_size * 2) (e := e + 1) hinv.nodup hocc
        (by rw [he, pow_succ]) (by omega) (by omega)
    unfold hash_table.repopulate at hrep
    split_ifs at hrep
    cases hl : repopulate_loop (t.array_size * 2) t.cells
        (List.replicate (t.array_size * 2) ⟨0, 0⟩) with
    | none => rw [hl] at hrep; cases hrep
    | some out1 => exact ⟨out1, rfl⟩
  · obtain ⟨out, e, hrun, -⟩ := compact_spec hinv
    unfold hash_table.compact hash_table.repopulate at hrun
    rw [Nat.mod_eq_of_lt (by omega)] at hrun
    split_ifs at hrun
    cases hl : repopulate_loop (upper_power_of_two ((t.population * 4 + 3) / 3)) t.cells
        (List.replicate (upper_power_of_two ((t.population * 4 + 3) / 3)) ⟨0, 0⟩) with
    | none => rw [hl] at hrun; cases hrun
    | some out1 => exact ⟨out1, rfl⟩

theorem C19_empty_cell_witness :
    Reachable demo_4 ∧ demo_4.population * 4 < demo_4.array_size * 3 ∧
      (∃ e, e < demo_4.array_size ∧ keyAt demo_4.cells e = 0) :=
  ⟨demo_reachable, (C19_empty_cell demo_4 demo_reachable).1,
    (C19_empty_cell demo_4 demo_reachable).2.2.1⟩

/-- C20: in every reachable state, both assertions of `repopulate` hold at each call that
`insert` makes (with twice the size, on the path of a nonzero key and, with `zero_used`
set and `population` already incremented, on the path of the zero key) and at the call
that `compact` makes; `upper_power_of_two(v)` is a power of two that is at least `v`
for every `v` from 1 to `2 ^ 63`. -/
theorem C20_asserts_hold :
    (∀ t : hash_table, Reachable t →
      t.population < 2 ^ 61 ∧
      repopulate_assert t ((t.array_size * 2) % 2 ^ 64) = true ∧
      repopulate_assert
        { t with zero_used := true, population := (t.population + 1) % 2 ^ 64 }
        ((t.array_size * 2) % 2 ^ 64) = true ∧
      repopulate_assert t
        (upper_power_of_two (((t.population * 4 + 3) % 2 ^ 64) / 3)) = true) ∧
    (∀ v, 1 ≤ v → v ≤ 2 ^ 63 → ∃ e, upper_power_of_two v = 2 ^ e ∧ v ≤ 2 ^ e) := by
  constructor
  · intro t hr
    have hinv := reachable_inv hr
    have hfits := hinv.fits
    have hld := hinv.load
    have hm : t.array_size * 2 % 2 ^ 64 = t.array_size * 2 := Nat.mod_eq_of_lt (by omega)
    refine ⟨by omega, ?_, ?_, ?_⟩
    · rw [hm]
      exact repopulate_assert_double hinv t (Nat.le_succ _)
    · rw [hm]
      apply repopulate_assert_double hinv
      show (t.population + 1) % 2 ^ 64 ≤ t.population + 1
      exact Nat.mod_le _ _
    · obtain ⟨out, e, hrun, -⟩ := compact_spec hinv
      unfold hash_table.compact hash_table.repopulate at hrun
      by_cases hs : repopulate_assert t
          (upper_power_of_two ((t.population * 4 + 3) % 2 ^ 64 / 3)) = true
      · exact hs
      · rw [if_neg hs] at hrun
        cases hrun
  · intro v h1 h2
    obtain ⟨e, he, -, hle, -⟩ := upper_power_of_two_spec h1 h2
    exact ⟨e, he, hle⟩

theorem C20_asserts_hold_witness :
    (Reachable demo_4 ∧ repopulate_assert demo_4 ((demo_4.array_size * 2) % 2 ^ 64) = true) ∧
      ((1 : Nat) ≤ 5 ∧ (5 : Nat) ≤ 2 ^ 63 ∧ ∃ e, upper_power_of_two 5 = 2 ^ e ∧ 5 ≤ 2 ^ e) :=
  ⟨⟨demo_reachable, (C20_asserts_hold.1 demo_4 demo_reachable).2.1⟩,
    by decide, by decide, C20_asserts_hold.2 5 (by decide) (by decide)⟩

end noob
